import Mathlib

/-!
Verification of the DLX (dancing links) exact-cover solver of `dlx_contexpr.h`.

The C++ arena (`struct data`) holds seven parallel arrays indexed by `std::size_t`:
column sizes `S` (length `NumCols + 1`), the directional arrays `R`, `L`, `U`, `D`,
the column map `C` and the row map `RM` (each of length `NumCols + 1 + NumNodes`).
We embed the arena as a structure of `List Nat` fields, reads as `getD · 0` and
writes as `List.set` (a read or write past the end of an array is undefined
behaviour in the C++; the embedding reads 0 / drops the write there).  `size_t`
arithmetic on the `S` counters is modelled modulo `2 ^ 64`.  The C++ `while` /
`for` loops that chase links can diverge on malformed states, so every loop takes
a fuel argument and returns `none` when the fuel runs out; on any state where the
C++ loop terminates, every large enough fuel returns `some` of the same result.
-/

namespace DlxSpec

/-- Modulus of the C++ `std::size_t` arithmetic. -/
def W64 : Nat := 2 ^ 64

/-- The DLX arena: the fields of `struct data` in `dlx_contexpr.h`. -/
structure DlxData where
  S : List Nat
  R : List Nat
  L : List Nat
  U : List Nat
  D : List Nat
  C : List Nat
  RM : List Nat
deriving DecidableEq

/-- Array read `a[i]`; out-of-range reads give 0. -/
def aget (l : List Nat) (i : Nat) : Nat := l.getD i 0

/-- Array write `a[i] = v`; out-of-range writes are dropped. -/
def aset (l : List Nat) (i v : Nat) : List Nat := l.set i v

/-- Solution-vector read `sol[i]`. -/
def bget (l : List Bool) (i : Nat) : Bool := l.getD i false

/-- Body of the node-creation loop of `DLX::init` for the node of position
`positions[idx] = rc` (`posIdx = HeaderSize + idx`), with `rowStart` the index of
the first position of the current row run and `rowNumber` its row number.  The
eleven writes appear in the order of the C++ statements. -/
def addNode (H rowStart rowNumber : Nat) (d : DlxData) (idx : Nat) (rc : Nat × Nat) : DlxData :=
  let column := rc.2
  let posIdx := H + idx
  let d1 := { d with C := aset d.C posIdx column }
  let d2 := { d1 with RM := aset d1.RM posIdx rowNumber }
  let d3 := { d2 with U := aset d2.U posIdx (aget d2.U column) }
  let d4 := { d3 with D := aset d3.D posIdx column }
  let d5 := { d4 with D := aset d4.D (aget d4.U column) posIdx }
  let d6 := { d5 with U := aset d5.U column posIdx }
  let d7 := { d6 with S := aset d6.S column ((aget d6.S column + 1) % W64) }
  let d8 := { d7 with L := aset d7.L posIdx (if rowStart < idx then posIdx - 1 else posIdx) }
  let d9 := { d8 with R := aset d8.R posIdx (rowStart + H) }
  let d10 := { d9 with L := aset d9.L (aget d9.R posIdx) posIdx }
  { d10 with R := aset d10.R (aget d10.L posIdx) posIdx }

/-- One-pass form of the outer `while (rowIdx < NumNodes)` loop of `DLX::init`.
The C++ loop splits the position list into maximal runs of equal row numbers and
links the nodes of each run in index order; equivalently, position `idx` belongs
to the run begun at the latest index whose row number differs from its
predecessor's.  `rowStart` and `rowNumber` carry the current run; a position
whose row number differs starts a new run at its own index. -/
def initRowsGo (H : Nat) : Nat → Nat → Nat → List (Nat × Nat) → DlxData → DlxData
  | _, _, _, [], d => d
  | rowStart, rowNumber, idx, p :: rest, d =>
      if p.1 = rowNumber then
        initRowsGo H rowStart rowNumber (idx + 1) rest (addNode H rowStart rowNumber d idx p)
      else
        initRowsGo H idx p.1 (idx + 1) rest (addNode H idx p.1 d idx p)

/-- Outer row-linking loop of `DLX::init` over the whole position list. -/
def initRows (H : Nat) (l : List (Nat × Nat)) (d : DlxData) : DlxData :=
  match l with
  | [] => d
  | p :: _ => initRowsGo H 0 p.1 0 l d

/-- Body of the first header loop of `DLX::init`
(`U[i] = i; D[i] = i; C[i] = i; S[i] = 0; RM[i] = NumRows;`). -/
def initHeaderStep (NumRows : Nat) (d : DlxData) (i : Nat) : DlxData :=
  { d with U := aset d.U i i, D := aset d.D i i, C := aset d.C i i,
           S := aset d.S i 0, RM := aset d.RM i NumRows }

/-- Body of the second header loop of `DLX::init`
(`R[i] = (i + 1) % HeaderSize; L[i] = (i - 1 + HeaderSize) % HeaderSize;`).
The C++ left-link expression is computed in `size_t`, so its `i = 0` case wraps
around; for `i < HeaderSize` it equals `(i + HeaderSize - 1) % HeaderSize`. -/
def initLinkStep (H : Nat) (d : DlxData) (i : Nat) : DlxData :=
  let da := { d with R := aset d.R i ((i + 1) % H) }
  { da with L := aset da.L i ((i + H - 1) % H) }

/-- The blank arena: every array zero-filled, `S` of length `HeaderSize` and the
others of length `dim = HeaderSize + NumNodes` (`data d{}` of the C++). -/
def blankData (H n : Nat) : DlxData :=
  ⟨List.replicate H 0, List.replicate (H + n) 0, List.replicate (H + n) 0,
    List.replicate (H + n) 0, List.replicate (H + n) 0, List.replicate (H + n) 0,
    List.replicate (H + n) 0⟩

/-- The builder `DLX::init`.  `NumNodes` of the C++ template is the length of the
position list. -/
def dlxInit (NumCols NumRows : Nat) (ps : List (Nat × Nat)) : DlxData :=
  let H := NumCols + 1
  let d1 := (List.range H).foldl (initHeaderStep NumRows) (blankData H ps.length)
  let d2 := (List.range H).foldl (initLinkStep H) d1
  initRows H ps d2

/-- One splice of the inner loop of `DLX::coverColumn`:
`U[D[j]] = U[j]; D[U[j]] = D[j]; --S[C[j]];` (statements run in order, each read
from the current state; the `size_t` decrement wraps at 0). -/
def spliceOut (s : DlxData) (j : Nat) : DlxData :=
  let s1 := { s with U := aset s.U (aget s.D j) (aget s.U j) }
  let s2 := { s1 with D := aset s1.D (aget s1.U j) (aget s1.D j) }
  { s2 with S := aset s2.S (aget s2.C j) ((aget s2.S (aget s2.C j) + (W64 - 1)) % W64) }

/-- One splice of the inner loop of `DLX::uncoverColumn`:
`++S[C[j]]; D[U[j]] = j; U[D[j]] = j;`. -/
def spliceIn (s : DlxData) (j : Nat) : DlxData :=
  let s1 := { s with S := aset s.S (aget s.C j) ((aget s.S (aget s.C j) + 1) % W64) }
  let s2 := { s1 with D := aset s1.D (aget s1.U j) j }
  { s2 with U := aset s2.U (aget s2.D j) j }

/-- Inner loop of `DLX::coverColumn`: `for (j = R[i]; j != i; j = R[j])` splice `j`. -/
def coverInner : Nat → DlxData → Nat → Nat → Option DlxData
  | 0, _, _, _ => none
  | fuel + 1, s, i, j =>
      if j = i then some s
      else
        let s2 := spliceOut s j
        coverInner fuel s2 i (aget s2.R j)

/-- Outer loop of `DLX::coverColumn`: `for (i = D[c]; i != c; i = D[i])` run the
inner loop on row `i`. -/
def coverOuter : Nat → DlxData → Nat → Nat → Option DlxData
  | 0, _, _, _ => none
  | fuel + 1, s, c, i =>
      if i = c then some s
      else
        match coverInner (fuel + 1) s i (aget s.R i) with
        | none => none
        | some s2 => coverOuter fuel s2 c (aget s2.D i)

/-- The two header-splice statements of `DLX::coverColumn`
(`L[R[c]] = L[c]; R[L[c]] = R[c];`, each read from the current state). -/
def headerSplice (s : DlxData) (c : Nat) : DlxData :=
  let s1 := { s with L := aset s.L (aget s.R c) (aget s.L c) }
  { s1 with R := aset s1.R (aget s1.L c) (aget s1.R c) }

/-- `DLX::coverColumn`: remove the column from the header and run the
row-removal loops. -/
def coverColumn (fuel : Nat) (s : DlxData) (c : Nat) : Option DlxData :=
  let s2 := headerSplice s c
  coverOuter fuel s2 c (aget s2.D c)

/-- Inner loop of `DLX::uncoverColumn`: `for (j = L[i]; j != i; j = L[j])` splice `j` back. -/
def uncoverInner : Nat → DlxData → Nat → Nat → Option DlxData
  | 0, _, _, _ => none
  | fuel + 1, s, i, j =>
      if j = i then some s
      else
        let s2 := spliceIn s j
        uncoverInner fuel s2 i (aget s2.L j)

/-- Outer loop of `DLX::uncoverColumn`: `for (i = U[c]; i != c; i = U[i])`. -/
def uncoverOuter : Nat → DlxData → Nat → Nat → Option DlxData
  | 0, _, _, _ => none
  | fuel + 1, s, c, i =>
      if i = c then some s
      else
        match uncoverInner (fuel + 1) s i (aget s.L i) with
        | none => none
        | some s2 => uncoverOuter fuel s2 c (aget s2.U i)

/-- `DLX::uncoverColumn`: run the row-restoring loops, then restore the column to
the header (`R[L[c]] = c; L[R[c]] = c;`). -/
def uncoverColumn (fuel : Nat) (s : DlxData) (c : Nat) : Option DlxData :=
  match uncoverOuter fuel s c (aget s.U c) with
  | none => none
  | some s1 =>
      let s2 := { s1 with R := aset s1.R (aget s1.L c) c }
      some { s2 with L := aset s2.L (aget s2.R c) c }

/-- The `do { coverColumn(state, C[i]); i = R[i]; } while (i != rowIdx)` loop of
`DLX::useRow`. -/
def useRowLoop : Nat → Nat → DlxData → Nat → Nat → Option DlxData
  | 0, _, _, _, _ => none
  | fuel + 1, cfuel, s, start, i =>
      match coverColumn cfuel s (aget s.C i) with
      | none => none
      | some s2 =>
          let i2 := aget s2.R i
          if i2 = start then some s2 else useRowLoop fuel cfuel s2 start i2

/-- `DLX::useRow`: mark `sol[RM[rowIdx]]` and cover every column of the row of
node `rowIdx`. -/
def useRow (fuel : Nat) (s : DlxData) (rowIdx : Nat) (sol : List Bool) :
    Option (DlxData × List Bool) :=
  let sol2 := sol.set (aget s.RM rowIdx) true
  match useRowLoop fuel fuel s rowIdx rowIdx with
  | none => none
  | some s2 => some (s2, sol2)

/-- Column-selection loop of `DLX::find_solution`
(`for (i = R[minColumnIndex]; i != header; i = R[i]) if (S[i] < S[min]) min = i`). -/
def chooseLoop : Nat → DlxData → Nat → Nat → Nat → Option Nat
  | 0, _, _, _, _ => none
  | fuel + 1, s, header, i, m =>
      if i = header then some m
      else
        let m2 := if aget s.S i < aget s.S m then i else m
        chooseLoop fuel s header (aget s.R i) m2

/-- The `for (j = R[i]; j != i; j = R[j]) coverColumn(state, C[j]);` loop of
`DLX::find_solution`. -/
def coverCols : Nat → DlxData → Nat → Nat → Option DlxData
  | 0, _, _, _ => none
  | fuel + 1, s, i, j =>
      if j = i then some s
      else
        match coverColumn (fuel + 1) s (aget s.C j) with
        | none => none
        | some s2 => coverCols fuel s2 i (aget s2.R j)

/-- The `for (j = L[i]; j != i; j = L[j]) uncoverColumn(state, C[j]);` loop of
`DLX::find_solution`. -/
def uncoverCols : Nat → DlxData → Nat → Nat → Option DlxData
  | 0, _, _, _ => none
  | fuel + 1, s, i, j =>
      if j = i then some s
      else
        match uncoverColumn (fuel + 1) s (aget s.C j) with
        | none => none
        | some s2 => uncoverCols fuel s2 i (aget s2.L j)

/-- Combined body of the mutually recursive pair formed by `DLX::find_solution`
and its candidate-row loop, made structurally recursive on the fuel so that it
reduces definitionally.  With `inRowLoop = false` the call is
`find_solution(header, s, sol)` (`m` and `i` are ignored); with
`inRowLoop = true` it is the `for (i = D[m]; i != m; i = D[i])` loop of
`find_solution` with chosen column `m` and current candidate node `i`. -/
def searchGo : Nat → Bool → Nat → Nat → DlxData → List Bool → Nat →
    Option (Option (List Bool) × DlxData × List Bool)
  | 0, _, _, _, _, _, _ => none
  | fuel + 1, false, header, _, s, sol, _ =>
      if aget s.R header = header then some (some sol, s, sol)
      else
        match chooseLoop (fuel + 1) s header (aget s.R (aget s.R header)) (aget s.R header) with
        | none => none
        | some m =>
            if m = header ∨ aget s.S m = 0 then some (none, s, sol)
            else
              match coverColumn (fuel + 1) s m with
              | none => none
              | some s2 =>
                  match searchGo fuel true header m s2 sol (aget s2.D m) with
                  | none => none
                  | some (some v, s3, sol3) => some (some v, s3, sol3)
                  | some (none, s3, sol3) =>
                      match uncoverColumn (fuel + 1) s3 m with
                      | none => none
                      | some s4 => some (none, s4, sol3)
  | fuel + 1, true, header, m, s, sol, i =>
      if i = m then some (none, s, sol)
      else
        let sol1 := sol.set (aget s.RM i) true
        match coverCols (fuel + 1) s i (aget s.R i) with
        | none => none
        | some s1 =>
            match searchGo fuel false header 0 s1 sol1 0 with
            | none => none
            | some (some v, s2, sol2) => some (some v, s2, sol2)
            | some (none, s2, sol2) =>
                let sol3 := sol2.set (aget s2.RM i) false
                match uncoverCols (fuel + 1) s2 i (aget s2.L i) with
                | none => none
                | some s3 => searchGo fuel true header m s3 sol3 (aget s3.D i)

/-- `DLX::find_solution`.  The result carries the returned `optional<solution>`
together with the arena and the (by-reference) solution vector as they are when
the call returns; the outer `Option` is fuel exhaustion. -/
def find_solution (fuel header : Nat) (s : DlxData) (sol : List Bool) :
    Option (Option (List Bool) × DlxData × List Bool) :=
  searchGo fuel false header 0 s sol 0

/-- Candidate-row loop of `DLX::find_solution`
(`for (i = D[minColumnIndex]; i != minColumnIndex; i = D[i])`). -/
def rowLoop (fuel header m : Nat) (s : DlxData) (sol : List Bool) (i : Nat) :
    Option (Option (List Bool) × DlxData × List Bool) :=
  searchGo fuel true header m s sol i

/-- `DLX::init_solution`: the all-false vector of length `NumRows`. -/
def init_solution (NumRows : Nat) : List Bool := List.replicate NumRows false

/-- The single-argument `DLX::run`: build the arena and search. -/
def dlxRun (fuel NumCols NumRows : Nat) (ps : List (Nat × Nat)) :
    Option (Option (List Bool)) :=
  match find_solution fuel NumCols (dlxInit NumCols NumRows ps) (init_solution NumRows) with
  | none => none
  | some (res, _, _) => some res

/-- The `for (const auto row : fixed_rows) useRow(state, row + HeaderSize, sol);`
loop of the forced-rows `DLX::run` overload. -/
def applyForced (fuel H : Nat) : List Nat → DlxData → List Bool → Option (DlxData × List Bool)
  | [], s, sol => some (s, sol)
  | r :: rest, s, sol =>
      match useRow fuel s (r + H) sol with
      | none => none
      | some (s2, sol2) => applyForced fuel H rest s2 sol2

/-- The forced-rows `DLX::run` overload. -/
def dlxRunForced (fuel NumCols NumRows : Nat) (ps : List (Nat × Nat)) (fixedRows : List Nat) :
    Option (Option (List Bool)) :=
  match applyForced fuel (NumCols + 1) fixedRows (dlxInit NumCols NumRows ps)
      (init_solution NumRows) with
  | none => none
  | some (s, sol) =>
      match find_solution fuel NumCols s sol with
      | none => none
      | some (res, _, _) => some res

/-!
Pure link-walk functions used to state the properties of the cover and uncover
loops.  `walkTo arr stop start fuel` collects the nodes visited by
`for (i = start; i != stop; i = arr[i])`, evaluated on a fixed array; the loop
specifications below relate the mutating loops to walks on the pre-state.
-/

/-- Collect the nodes of the walk `start, arr[start], arr[arr[start]], ...` up to
(excluding) the first hit of `stop`; `none` if `stop` is not reached within
`fuel` steps. -/
def walkTo (arr : List Nat) (stop : Nat) : Nat → Nat → Option (List Nat)
  | _, 0 => none
  | i, fuel + 1 =>
      if i = stop then some []
      else
        match walkTo arr stop (aget arr i) fuel with
        | none => none
        | some l => some (i :: l)

/-- One step of the minimum-tracking of the column-selection loop of
`find_solution`. -/
def pickMin (s : DlxData) (m i : Nat) : Nat :=
  if aget s.S i < aget s.S m then i else m

/-- The cover plan of column `c` on state `s`: the list of rows of `c`'s
vertical ring, each with the list of its other cells (its right-walk), exactly
the nodes spliced by `coverColumn c`. -/
def coverPlan (s : DlxData) (c : Nat) (fuel : Nat) : Option (List (Nat × List Nat)) :=
  match walkTo s.D c (aget s.D c) fuel with
  | none => none
  | some I =>
      match I.mapM (fun i => (walkTo s.R i (aget s.R i) fuel).map (fun J => (i, J))) with
      | none => none
      | some plan => some plan

/-- The flat list of nodes spliced by `coverColumn c`, in splice order. -/
def planCells (plan : List (Nat × List Nat)) : List Nat :=
  plan.flatMap Prod.snd

/-- Node `j` is properly doubly linked into its vertical ring:
`D[U[j]] = j` and `U[D[j]] = j`. -/
abbrev linkedV (s : DlxData) (j : Nat) : Prop :=
  aget s.D (aget s.U j) = j ∧ aget s.U (aget s.D j) = j

/-- Every vertical link stays inside its column: `C[U[x]] = C[x]` and
`C[D[x]] = C[x]` for every index of the arena.  This holds of the built arena
and is preserved by the splices, for active and detached nodes alike. -/
abbrev colCoherent (s : DlxData) : Prop :=
  ∀ x, x < s.C.length → aget s.C (aget s.U x) = aget s.C x ∧
    aget s.C (aget s.D x) = aget s.C x

/-- The vertical links of every arena index stay below the arena size. -/
abbrev linksBounded (s : DlxData) : Prop :=
  ∀ x, x < s.C.length → aget s.U x < s.C.length ∧ aget s.D x < s.C.length

/-- The `U`, `D` and `S` arrays have coherent lengths and every size counter is
a `size_t` value. -/
def arenaSized (s : DlxData) : Prop :=
  s.U.length = s.C.length ∧ s.D.length = s.C.length ∧
    ∀ k, k < s.S.length → aget s.S k < W64

/-- `Seg arr start l e`: starting at `start` and repeatedly following `arr`, the
walk visits exactly the nodes of `l` and then sits at `e`. -/
def Seg (arr : List Nat) : Nat → List Nat → Nat → Prop
  | start, [], e => start = e
  | start, x :: l, e => start = x ∧ Seg arr (aget arr x) l e

/-- The uncover plan matching a cover plan: rows in reverse order, each row's
cells reversed (the order in which `uncoverColumn` re-splices). -/
def revPlan (plan : List (Nat × List Nat)) : List (Nat × List Nat) :=
  (plan.map (fun p => (p.1, p.2.reverse))).reverse

/-- Well-formedness of state `s` along column `c` with cover plan `plan`: the
decidable facts about `s` under which `coverColumn c` performs exactly the
splices of `plan` and `uncoverColumn c` undoes them.  They hold of every state
the search reaches, for every column still in the header ring.  `H` is
`HeaderSize = NumCols + 1`. -/
abbrev coverOK (H : Nat) (s : DlxData) (c : Nat) (plan : List (Nat × List Nat)) : Prop :=
  colCoherent s ∧ linksBounded s ∧ s.U.length = s.C.length ∧ s.D.length = s.C.length ∧
  (∀ k, k < s.S.length → aget s.S k < W64) ∧
  aget s.C c = c ∧ c < H ∧ aget s.R c ≠ c ∧ aget s.L c ≠ c ∧
  aget s.L c < H ∧ aget s.R c < H ∧
  aget s.R (aget s.L c) = c ∧ aget s.L (aget s.R c) = c ∧
  walkTo s.D c (aget s.D c) (plan.length + 1) = some (plan.map Prod.fst) ∧
  (∀ p ∈ plan, walkTo s.R p.1 (aget s.R p.1) (p.2.length + 1) = some p.2) ∧
  (∀ p ∈ plan, aget s.C p.1 = c ∧ H ≤ p.1) ∧
  (∀ j ∈ planCells plan, aget s.C j ≠ c ∧ j < s.C.length ∧ H ≤ j) ∧
  (planCells plan).Nodup ∧
  (∀ j ∈ planCells plan, linkedV s j) ∧
  (∀ x ∈ c :: plan.map Prod.fst, aget s.U (aget s.D x) = x) ∧
  (∀ p ∈ plan, ∀ x ∈ p.1 :: p.2, aget s.L (aget s.R x) = x)

/-- Invariant carried through the splice folds of a cover or uncover of column
`c` starting from state `base`: the horizontal arrays and `C`/`RM` are
untouched, coherence and bounds persist, and the vertical links of every node
of column `c` (and the size entry of `c`) are untouched. -/
def spliceInv (c : Nat) (base t : DlxData) : Prop :=
  t.C = base.C ∧ t.R = base.R ∧ t.L = base.L ∧ t.RM = base.RM ∧
  colCoherent t ∧ linksBounded t ∧
  t.U.length = base.U.length ∧ t.D.length = base.D.length ∧ t.S.length = base.S.length ∧
  t.U.length = t.C.length ∧ t.D.length = t.C.length ∧
  (∀ x, aget base.C x = c → aget t.U x = aget base.U x ∧ aget t.D x = aget base.D x) ∧
  aget t.S c = aget base.S c

/-- The canonical result of a successful `coverColumn c` on a state whose cover
plan is `plan`: the header splice followed by the splice fold over the plan
cells. -/
def canonCover (s : DlxData) (c : Nat) (plan : List (Nat × List Nat)) : DlxData :=
  (planCells plan).foldl spliceOut (headerSplice s c)

/-- Drop from every column's plan the rows whose node index lies in `rm` (the
rows removed by a cover). -/
def plansFilter (cols : List (Nat × List (Nat × List Nat))) (rm : List Nat) :
    List (Nat × List (Nat × List Nat)) :=
  cols.map (fun ce => (ce.1, ce.2.filter (fun p => ¬ p.1 ∈ rm)))

/-- Drop the entry of column `c0` from the active-column data. -/
def colsErase (cols : List (Nat × List (Nat × List Nat))) (c0 : Nat) :
    List (Nat × List (Nat × List Nat)) :=
  cols.filter (fun ce => ¬ ce.1 = c0)

/-- The active-column data after `coverColumn c0` removed the rows of the
cells `rm`: column `c0` leaves the ring and every other column loses the rows
of `rm`. -/
def gsAfterCover (cols : List (Nat × List (Nat × List Nat))) (c0 : Nat)
    (rm : List Nat) : List (Nat × List (Nat × List Nat)) :=
  plansFilter (colsErase cols c0) rm

/-- The plan recorded for column `c` in the active-column data (`[]` if `c` has
no entry). -/
def colPlan (cols : List (Nat × List (Nat × List Nat))) (c : Nat) :
    List (Nat × List Nat) :=
  match cols.find? (fun ce => ce.1 == c) with
  | none => []
  | some ce => ce.2

/-- Per-column well-formedness of a search-reachable state: `ce = (c, plan)`
records column `c`'s vertical ring (the plan rows, in down-walk order) and each
row's right-walk; the last clause ties every cell of a row to its own anchor
entry in its own column's plan (the classical dancing-links structure
invariant). -/
abbrev GSCol (nc : Nat) (s : DlxData) (cols : List (Nat × List (Nat × List Nat)))
    (ce : Nat × List (Nat × List Nat)) : Prop :=
  walkTo s.D ce.1 (aget s.D ce.1) (ce.2.length + 1) = some (ce.2.map Prod.fst) ∧
  (ce.1 :: ce.2.map Prod.fst).Nodup ∧
  (∀ x ∈ ce.1 :: ce.2.map Prod.fst, linkedV s x) ∧
  (∀ p ∈ ce.2, aget s.C p.1 = ce.1 ∧ nc + 1 ≤ p.1 ∧ p.1 < s.C.length) ∧
  (∀ p ∈ ce.2, walkTo s.R p.1 (aget s.R p.1) (p.2.length + 1) = some p.2) ∧
  (∀ p ∈ ce.2, (p.1 :: p.2).Nodup) ∧
  (∀ p ∈ ce.2, (p.2.map (aget s.C)).Nodup) ∧
  (∀ p ∈ ce.2, ∀ x ∈ p.1 :: p.2, aget s.L (aget s.R x) = x) ∧
  (∀ p ∈ ce.2, ∀ j ∈ p.2, nc + 1 ≤ j ∧ j < s.C.length ∧ aget s.C j ≠ ce.1 ∧ linkedV s j) ∧
  (planCells ce.2).Nodup ∧
  (∀ p ∈ ce.2, ∀ j ∈ p.2, aget s.C j ∈ cols.map Prod.fst ∧
    ∃ q ∈ colPlan cols (aget s.C j), q.1 = j ∧
      (∀ y ∈ q.2, y ∈ p.1 :: p.2 ∧ y ≠ j) ∧
      (∀ y ∈ p.1 :: p.2, y ≠ j → y ∈ q.2))

/-- Global well-formedness of a search-reachable arena state with active-column
data `cols`: global coherence and bounds, the header ring walk from the root
`nc` enumerating exactly the active columns, and per-column well-formedness.
This holds of the built arena (with its full column data) and is preserved by
every `coverColumn` of an active column. -/
abbrev GS (nc : Nat) (s : DlxData) (cols : List (Nat × List (Nat × List Nat))) : Prop :=
  colCoherent s ∧ linksBounded s ∧
  s.U.length = s.C.length ∧ s.D.length = s.C.length ∧
  s.L.length = s.C.length ∧ s.R.length = s.C.length ∧
  (∀ k, k < s.S.length → aget s.S k < W64) ∧
  nc + 1 ≤ s.C.length ∧
  walkTo s.R nc (aget s.R nc) (cols.length + 1) = some (cols.map Prod.fst) ∧
  (nc :: cols.map Prod.fst).Nodup ∧
  (∀ c ∈ cols.map Prod.fst, c < nc ∧ aget s.C c = c) ∧
  (∀ x ∈ nc :: cols.map Prod.fst, aget s.L (aget s.R x) = x) ∧
  (∀ ce ∈ cols, GSCol nc s cols ce)

/-- The vertical-structure part of the invariant carried through the splice
fold of a cover: per active column, the down-walk, its `Nodup`ness, the double
linking of the header and anchors, and the anchor colours. -/
def VertInv (t : DlxData) (colsv : List (Nat × List (Nat × List Nat))) : Prop :=
  colCoherent t ∧ linksBounded t ∧
  t.U.length = t.C.length ∧ t.D.length = t.C.length ∧
  (∀ k, k < t.S.length → aget t.S k < W64) ∧
  (colsv.map Prod.fst).Nodup ∧
  ∀ ce ∈ colsv,
    walkTo t.D ce.1 (aget t.D ce.1) (ce.2.length + 1) = some (ce.2.map Prod.fst) ∧
    (ce.1 :: ce.2.map Prod.fst).Nodup ∧
    (∀ x ∈ ce.1 :: ce.2.map Prod.fst, linkedV t x) ∧
    (∀ p ∈ ce.2, aget t.C p.1 = ce.1 ∧ p.1 < t.C.length) ∧
    aget t.C ce.1 = ce.1

/-- `CoverStack Hn cells s s1`: starting from `s`, canonically covering the
column of each node of `cells` in order lands at `s1`, with each cover applied
on a `coverOK` state (the shape of the state after the
`for (j = R[i]; ...) coverColumn(state, C[j])` loop of `find_solution`). -/
def CoverStack (Hn : Nat) : List Nat → DlxData → DlxData → Prop
  | [], s, s1 => s1 = s
  | k :: rest, s, s1 =>
      ∃ plan, coverOK Hn s (aget s.C k) plan ∧
        CoverStack Hn rest (canonCover s (aget s.C k) plan) s1

/-!
Concrete instances used by the claims.  `psSmall6` is the instance of the
repository's `TestSmallCover.cpp` (6 columns, 4 rows, 10 positions): row 0
covers `{0, 2, 4}`, row 1 covers `{0, 1, 3, 5}`, row 2 covers `{1, 3}` and row 3
covers `{5}`.
-/

def psSmall6 : List (Nat × Nat) :=
  [(0, 0), (0, 2), (0, 4), (1, 0), (1, 1), (1, 3), (1, 5), (2, 1), (2, 3), (3, 5)]

/-- An unsorted position list (row 1 before row 0) over 2 columns. -/
def psUnsorted2 : List (Nat × Nat) := [(1, 0), (0, 1)]

/-- A 3-column instance: row 0 covers `{0, 1, 2}`, row 1 covers `{0}`, row 2
covers `{1, 2}`.  Position 1 belongs to row 0, so forcing `1` through the
forced-rows overload covers row 0's columns, not row 1's. -/
def psForced3 : List (Nat × Nat) := [(0, 0), (0, 1), (0, 2), (1, 0), (2, 1), (2, 2)]

/-- A single-column instance whose only row covers the only column. -/
def psOne : List (Nat × Nat) := [(0, 0)]

/-- A 3-column instance with no exact cover: row 0 covers `{0, 1}`, row 1
covers `{1, 2}`, row 2 covers `{0, 2}` (any one row misses a column and any
two rows overlap). -/
def psOdd : List (Nat × Nat) :=
  [(0, 0), (0, 1), (1, 1), (1, 2), (2, 0), (2, 2)]

/-- The active-column data of the built arena of `psOdd` (header size 4, nodes
4–9): column 0's ring is nodes 4 and 8, column 1's is 5 and 6, column 2's is
7 and 9, and each node's right-walk lists its row sibling. -/
def colsOdd : List (Nat × List (Nat × List Nat)) :=
  [(0, [(4, [5]), (8, [9])]),
   (1, [(5, [4]), (6, [7])]),
   (2, [(7, [6]), (9, [8])])]

/-!
Basic lemmas about the array reads and writes.
-/

theorem length_aset (l : List Nat) (i v : Nat) : (aset l i v).length = l.length :=
  List.length_set l i v

theorem aget_aset_self {l : List Nat} {i : Nat} (v : Nat) (h : i < l.length) :
    aget (aset l i v) i = v := by
  simp [aget, aset, List.getD_eq_getElem?_getD, List.getElem?_set_eq_of_lt v h]

theorem aget_aset_ne {l : List Nat} {i j : Nat} (v : Nat) (h : i ≠ j) :
    aget (aset l i v) j = aget l j := by
  simp [aget, aset, List.getD_eq_getElem?_getD, List.getElem?_set_ne h]

theorem aset_aset (l : List Nat) (i a b : Nat) : aset (aset l i a) i b = aset l i b :=
  List.set_set a b l i

theorem aset_comm (l : List Nat) {i j : Nat} (a b : Nat) (h : i ≠ j) :
    aset (aset l i a) j b = aset (aset l j b) i a :=
  List.set_comm a b l h

theorem aset_cancel {l : List Nat} {i v : Nat} (h : aget l i = v) : aset l i v = l := by
  subst h
  simp only [aset, aget]
  rcases Nat.lt_or_ge i l.length with hi | hi
  · refine List.ext_getElem? fun n => ?_
    rcases eq_or_ne i n with rfl | hne
    · rw [List.getElem?_set_eq_of_lt _ hi]
      rw [List.getD_eq_getElem?_getD, List.getElem?_eq_getElem hi]
      simp
    · exact List.getElem?_set_ne hne
  · exact List.set_eq_of_length_le hi

/-!
Characterization of the builder on arbitrary inputs (for C5): `DLX::init` has no
error path and performs no validation; every input position becomes a node that
carries its own column index and the row number of the run it belongs to.
-/

theorem addNode_C (H rowStart rowNumber : Nat) (d : DlxData) (idx : Nat) (rc : Nat × Nat) :
    (addNode H rowStart rowNumber d idx rc).C = aset d.C (H + idx) rc.2 := rfl

theorem addNode_RM (H rowStart rowNumber : Nat) (d : DlxData) (idx : Nat) (rc : Nat × Nat) :
    (addNode H rowStart rowNumber d idx rc).RM = aset d.RM (H + idx) rowNumber := rfl

theorem initRowsGo_C_stable (H : Nat) (l : List (Nat × Nat)) :
    ∀ rowStart rowNumber idx (d : DlxData) (y : Nat), y < H + idx →
      aget (initRowsGo H rowStart rowNumber idx l d).C y = aget d.C y := by
  induction l with
  | nil => intro rs rn idx d y _; rfl
  | cons p rest ih =>
      intro rs rn idx d y hy
      have hy1 : y < H + (idx + 1) := by omega
      have hne : H + idx ≠ y := by omega
      simp only [initRowsGo]
      split
      · rw [ih rs rn (idx + 1) _ y hy1, addNode_C, aget_aset_ne _ hne]
      · rw [ih idx p.1 (idx + 1) _ y hy1, addNode_C, aget_aset_ne _ hne]

theorem initRowsGo_RM_stable (H : Nat) (l : List (Nat × Nat)) :
    ∀ rowStart rowNumber idx (d : DlxData) (y : Nat), y < H + idx →
      aget (initRowsGo H rowStart rowNumber idx l d).RM y = aget d.RM y := by
  induction l with
  | nil => intro rs rn idx d y _; rfl
  | cons p rest ih =>
      intro rs rn idx d y hy
      have hy1 : y < H + (idx + 1) := by omega
      have hne : H + idx ≠ y := by omega
      simp only [initRowsGo]
      split
      · rw [ih rs rn (idx + 1) _ y hy1, addNode_RM, aget_aset_ne _ hne]
      · rw [ih idx p.1 (idx + 1) _ y hy1, addNode_RM, aget_aset_ne _ hne]

theorem addNode_C_length (H rowStart rowNumber : Nat) (d : DlxData) (idx : Nat)
    (rc : Nat × Nat) : (addNode H rowStart rowNumber d idx rc).C.length = d.C.length := by
  rw [addNode_C, length_aset]

theorem addNode_RM_length (H rowStart rowNumber : Nat) (d : DlxData) (idx : Nat)
    (rc : Nat × Nat) : (addNode H rowStart rowNumber d idx rc).RM.length = d.RM.length := by
  rw [addNode_RM, length_aset]

theorem initRowsGo_C_get (H : Nat) (l : List (Nat × Nat)) :
    ∀ rowStart rowNumber idx (d : DlxData) (t : Nat), t < l.length →
      H + idx + t < d.C.length →
      aget (initRowsGo H rowStart rowNumber idx l d).C (H + idx + t) = (l.getD t (0, 0)).2 := by
  induction l with
  | nil => intro rs rn idx d t ht _; exact absurd ht (by simp)
  | cons p rest ih =>
      intro rs rn idx d t ht hlen
      match t with
      | 0 =>
          have hstab : H + idx < H + (idx + 1) := by omega
          have hset : H + idx < d.C.length := by omega
          simp only [initRowsGo, Nat.add_zero, List.getD_cons_zero]
          split
          · rw [initRowsGo_C_stable H rest rs rn (idx + 1) _ (H + idx) hstab,
              addNode_C, aget_aset_self _ hset]
          · rw [initRowsGo_C_stable H rest idx p.1 (idx + 1) _ (H + idx) hstab,
              addNode_C, aget_aset_self _ hset]
      | t + 1 =>
          have ht' : t < rest.length := by simpa using ht
          have harr : H + idx + (t + 1) = H + (idx + 1) + t := by omega
          simp only [initRowsGo, List.getD_cons_succ]
          split
          · rw [harr]
            exact ih rs rn (idx + 1) _ t ht' (by rw [addNode_C_length]; omega)
          · rw [harr]
            exact ih idx p.1 (idx + 1) _ t ht' (by rw [addNode_C_length]; omega)

theorem initRowsGo_RM_get (H : Nat) (l : List (Nat × Nat)) :
    ∀ rowStart rowNumber idx (d : DlxData) (t : Nat), t < l.length →
      H + idx + t < d.RM.length →
      aget (initRowsGo H rowStart rowNumber idx l d).RM (H + idx + t) = (l.getD t (0, 0)).1 := by
  induction l with
  | nil => intro rs rn idx d t ht _; exact absurd ht (by simp)
  | cons p rest ih =>
      intro rs rn idx d t ht hlen
      match t with
      | 0 =>
          have hstab : H + idx < H + (idx + 1) := by omega
          have hset : H + idx < d.RM.length := by omega
          simp only [initRowsGo, Nat.add_zero, List.getD_cons_zero]
          split
          · next hp =>
              rw [initRowsGo_RM_stable H rest rs rn (idx + 1) _ (H + idx) hstab,
                addNode_RM, aget_aset_self _ hset, hp]
          · rw [initRowsGo_RM_stable H rest idx p.1 (idx + 1) _ (H + idx) hstab,
              addNode_RM, aget_aset_self _ hset]
      | t + 1 =>
          have ht' : t < rest.length := by simpa using ht
          have harr : H + idx + (t + 1) = H + (idx + 1) + t := by omega
          simp only [initRowsGo, List.getD_cons_succ]
          split
          · rw [harr]
            exact ih rs rn (idx + 1) _ t ht' (by rw [addNode_RM_length]; omega)
          · rw [harr]
            exact ih idx p.1 (idx + 1) _ t ht' (by rw [addNode_RM_length]; omega)

theorem foldl_initLinkStep_C (H : Nat) (l : List Nat) :
    ∀ d : DlxData, (l.foldl (initLinkStep H) d).C = d.C := by
  induction l with
  | nil => intro d; rfl
  | cons i rest ih => intro d; exact ih _

theorem foldl_initLinkStep_RM (H : Nat) (l : List Nat) :
    ∀ d : DlxData, (l.foldl (initLinkStep H) d).RM = d.RM := by
  induction l with
  | nil => intro d; rfl
  | cons i rest ih => intro d; exact ih _

theorem foldl_initHeaderStep_C_length (NumRows : Nat) (l : List Nat) :
    ∀ d : DlxData, (l.foldl (initHeaderStep NumRows) d).C.length = d.C.length := by
  induction l with
  | nil => intro d; rfl
  | cons i rest ih =>
      intro d
      rw [List.foldl_cons, ih]
      simp [initHeaderStep, length_aset]

theorem foldl_initHeaderStep_RM_length (NumRows : Nat) (l : List Nat) :
    ∀ d : DlxData, (l.foldl (initHeaderStep NumRows) d).RM.length = d.RM.length := by
  induction l with
  | nil => intro d; rfl
  | cons i rest ih =>
      intro d
      rw [List.foldl_cons, ih]
      simp [initHeaderStep, length_aset]

set_option maxRecDepth 100000

/-- C5, amended: the builder never fails and performs no validation.  For every
position list (sorted or not, any column values) and every position index
`idx`, `init` silently builds an arena in which node `HeaderSize + idx` carries
the column `positions[idx].second` and the row number `positions[idx].first`;
no invalid-input error exists (see the counterexample for the search then
running on such input). -/
theorem c5_amended_builder_never_fails (NumCols NumRows : Nat) (ps : List (Nat × Nat))
    (idx : Nat) (h : idx < ps.length) :
    aget (dlxInit NumCols NumRows ps).C (NumCols + 1 + idx) = (ps.getD idx (0, 0)).2 ∧
      aget (dlxInit NumCols NumRows ps).RM (NumCols + 1 + idx) = (ps.getD idx (0, 0)).1 := by
  match ps, h with
  | p :: rest, h =>
      have hC : (((List.range (NumCols + 1)).foldl (initLinkStep (NumCols + 1))
          (((List.range (NumCols + 1)).foldl (initHeaderStep NumRows)
            (blankData (NumCols + 1) (p :: rest).length)))).C).length =
          NumCols + 1 + (p :: rest).length := by
        rw [foldl_initLinkStep_C, foldl_initHeaderStep_C_length]
        simp [blankData]
      have hRM : (((List.range (NumCols + 1)).foldl (initLinkStep (NumCols + 1))
          (((List.range (NumCols + 1)).foldl (initHeaderStep NumRows)
            (blankData (NumCols + 1) (p :: rest).length)))).RM).length =
          NumCols + 1 + (p :: rest).length := by
        rw [foldl_initLinkStep_RM, foldl_initHeaderStep_RM_length]
        simp [blankData]
      have h0 : NumCols + 1 + idx = NumCols + 1 + 0 + idx := by omega
      constructor
      · rw [dlxInit, initRows, h0]
        exact initRowsGo_C_get (NumCols + 1) (p :: rest) 0 p.1 0 _ idx h (by omega)
      · rw [dlxInit, initRows, h0]
        exact initRowsGo_RM_get (NumCols + 1) (p :: rest) 0 p.1 0 _ idx h (by omega)

/-- Witness for the amended C5 theorem at the unsorted input `psUnsorted2`:
position 0 of the unsorted list becomes node 3 with column 0 and row tag 1. -/
theorem c5_amended_builder_never_fails_witness :
    aget (dlxInit 2 2 psUnsorted2).C 3 = 0 ∧ aget (dlxInit 2 2 psUnsorted2).RM 3 = 1 := by
  have h := c5_amended_builder_never_fails 2 2 psUnsorted2 0 (by decide)
  simpa using h

/-!
Splice lemmas: projections, normal forms, the local cancellation
`spliceIn j` after `spliceOut j`, and preservation of linking, coherence and
bounds by a splice of a different node.
-/

theorem spliceOut_R (s : DlxData) (j : Nat) : (spliceOut s j).R = s.R := rfl

theorem spliceOut_L (s : DlxData) (j : Nat) : (spliceOut s j).L = s.L := rfl

theorem spliceOut_C (s : DlxData) (j : Nat) : (spliceOut s j).C = s.C := rfl

theorem spliceOut_RM (s : DlxData) (j : Nat) : (spliceOut s j).RM = s.RM := rfl

theorem spliceOut_U (s : DlxData) (j : Nat) :
    (spliceOut s j).U = aset s.U (aget s.D j) (aget s.U j) := rfl

theorem spliceOut_S (s : DlxData) (j : Nat) :
    (spliceOut s j).S =
      aset s.S (aget s.C j) ((aget s.S (aget s.C j) + (W64 - 1)) % W64) := rfl

theorem aget_spliceOut_U_j (s : DlxData) (j : Nat) :
    aget (spliceOut s j).U j = aget s.U j := by
  rw [spliceOut_U]
  by_cases hD : aget s.D j = j
  · rw [hD, aset_cancel rfl]
  · exact aget_aset_ne _ hD

theorem spliceOut_D (s : DlxData) (j : Nat) :
    (spliceOut s j).D = aset s.D (aget s.U j) (aget s.D j) := by
  show aset s.D (aget (spliceOut s j).U j) (aget s.D j) = _
  rw [aget_spliceOut_U_j]

theorem spliceIn_R (s : DlxData) (j : Nat) : (spliceIn s j).R = s.R := rfl

theorem spliceIn_L (s : DlxData) (j : Nat) : (spliceIn s j).L = s.L := rfl

theorem spliceIn_C (s : DlxData) (j : Nat) : (spliceIn s j).C = s.C := rfl

theorem spliceIn_RM (s : DlxData) (j : Nat) : (spliceIn s j).RM = s.RM := rfl

theorem spliceIn_S (s : DlxData) (j : Nat) :
    (spliceIn s j).S = aset s.S (aget s.C j) ((aget s.S (aget s.C j) + 1) % W64) := rfl

theorem spliceIn_D (s : DlxData) (j : Nat) :
    (spliceIn s j).D = aset s.D (aget s.U j) j := rfl

theorem spliceIn_U (s : DlxData) (j : Nat) :
    (spliceIn s j).U = aset s.U (aget (aset s.D (aget s.U j) j) j) j := rfl

theorem dlxDataExt {a b : DlxData} (h1 : a.S = b.S) (h2 : a.R = b.R) (h3 : a.L = b.L)
    (h4 : a.U = b.U) (h5 : a.D = b.D) (h6 : a.C = b.C) (h7 : a.RM = b.RM) : a = b := by
  cases a; cases b; simp_all

theorem decInc (x : Nat) (h : x < W64) : ((x + (W64 - 1)) % W64 + 1) % W64 = x := by
  match x with
  | 0 =>
      have h1 : (0 + (W64 - 1)) % W64 = W64 - 1 := by
        rw [Nat.zero_add]
        exact Nat.mod_eq_of_lt (by norm_num [W64])
      rw [h1]
      have h2 : W64 - 1 + 1 = W64 := by norm_num [W64]
      rw [h2, Nat.mod_self]
  | x + 1 =>
      have h1 : x + 1 + (W64 - 1) = x + W64 := by
        have h2 : 1 ≤ W64 := by norm_num [W64]
        omega
      have hx : x < W64 := by omega
      rw [h1, Nat.add_mod_right, Nat.mod_eq_of_lt hx, Nat.mod_eq_of_lt h]

theorem spliceIn_spliceOut_cancel (s : DlxData) (j : Nat) (hl : linkedV s j)
    (hS : aget s.S (aget s.C j) < W64) : spliceIn (spliceOut s j) j = s := by
  obtain ⟨hDU, hUD⟩ := hl
  have hSrest : (spliceIn (spliceOut s j) j).S = s.S := by
    rw [spliceIn_S, spliceOut_C, spliceOut_S]
    by_cases hin : aget s.C j < s.S.length
    · rw [aget_aset_self _ hin, decInc _ hS, aset_aset, aset_cancel rfl]
    · have h1 : aset s.S (aget s.C j) ((aget s.S (aget s.C j) + (W64 - 1)) % W64) = s.S :=
        List.set_eq_of_length_le (Nat.le_of_not_lt hin)
      rw [h1]
      exact List.set_eq_of_length_le (Nat.le_of_not_lt hin)
  have hinner : aset (spliceOut s j).D (aget (spliceOut s j).U j) j = s.D := by
    rw [aget_spliceOut_U_j, spliceOut_D, aset_aset, aset_cancel hDU]
  have hDrest : (spliceIn (spliceOut s j) j).D = s.D := by
    rw [spliceIn_D]
    exact hinner
  have hUrest : (spliceIn (spliceOut s j) j).U = s.U := by
    rw [spliceIn_U, hinner, spliceOut_U]
    by_cases hD : aget s.D j = j
    · rw [hD, aset_cancel rfl]
      have hU : aget s.U j = j := by rw [hD] at hUD; exact hUD
      exact aset_cancel hU
    · rw [aset_aset, aset_cancel hUD]
  exact dlxDataExt hSrest (by rw [spliceIn_R, spliceOut_R]) (by rw [spliceIn_L, spliceOut_L])
    hUrest hDrest (by rw [spliceIn_C, spliceOut_C]) (by rw [spliceIn_RM, spliceOut_RM])

theorem aget_aset_cases (l : List Nat) (i v x : Nat) :
    aget (aset l i v) x = v ∨ aget (aset l i v) x = aget l x := by
  by_cases h : i = x
  · subst h
    by_cases hb : i < l.length
    · exact Or.inl (aget_aset_self _ hb)
    · right
      rw [aset, List.set_eq_of_length_le (Nat.le_of_not_lt hb)]
  · exact Or.inr (aget_aset_ne _ h)

theorem spliceOut_U_length (s : DlxData) (j : Nat) :
    (spliceOut s j).U.length = s.U.length := by rw [spliceOut_U, length_aset]

theorem spliceOut_D_length (s : DlxData) (j : Nat) :
    (spliceOut s j).D.length = s.D.length := by rw [spliceOut_D, length_aset]

theorem spliceOut_S_length (s : DlxData) (j : Nat) :
    (spliceOut s j).S.length = s.S.length := by rw [spliceOut_S, length_aset]

theorem spliceIn_U_length (s : DlxData) (j : Nat) :
    (spliceIn s j).U.length = s.U.length := by rw [spliceIn_U, length_aset]

theorem spliceIn_D_length (s : DlxData) (j : Nat) :
    (spliceIn s j).D.length = s.D.length := by rw [spliceIn_D, length_aset]

theorem spliceIn_S_length (s : DlxData) (j : Nat) :
    (spliceIn s j).S.length = s.S.length := by rw [spliceIn_S, length_aset]

theorem linkedV_spliceOut (s : DlxData) (j x : Nat) (hx : x ≠ j)
    (hlj : linkedV s j) (hlx : linkedV s x)
    (hbU : aget s.U j < s.D.length) (hbD : aget s.D j < s.U.length) :
    linkedV (spliceOut s j) x := by
  obtain ⟨hjDU, hjUD⟩ := hlj
  obtain ⟨hxDU, hxUD⟩ := hlx
  constructor
  · rw [spliceOut_U, spliceOut_D]
    by_cases hxD : x = aget s.D j
    · subst hxD
      rw [aget_aset_self _ hbD, aget_aset_self _ hbU]
    · rw [aget_aset_ne _ fun h => hxD h.symm]
      by_cases hu : aget s.U x = aget s.U j
      · exfalso
        rw [hu, hjDU] at hxDU
        exact hx hxDU.symm
      · rw [aget_aset_ne _ fun h => hu h.symm]
        exact hxDU
  · rw [spliceOut_U, spliceOut_D]
    by_cases hxU : x = aget s.U j
    · subst hxU
      rw [aget_aset_self _ hbU, aget_aset_self _ hbD]
    · rw [aget_aset_ne _ fun h => hxU h.symm]
      by_cases hd : aget s.D x = aget s.D j
      · exfalso
        rw [hd, hjUD] at hxUD
        exact hx hxUD.symm
      · rw [aget_aset_ne _ fun h => hd h.symm]
        exact hxUD

theorem colCoherent_spliceOut (s : DlxData) (j : Nat) (hcoh : colCoherent s)
    (hj : j < s.C.length) (hlb : linksBounded s)
    (hlenU : s.U.length = s.C.length) (hlenD : s.D.length = s.C.length) :
    colCoherent (spliceOut s j) ∧ linksBounded (spliceOut s j) := by
  obtain ⟨hcUj, hcDj⟩ := hcoh j hj
  obtain ⟨hbUj, hbDj⟩ := hlb j hj
  constructor
  · intro x hx
    rw [spliceOut_C] at hx ⊢
    rw [spliceOut_U, spliceOut_D]
    constructor
    · by_cases hxD : x = aget s.D j
      · subst hxD
        rw [aget_aset_self _ (hlenU ▸ hbDj), hcUj, hcDj]
      · rw [aget_aset_ne _ fun h => hxD h.symm]
        exact (hcoh x hx).1
    · by_cases hxU : x = aget s.U j
      · subst hxU
        rw [aget_aset_self _ (hlenD ▸ hbUj), hcDj, hcUj]
      · rw [aget_aset_ne _ fun h => hxU h.symm]
        exact (hcoh x hx).2
  · intro x hx
    rw [spliceOut_C] at hx ⊢
    rw [spliceOut_U, spliceOut_D]
    constructor
    · rcases aget_aset_cases s.U (aget s.D j) (aget s.U j) x with h | h
      · rw [h]; exact hbUj
      · rw [h]; exact (hlb x hx).1
    · rcases aget_aset_cases s.D (aget s.U j) (aget s.D j) x with h | h
      · rw [h]; exact hbDj
      · rw [h]; exact (hlb x hx).2

theorem spliceOut_preserves_colored (s : DlxData) (j c : Nat) (hcoh : colCoherent s)
    (hj : j < s.C.length) (hcol : aget s.C j ≠ c) :
    ∀ x, aget s.C x = c → aget (spliceOut s j).U x = aget s.U x ∧
      aget (spliceOut s j).D x = aget s.D x := by
  intro x hxc
  obtain ⟨hcUj, hcDj⟩ := hcoh j hj
  constructor
  · rw [spliceOut_U]
    apply aget_aset_ne
    intro h
    exact hcol (by rw [← hcDj, h, hxc])
  · rw [spliceOut_D]
    apply aget_aset_ne
    intro h
    exact hcol (by rw [← hcUj, h, hxc])

theorem spliceOut_S_ne (s : DlxData) (j c : Nat) (hcol : aget s.C j ≠ c) :
    aget (spliceOut s j).S c = aget s.S c := by
  rw [spliceOut_S]
  exact aget_aset_ne _ hcol

theorem spliceIn_S_ne (s : DlxData) (j c : Nat) (hcol : aget s.C j ≠ c) :
    aget (spliceIn s j).S c = aget s.S c := by
  rw [spliceIn_S]
  exact aget_aset_ne _ hcol

theorem spliceIn_preserves_colored (s : DlxData) (j c : Nat) (hcoh : colCoherent s)
    (hj : j < s.C.length) (hcol : aget s.C j ≠ c) :
    ∀ x, aget s.C x = c → aget (spliceIn s j).U x = aget s.U x ∧
      aget (spliceIn s j).D x = aget s.D x := by
  intro x hxc
  obtain ⟨hcUj, hcDj⟩ := hcoh j hj
  have hDwrite : aget s.U j ≠ x := fun h => hcol (by rw [← hcUj, h, hxc])
  refine ⟨?_, by rw [spliceIn_D]; exact aget_aset_ne _ hDwrite⟩
  rw [spliceIn_U]
  apply aget_aset_ne
  intro h
  by_cases hU : aget s.U j = j
  · rw [hU] at h
    by_cases hjD : j < s.D.length
    · rw [aget_aset_self _ hjD] at h
      exact hcol (by rw [h, hxc])
    · rw [aset, List.set_eq_of_length_le (Nat.le_of_not_lt hjD)] at h
      exact hcol (by rw [← hcDj]; show aget s.C (aget s.D j) = c; rw [h, hxc])
  · rw [aget_aset_ne _ hU] at h
    exact hcol (by rw [← hcDj]; show aget s.C (aget s.D j) = c; rw [h, hxc])

theorem colCoherent_spliceIn (s : DlxData) (j : Nat) (hcoh : colCoherent s)
    (hj : j < s.C.length) (hlb : linksBounded s)
    (hlenU : s.U.length = s.C.length) (hlenD : s.D.length = s.C.length) :
    colCoherent (spliceIn s j) ∧ linksBounded (spliceIn s j) := by
  obtain ⟨hcUj, hcDj⟩ := hcoh j hj
  obtain ⟨hbUj, hbDj⟩ := hlb j hj
  have hjD : j < s.D.length := hlenD ▸ hj
  have hidx : aget (aset s.D (aget s.U j) j) j < s.U.length ∧
      aget s.C (aget (aset s.D (aget s.U j) j) j) = aget s.C j := by
    by_cases hU : aget s.U j = j
    · rw [hU, aget_aset_self _ hjD]
      exact ⟨hlenU ▸ hj, rfl⟩
    · rw [aget_aset_ne _ hU]
      exact ⟨hlenU ▸ hbDj, hcDj⟩
  constructor
  · intro x hx
    rw [spliceIn_C] at hx ⊢
    rw [spliceIn_U, spliceIn_D]
    constructor
    · by_cases hxI : x = aget (aset s.D (aget s.U j) j) j
      · subst hxI
        rw [aget_aset_self _ hidx.1, hidx.2]
      · rw [aget_aset_ne _ fun h => hxI h.symm]
        exact (hcoh x hx).1
    · by_cases hxU : x = aget s.U j
      · subst hxU
        rw [aget_aset_self _ (hlenD ▸ hbUj), hcUj]
      · rw [aget_aset_ne _ fun h => hxU h.symm]
        exact (hcoh x hx).2
  · intro x hx
    rw [spliceIn_C] at hx ⊢
    rw [spliceIn_U, spliceIn_D]
    constructor
    · rcases aget_aset_cases s.U (aget (aset s.D (aget s.U j) j) j) j x with h | h
      · rw [h]; exact hj
      · rw [h]; exact (hlb x hx).1
    · rcases aget_aset_cases s.D (aget s.U j) j x with h | h
      · rw [h]; exact hj
      · rw [h]; exact (hlb x hx).2

theorem foldl_out_in_cancel (js : List Nat) :
    ∀ s : DlxData, js.Nodup → (∀ j ∈ js, linkedV s j) →
      (∀ j ∈ js, aget s.U j < s.D.length ∧ aget s.D j < s.U.length) →
      (∀ j ∈ js, aget s.S (aget s.C j) < W64) →
      js.reverse.foldl spliceIn (js.foldl spliceOut s) = s := by
  induction js with
  | nil => intro s _ _ _ _; rfl
  | cons j js ih =>
      intro s hnd hlk hbd hsb
      have hndj : j ∉ js := (List.nodup_cons.mp hnd).1
      have hnd' : js.Nodup := (List.nodup_cons.mp hnd).2
      have hlkj : linkedV s j := hlk j (by simp)
      have hbdj := hbd j (by simp)
      have hWpos : 0 < W64 := by norm_num [W64]
      have hlk' : ∀ x ∈ js, linkedV (spliceOut s j) x := by
        intro x hxm
        exact linkedV_spliceOut s j x (fun h => hndj (h ▸ hxm)) hlkj (hlk x (by simp [hxm]))
          hbdj.1 hbdj.2
      have hbd' : ∀ x ∈ js, aget (spliceOut s j).U x < (spliceOut s j).D.length ∧
          aget (spliceOut s j).D x < (spliceOut s j).U.length := by
        intro x hxm
        rw [spliceOut_D_length, spliceOut_U_length]
        constructor
        · rcases aget_aset_cases s.U (aget s.D j) (aget s.U j) x with h | h
          · rw [spliceOut_U, h]; exact hbdj.1
          · rw [spliceOut_U, h]; exact (hbd x (by simp [hxm])).1
        · rcases aget_aset_cases s.D (aget s.U j) (aget s.D j) x with h | h
          · rw [spliceOut_D, h]; exact hbdj.2
          · rw [spliceOut_D, h]; exact (hbd x (by simp [hxm])).2
      have hsb' : ∀ x ∈ js, aget (spliceOut s j).S (aget (spliceOut s j).C x) < W64 := by
        intro x hxm
        rw [spliceOut_C]
        rcases aget_aset_cases s.S (aget s.C j)
            ((aget s.S (aget s.C j) + (W64 - 1)) % W64) (aget s.C x) with h | h
        · rw [spliceOut_S, h]; exact Nat.mod_lt _ hWpos
        · rw [spliceOut_S, h]; exact hsb x (by simp [hxm])
      calc (j :: js).reverse.foldl spliceIn ((j :: js).foldl spliceOut s)
          = spliceIn (js.reverse.foldl spliceIn (js.foldl spliceOut (spliceOut s j))) j := by
            simp [List.foldl_append]
        _ = spliceIn (spliceOut s j) j := by rw [ih (spliceOut s j) hnd' hlk' hbd' hsb']
        _ = s := spliceIn_spliceOut_cancel s j hlkj (hsb j (by simp))

/-!
Walk lemmas: conversion between the fuelled `walkTo` and the pure `Seg`
predicate, fuel normalization, congruence of walks under agreement on the
visited nodes, and the reversal of a doubly linked walk.
-/

theorem walkTo_seg (arr : List Nat) (stop : Nat) :
    ∀ (l : List Nat) (start fuel : Nat), walkTo arr stop start fuel = some l →
      Seg arr start l stop ∧ ∀ x ∈ l, x ≠ stop := by
  intro l
  induction l with
  | nil =>
      intro start fuel hw
      match fuel, hw with
      | f + 1, hw =>
          simp only [walkTo] at hw
          split at hw
          · next h => exact ⟨h, by simp⟩
          · split at hw <;> simp_all
  | cons x l ih =>
      intro start fuel hw
      match fuel, hw with
      | f + 1, hw =>
          simp only [walkTo] at hw
          split at hw
          · simp_all
          · next hne =>
              match hrec : walkTo arr stop (aget arr start) f, hw with
              | some l2, hw =>
                  have hw2 : some (start :: l2) = some (x :: l) := hw
                  simp only [Option.some.injEq, List.cons.injEq] at hw2
                  obtain ⟨rfl, rfl⟩ := hw2
                  obtain ⟨hseg, hnot⟩ := ih _ f hrec
                  refine ⟨⟨rfl, hseg⟩, ?_⟩
                  intro y hy
                  rcases List.mem_cons.mp hy with rfl | hy'
                  · exact hne
                  · exact hnot y hy'

theorem seg_walkTo (arr : List Nat) (stop : Nat) :
    ∀ (l : List Nat) (start fuel : Nat), Seg arr start l stop → (∀ x ∈ l, x ≠ stop) →
      l.length < fuel → walkTo arr stop start fuel = some l := by
  intro l
  induction l with
  | nil =>
      intro start fuel hseg _ hfuel
      match fuel, hfuel with
      | f + 1, _ =>
          have hstop : start = stop := hseg
          simp [walkTo, hstop]
  | cons x l ih =>
      intro start fuel hseg hnot hfuel
      match fuel, hfuel with
      | f + 1, hfuel =>
          obtain ⟨rfl, hseg2⟩ := hseg
          have hne : start ≠ stop := hnot start (by simp)
          simp only [walkTo, if_neg hne]
          rw [ih _ f hseg2 (fun y hy => hnot y (by simp [hy]))
            (by simpa using Nat.lt_of_succ_lt_succ hfuel)]

theorem walkTo_norm (arr : List Nat) (stop : Nat) (l : List Nat) (start fuel : Nat)
    (hw : walkTo arr stop start fuel = some l) :
    ∀ fuel2, l.length < fuel2 → walkTo arr stop start fuel2 = some l := by
  intro fuel2 hf2
  obtain ⟨hseg, hnot⟩ := walkTo_seg arr stop l start fuel hw
  exact seg_walkTo arr stop l start fuel2 hseg hnot hf2

theorem walkTo_congr (arr1 arr2 : List Nat) (stop : Nat) :
    ∀ (l : List Nat) (start fuel : Nat), walkTo arr1 stop start fuel = some l →
      (∀ x ∈ l, aget arr2 x = aget arr1 x) → walkTo arr2 stop start fuel = some l := by
  intro l
  induction l with
  | nil =>
      intro start fuel hw _
      match fuel, hw with
      | f + 1, hw =>
          simp only [walkTo] at hw ⊢
          split at hw
          · next h => rw [if_pos h]
          · split at hw <;> simp_all
  | cons x l ih =>
      intro start fuel hw hagree
      match fuel, hw with
      | f + 1, hw =>
          simp only [walkTo] at hw ⊢
          split at hw
          · simp_all
          · next hne =>
              rw [if_neg hne]
              match hrec : walkTo arr1 stop (aget arr1 start) f, hw with
              | some l2, hw =>
                  have hw2 : some (start :: l2) = some (x :: l) := hw
                  simp only [Option.some.injEq, List.cons.injEq] at hw2
                  obtain ⟨rfl, rfl⟩ := hw2
                  have hstart : aget arr2 start = aget arr1 start := hagree start (by simp)
                  rw [hstart, ih _ f hrec (fun y hy => hagree y (by simp [hy]))]

theorem seg_append (arr : List Nat) :
    ∀ (l1 l2 : List Nat) (start m e : Nat), Seg arr start l1 m → Seg arr m l2 e →
      Seg arr start (l1 ++ l2) e := by
  intro l1
  induction l1 with
  | nil =>
      intro l2 start m e h1 h2
      have hstart : start = m := h1
      rw [List.nil_append, hstart]
      exact h2
  | cons x l1 ih =>
      intro l2 start m e h1 h2
      obtain ⟨rfl, h1'⟩ := h1
      exact ⟨rfl, ih l2 _ m e h1' h2⟩

theorem seg_rev (arrD arrU : List Nat) :
    ∀ (I : List Nat) (a e : Nat), Seg arrD (aget arrD a) I e →
      (∀ x ∈ a :: I, aget arrU (aget arrD x) = x) →
      Seg arrU (aget arrU e) I.reverse a := by
  intro I
  induction I with
  | nil =>
      intro a e hseg hlink
      have he : aget arrD a = e := hseg
      have := hlink a (by simp)
      rw [he] at this
      exact this
  | cons i I ih =>
      intro a e hseg hlink
      obtain ⟨hai, hseg2⟩ := hseg
      have hih : Seg arrU (aget arrU e) I.reverse i :=
        ih i e hseg2 (fun x hx => hlink x (List.mem_cons_of_mem a hx))
      have hlast : aget arrU i = a := by
        have h := hlink a (by simp)
        rw [hai] at h
        exact h
      have hstep : Seg arrU i [i] a := ⟨rfl, hlast⟩
      rw [List.reverse_cons]
      exact seg_append arrU I.reverse [i] _ i a hih hstep

/-!
The splice-fold invariant holds reflexively, is preserved by splicing a node of
another column out or in, and hence by whole splice folds.
-/

theorem spliceInv_refl (c : Nat) (base : DlxData) (hcoh : colCoherent base)
    (hlb : linksBounded base) (hlenU : base.U.length = base.C.length)
    (hlenD : base.D.length = base.C.length) : spliceInv c base base :=
  ⟨rfl, rfl, rfl, rfl, hcoh, hlb, rfl, rfl, rfl, hlenU, hlenD, fun _ _ => ⟨rfl, rfl⟩, rfl⟩

theorem spliceInv_spliceOut (c : Nat) (base t : DlxData) (j : Nat)
    (hinv : spliceInv c base t) (hj : aget base.C j ≠ c) (hjb : j < base.C.length) :
    spliceInv c base (spliceOut t j) := by
  obtain ⟨hC, hR, hL, hRM, hcoh, hlb, hUlen, hDlen, hSlen, hUC, hDC, hcol, hS⟩ := hinv
  have hjt : j < t.C.length := by rw [hC]; exact hjb
  have hjc : aget t.C j ≠ c := by rw [hC]; exact hj
  obtain ⟨hcoh2, hlb2⟩ := colCoherent_spliceOut t j hcoh hjt hlb hUC hDC
  refine ⟨by rw [spliceOut_C, hC], by rw [spliceOut_R, hR], by rw [spliceOut_L, hL],
    by rw [spliceOut_RM, hRM], hcoh2, hlb2, by rw [spliceOut_U_length, hUlen],
    by rw [spliceOut_D_length, hDlen], by rw [spliceOut_S_length, hSlen],
    by rw [spliceOut_U_length, spliceOut_C]; exact hUC,
    by rw [spliceOut_D_length, spliceOut_C]; exact hDC, ?_, ?_⟩
  · intro x hx
    obtain ⟨h1, h2⟩ := spliceOut_preserves_colored t j c hcoh hjt hjc x
      (by rw [hC]; exact hx)
    exact ⟨h1.trans (hcol x hx).1, h2.trans (hcol x hx).2⟩
  · rw [spliceOut_S_ne t j c hjc]; exact hS

theorem spliceInv_spliceIn (c : Nat) (base t : DlxData) (j : Nat)
    (hinv : spliceInv c base t) (hj : aget base.C j ≠ c) (hjb : j < base.C.length) :
    spliceInv c base (spliceIn t j) := by
  obtain ⟨hC, hR, hL, hRM, hcoh, hlb, hUlen, hDlen, hSlen, hUC, hDC, hcol, hS⟩ := hinv
  have hjt : j < t.C.length := by rw [hC]; exact hjb
  have hjc : aget t.C j ≠ c := by rw [hC]; exact hj
  obtain ⟨hcoh2, hlb2⟩ := colCoherent_spliceIn t j hcoh hjt hlb hUC hDC
  refine ⟨by rw [spliceIn_C, hC], by rw [spliceIn_R, hR], by rw [spliceIn_L, hL],
    by rw [spliceIn_RM, hRM], hcoh2, hlb2, by rw [spliceIn_U_length, hUlen],
    by rw [spliceIn_D_length, hDlen], by rw [spliceIn_S_length, hSlen],
    by rw [spliceIn_U_length, spliceIn_C]; exact hUC,
    by rw [spliceIn_D_length, spliceIn_C]; exact hDC, ?_, ?_⟩
  · intro x hx
    obtain ⟨h1, h2⟩ := spliceIn_preserves_colored t j c hcoh hjt hjc x
      (by rw [hC]; exact hx)
    exact ⟨h1.trans (hcol x hx).1, h2.trans (hcol x hx).2⟩
  · rw [spliceIn_S_ne t j c hjc]; exact hS

theorem spliceInv_foldOut (c : Nat) (base : DlxData) (js : List Nat) :
    ∀ t, spliceInv c base t → (∀ j ∈ js, aget base.C j ≠ c ∧ j < base.C.length) →
      spliceInv c base (js.foldl spliceOut t) := by
  induction js with
  | nil => intro t hinv _; exact hinv
  | cons j js ih =>
      intro t hinv hjs
      rw [List.foldl_cons]
      exact ih _ (spliceInv_spliceOut c base t j hinv (hjs j (by simp)).1 (hjs j (by simp)).2)
        (fun x hx => hjs x (by simp [hx]))

theorem spliceInv_foldIn (c : Nat) (base : DlxData) (js : List Nat) :
    ∀ t, spliceInv c base t → (∀ j ∈ js, aget base.C j ≠ c ∧ j < base.C.length) →
      spliceInv c base (js.foldl spliceIn t) := by
  induction js with
  | nil => intro t hinv _; exact hinv
  | cons j js ih =>
      intro t hinv hjs
      rw [List.foldl_cons]
      exact ih _ (spliceInv_spliceIn c base t j hinv (hjs j (by simp)).1 (hjs j (by simp)).2)
        (fun x hx => hjs x (by simp [hx]))

theorem planCells_cons (p : Nat × List Nat) (plan : List (Nat × List Nat)) :
    planCells (p :: plan) = p.2 ++ planCells plan := by
  simp [planCells]

/-!
Bridging the mutating cover loops to splice folds over the pre-computed walks.
-/

theorem coverInner_eq_fold (i : Nat) :
    ∀ (J : List Nat) (t : DlxData) (j fuel : Nat),
      walkTo t.R i j (J.length + 1) = some J → J.length < fuel →
      coverInner fuel t i j = some (J.foldl spliceOut t) := by
  intro J
  induction J with
  | nil =>
      intro t j fuel hw hfuel
      match fuel, hfuel with
      | f + 1, _ =>
          have hji : j = i := (walkTo_seg _ _ _ _ _ hw).1
          simp [coverInner, hji]
  | cons j0 J ih =>
      intro t j fuel hw hfuel
      match fuel, hfuel with
      | f + 1, hfuel =>
          obtain ⟨hseg, hnot⟩ := walkTo_seg _ _ _ _ _ hw
          obtain ⟨hj, hseg2⟩ := hseg
          subst hj
          have hne : j ≠ i := hnot j (by simp)
          simp only [coverInner, if_neg hne, List.foldl_cons]
          have hrec2 : walkTo (spliceOut t j).R i (aget (spliceOut t j).R j)
              (J.length + 1) = some J := by
            rw [spliceOut_R]
            exact seg_walkTo _ _ _ _ _ hseg2 (fun y hy => hnot y (by simp [hy]))
              (Nat.lt_succ_self _)
          exact ih (spliceOut t j) _ f hrec2
            (by simp only [List.length_cons] at hfuel; omega)

theorem coverOuter_eq_fold (c : Nat) :
    ∀ (plan : List (Nat × List Nat)) (base t : DlxData) (i fuel : Nat),
      spliceInv c base t →
      walkTo t.D c i (plan.length + 1) = some (plan.map Prod.fst) →
      (∀ p ∈ plan, walkTo base.R p.1 (aget base.R p.1) (p.2.length + 1) = some p.2) →
      (∀ p ∈ plan, aget base.C p.1 = c) →
      (∀ j ∈ planCells plan, aget base.C j ≠ c ∧ j < base.C.length) →
      plan.length < fuel →
      (∀ p ∈ plan, plan.length + p.2.length < fuel) →
      coverOuter fuel t c i = some ((planCells plan).foldl spliceOut t) ∧
        spliceInv c base ((planCells plan).foldl spliceOut t) := by
  intro plan
  induction plan with
  | nil =>
      intro base t i fuel hinv hI _ _ _ hfuel _
      match fuel, hfuel with
      | f + 1, _ =>
          have hic : i = c := (walkTo_seg _ _ _ _ _ hI).1
          exact ⟨by simp [coverOuter, hic, planCells], hinv⟩
  | cons p plan ih =>
      intro base t i fuel hinv hI hrows hrowcol hcells hfuel1 hfuel2
      match fuel, hfuel1 with
      | f + 1, hfuel1 =>
          simp only [List.map_cons, List.length_cons] at hI
          obtain ⟨hseg, hnot⟩ := walkTo_seg _ _ _ _ _ hI
          obtain ⟨hip, hseg2⟩ := hseg
          subst hip
          have hne : p.1 = c → False := fun h => hnot p.1 (by simp) h
          have hrec : walkTo t.D c (aget t.D p.1) (plan.length + 1) =
              some (plan.map Prod.fst) :=
            seg_walkTo _ _ _ _ _ hseg2 (fun y hy => hnot y (by simp [hy]))
              (by simp)
          have hlen1 : plan.length < f := by
            simp only [List.length_cons] at hfuel1
            omega
          obtain ⟨hC, hR, hL, hRM, hcoh, hlb, hUlen, hDlen, hSlen, hUC, hDC,
            hcol, hS⟩ := hinv
          have hinvfull : spliceInv c base t :=
            ⟨hC, hR, hL, hRM, hcoh, hlb, hUlen, hDlen, hSlen, hUC, hDC, hcol, hS⟩
          have hp1c : aget base.C p.1 = c := hrowcol p (by simp)
          have hrowwalk : walkTo t.R p.1 (aget t.R p.1) (p.2.length + 1) = some p.2 := by
            rw [hR]
            exact hrows p (by simp)
          have hfin : p.2.length < f + 1 := by
            have := hfuel2 p (by simp)
            simp only [List.length_cons] at this
            omega
          have hinner := coverInner_eq_fold p.1 p.2 t (aget t.R p.1) (f + 1)
            hrowwalk hfin
          have hcellsp : ∀ j ∈ p.2, aget base.C j ≠ c ∧ j < base.C.length := by
            intro j hj
            exact hcells j (by rw [planCells_cons]; exact List.mem_append_left _ hj)
          have hinv' : spliceInv c base (p.2.foldl spliceOut t) :=
            spliceInv_foldOut c base p.2 t hinvfull hcellsp
          have hDadv : aget (p.2.foldl spliceOut t).D p.1 = aget t.D p.1 := by
            obtain ⟨_, _, _, _, _, _, _, _, _, _, _, hcol', _⟩ := hinv'
            rw [(hcol' p.1 hp1c).2, (hcol p.1 hp1c).2]
          have hI' : walkTo (p.2.foldl spliceOut t).D c
              (aget (p.2.foldl spliceOut t).D p.1) (plan.length + 1) =
              some (plan.map Prod.fst) := by
            rw [hDadv]
            apply walkTo_congr t.D _ c _ _ _ hrec
            intro x hx
            obtain ⟨_, _, _, _, _, _, _, _, _, _, _, hcol', _⟩ := hinv'
            obtain ⟨px, hpx, hpx1⟩ := List.mem_map.mp hx
            have hxc : aget base.C x = c := by rw [← hpx1]; exact hrowcol px (by simp [hpx])
            rw [(hcol' x hxc).2, (hcol x hxc).2]
          obtain ⟨hloop, hinvfinal⟩ := ih base (p.2.foldl spliceOut t)
            (aget (p.2.foldl spliceOut t).D p.1) f hinv' hI'
            (fun q hq => hrows q (by simp [hq]))
            (fun q hq => hrowcol q (by simp [hq]))
            (fun j hj => hcells j (by rw [planCells_cons]; exact List.mem_append_right _ hj))
            (by omega)
            (fun q hq => by
              have := hfuel2 q (by simp [hq])
              simp only [List.length_cons] at this
              omega)
          constructor
          · simp only [coverOuter, if_neg hne, hinner]
            rw [planCells_cons, List.foldl_append]
            exact hloop
          · rw [planCells_cons, List.foldl_append]
            exact hinvfinal

theorem uncoverInner_eq_fold (i : Nat) :
    ∀ (J : List Nat) (t : DlxData) (j fuel : Nat),
      walkTo t.L i j (J.length + 1) = some J → J.length < fuel →
      uncoverInner fuel t i j = some (J.foldl spliceIn t) := by
  intro J
  induction J with
  | nil =>
      intro t j fuel hw hfuel
      match fuel, hfuel with
      | f + 1, _ =>
          have hji : j = i := (walkTo_seg _ _ _ _ _ hw).1
          simp [uncoverInner, hji]
  | cons j0 J ih =>
      intro t j fuel hw hfuel
      match fuel, hfuel with
      | f + 1, hfuel =>
          obtain ⟨hseg, hnot⟩ := walkTo_seg _ _ _ _ _ hw
          obtain ⟨hj, hseg2⟩ := hseg
          subst hj
          have hne : j ≠ i := hnot j (by simp)
          simp only [uncoverInner, if_neg hne, List.foldl_cons]
          have hrec2 : walkTo (spliceIn t j).L i (aget (spliceIn t j).L j)
              (J.length + 1) = some J := by
            rw [spliceIn_L]
            exact seg_walkTo _ _ _ _ _ hseg2 (fun y hy => hnot y (by simp [hy]))
              (Nat.lt_succ_self _)
          exact ih (spliceIn t j) _ f hrec2
            (by simp only [List.length_cons] at hfuel; omega)

theorem uncoverOuter_eq_fold (c : Nat) :
    ∀ (plan : List (Nat × List Nat)) (base t : DlxData) (i fuel : Nat),
      spliceInv c base t →
      walkTo t.U c i (plan.length + 1) = some (plan.map Prod.fst) →
      (∀ p ∈ plan, walkTo base.L p.1 (aget base.L p.1) (p.2.length + 1) = some p.2) →
      (∀ p ∈ plan, aget base.C p.1 = c) →
      (∀ j ∈ planCells plan, aget base.C j ≠ c ∧ j < base.C.length) →
      plan.length < fuel →
      (∀ p ∈ plan, plan.length + p.2.length < fuel) →
      uncoverOuter fuel t c i = some ((planCells plan).foldl spliceIn t) ∧
        spliceInv c base ((planCells plan).foldl spliceIn t) := by
  intro plan
  induction plan with
  | nil =>
      intro base t i fuel hinv hI _ _ _ hfuel _
      match fuel, hfuel with
      | f + 1, _ =>
          have hic : i = c := (walkTo_seg _ _ _ _ _ hI).1
          exact ⟨by simp [uncoverOuter, hic, planCells], hinv⟩
  | cons p plan ih =>
      intro base t i fuel hinv hI hrows hrowcol hcells hfuel1 hfuel2
      match fuel, hfuel1 with
      | f + 1, hfuel1 =>
          simp only [List.map_cons, List.length_cons] at hI
          obtain ⟨hseg, hnot⟩ := walkTo_seg _ _ _ _ _ hI
          obtain ⟨hip, hseg2⟩ := hseg
          subst hip
          have hne : p.1 = c → False := fun h => hnot p.1 (by simp) h
          have hrec : walkTo t.U c (aget t.U p.1) (plan.length + 1) =
              some (plan.map Prod.fst) :=
            seg_walkTo _ _ _ _ _ hseg2 (fun y hy => hnot y (by simp [hy])) (by simp)
          have hlen1 : plan.length < f := by
            simp only [List.length_cons] at hfuel1
            omega
          obtain ⟨hC, hR, hL, hRM, hcoh, hlb, hUlen, hDlen, hSlen, hUC, hDC,
            hcol, hS⟩ := hinv
          have hinvfull : spliceInv c base t :=
            ⟨hC, hR, hL, hRM, hcoh, hlb, hUlen, hDlen, hSlen, hUC, hDC, hcol, hS⟩
          have hp1c : aget base.C p.1 = c := hrowcol p (by simp)
          have hrowwalk : walkTo t.L p.1 (aget t.L p.1) (p.2.length + 1) = some p.2 := by
            rw [hL]
            exact hrows p (by simp)
          have hfin : p.2.length < f + 1 := by
            have := hfuel2 p (by simp)
            simp only [List.length_cons] at this
            omega
          have hinner := uncoverInner_eq_fold p.1 p.2 t (aget t.L p.1) (f + 1)
            hrowwalk hfin
          have hcellsp : ∀ j ∈ p.2, aget base.C j ≠ c ∧ j < base.C.length := by
            intro j hj
            exact hcells j (by rw [planCells_cons]; exact List.mem_append_left _ hj)
          have hinv' : spliceInv c base (p.2.foldl spliceIn t) :=
            spliceInv_foldIn c base p.2 t hinvfull hcellsp
          have hUadv : aget (p.2.foldl spliceIn t).U p.1 = aget t.U p.1 := by
            obtain ⟨_, _, _, _, _, _, _, _, _, _, _, hcol', _⟩ := hinv'
            rw [(hcol' p.1 hp1c).1, (hcol p.1 hp1c).1]
          have hI' : walkTo (p.2.foldl spliceIn t).U c
              (aget (p.2.foldl spliceIn t).U p.1) (plan.length + 1) =
              some (plan.map Prod.fst) := by
            rw [hUadv]
            apply walkTo_congr t.U _ c _ _ _ hrec
            intro x hx
            obtain ⟨_, _, _, _, _, _, _, _, _, _, _, hcol', _⟩ := hinv'
            obtain ⟨px, hpx, hpx1⟩ := List.mem_map.mp hx
            have hxc : aget base.C x = c := by rw [← hpx1]; exact hrowcol px (by simp [hpx])
            rw [(hcol' x hxc).1, (hcol x hxc).1]
          obtain ⟨hloop, hinvfinal⟩ := ih base (p.2.foldl spliceIn t)
            (aget (p.2.foldl spliceIn t).U p.1) f hinv' hI'
            (fun q hq => hrows q (by simp [hq]))
            (fun q hq => hrowcol q (by simp [hq]))
            (fun j hj => hcells j (by rw [planCells_cons]; exact List.mem_append_right _ hj))
            (by omega)
            (fun q hq => by
              have := hfuel2 q (by simp [hq])
              simp only [List.length_cons] at this
              omega)
          constructor
          · simp only [uncoverOuter, if_neg hne, hinner]
            rw [planCells_cons, List.foldl_append]
            exact hloop
          · rw [planCells_cons, List.foldl_append]
            exact hinvfinal

theorem revPlan_map_fst (plan : List (Nat × List Nat)) :
    (revPlan plan).map Prod.fst = (plan.map Prod.fst).reverse := by
  simp [revPlan, List.map_reverse]

theorem planCells_revPlan (plan : List (Nat × List Nat)) :
    planCells (revPlan plan) = (planCells plan).reverse := by
  induction plan with
  | nil => rfl
  | cons p plan ih =>
      have h1 : revPlan (p :: plan) = revPlan plan ++ [(p.1, p.2.reverse)] := by
        simp [revPlan]
      rw [h1, planCells_cons]
      show (revPlan plan ++ [(p.1, p.2.reverse)]).flatMap Prod.snd = _
      rw [List.flatMap_append]
      show planCells (revPlan plan) ++ planCells [(p.1, p.2.reverse)] = _
      rw [ih, List.reverse_append]
      simp [planCells]

theorem mem_revPlan {plan : List (Nat × List Nat)} {q : Nat × List Nat} :
    q ∈ revPlan plan ↔ ∃ p ∈ plan, q = (p.1, p.2.reverse) := by
  simp only [revPlan, List.mem_reverse, List.mem_map]
  constructor
  · rintro ⟨p, hp, rfl⟩
    exact ⟨p, hp, rfl⟩
  · rintro ⟨p, hp, rfl⟩
    exact ⟨p, hp, rfl⟩

theorem aget_oob {l : List Nat} {i : Nat} (h : l.length ≤ i) : aget l i = 0 := by
  simp [aget, List.getD_eq_getElem?_getD, List.getElem?_eq_none h]

theorem revPlan_length (plan : List (Nat × List Nat)) :
    (revPlan plan).length = plan.length := by
  simp [revPlan]

theorem mem_planCells {plan : List (Nat × List Nat)} {j : Nat} :
    j ∈ planCells plan ↔ ∃ p ∈ plan, j ∈ p.2 := by
  simp [planCells]

theorem headerSplice_S (s : DlxData) (c : Nat) : (headerSplice s c).S = s.S := rfl

theorem headerSplice_U (s : DlxData) (c : Nat) : (headerSplice s c).U = s.U := rfl

theorem headerSplice_D (s : DlxData) (c : Nat) : (headerSplice s c).D = s.D := rfl

theorem headerSplice_C (s : DlxData) (c : Nat) : (headerSplice s c).C = s.C := rfl

theorem headerSplice_RM (s : DlxData) (c : Nat) : (headerSplice s c).RM = s.RM := rfl

theorem headerSplice_L (s : DlxData) (c : Nat) :
    (headerSplice s c).L = aset s.L (aget s.R c) (aget s.L c) := rfl

theorem headerSplice_R (s : DlxData) (c : Nat) (hRc : aget s.R c ≠ c) :
    (headerSplice s c).R = aset s.R (aget s.L c) (aget s.R c) := by
  show aset s.R (aget (aset s.L (aget s.R c) (aget s.L c)) c) (aget s.R c) = _
  rw [aget_aset_ne _ hRc]

/-- Main reversibility theorem: from any state `s` that is well formed along
column `c` (in particular, `c` still properly linked into the header ring),
`coverColumn c` succeeds and the immediately following `uncoverColumn c`
returns exactly `s`, every field included. -/
theorem coverColumn_uncoverColumn_restore (Hn : Nat) (s : DlxData) (c : Nat)
    (plan : List (Nat × List Nat)) (fuel : Nat)
    (hok : coverOK Hn s c plan)
    (hfuel1 : plan.length < fuel)
    (hfuel2 : ∀ p ∈ plan, plan.length + p.2.length < fuel) :
    (coverColumn fuel s c).bind (fun t => uncoverColumn fuel t c) = some s := by
  obtain ⟨hcoh, hlb, hlenU, hlenD, hSb, hCc, hcH, hRcne, hLcne, hLcH, hRcH,
    hRLc, hLRc, hwalkD, hwalkR, hrowinfo, hcellinfo, hnodup, hlinked, hlinkD, hlinkR⟩ := hok
  have hbR : (headerSplice s c).R = aset s.R (aget s.L c) (aget s.R c) :=
    headerSplice_R s c hRcne
  have hinv0 : spliceInv c (headerSplice s c) (headerSplice s c) := by
    apply spliceInv_refl
    · exact hcoh
    · exact hlb
    · exact hlenU
    · exact hlenD
  have hrows2 : ∀ p ∈ plan, walkTo (headerSplice s c).R p.1
      (aget (headerSplice s c).R p.1) (p.2.length + 1) = some p.2 := by
    intro p hp
    have hstart : aget (headerSplice s c).R p.1 = aget s.R p.1 := by
      rw [hbR]
      exact aget_aset_ne _ (by have := (hrowinfo p hp).2; omega)
    rw [hstart]
    apply walkTo_congr s.R _ _ _ _ _ (hwalkR p hp)
    intro x hx
    rw [hbR]
    refine aget_aset_ne _ ?_
    have hxH : Hn ≤ x := (hcellinfo x (mem_planCells.mpr ⟨p, hp, hx⟩)).2.2
    omega
  obtain ⟨hcover, hinv1⟩ := coverOuter_eq_fold c plan (headerSplice s c) (headerSplice s c)
    (aget (headerSplice s c).D c) fuel hinv0 hwalkD hrows2
    (fun p hp => (hrowinfo p hp).1)
    (fun j hj => ⟨(hcellinfo j hj).1, (hcellinfo j hj).2.1⟩) hfuel1 hfuel2
  have hcov : coverColumn fuel s c =
      some ((planCells plan).foldl spliceOut (headerSplice s c)) := hcover
  obtain ⟨iC, iR, iL, iRM, icoh, ilb, iUlen, iDlen, iSlen, iUC, iDC, icol, iS⟩ := hinv1
  have hinv1full : spliceInv c (headerSplice s c)
      ((planCells plan).foldl spliceOut (headerSplice s c)) :=
    ⟨iC, iR, iL, iRM, icoh, ilb, iUlen, iDlen, iSlen, iUC, iDC, icol, iS⟩
  have hs'Uc : aget ((planCells plan).foldl spliceOut (headerSplice s c)).U c =
      aget s.U c := (icol c hCc).1
  obtain ⟨hsegD, hnotD⟩ := walkTo_seg _ _ _ _ _ hwalkD
  have hsegU : Seg s.U (aget s.U c) (plan.map Prod.fst).reverse c :=
    seg_rev s.D s.U (plan.map Prod.fst) c c hsegD hlinkD
  have hwalkU : walkTo s.U c (aget s.U c) ((plan.map Prod.fst).reverse.length + 1) =
      some (plan.map Prod.fst).reverse :=
    seg_walkTo _ _ _ _ _ hsegU
      (fun y hy => hnotD y (List.mem_reverse.mp hy)) (Nat.lt_succ_self _)
  have hIcolor : ∀ x ∈ plan.map Prod.fst, aget s.C x = c := by
    intro x hx
    obtain ⟨px, hpx, hpx1⟩ := List.mem_map.mp hx
    rw [← hpx1]
    exact (hrowinfo px hpx).1
  have hwalkU2 : walkTo ((planCells plan).foldl spliceOut (headerSplice s c)).U c
      (aget ((planCells plan).foldl spliceOut (headerSplice s c)).U c)
      ((revPlan plan).length + 1) = some ((revPlan plan).map Prod.fst) := by
    rw [hs'Uc, revPlan_map_fst, revPlan_length]
    have hlen : (plan.map Prod.fst).reverse.length = plan.length := by simp
    rw [← hlen]
    apply walkTo_congr s.U _ _ _ _ _ hwalkU
    intro x hx
    have hxc : aget s.C x = c := hIcolor x (List.mem_reverse.mp hx)
    exact (icol x hxc).1
  have hrowsL : ∀ q ∈ revPlan plan, walkTo (headerSplice s c).L q.1
      (aget (headerSplice s c).L q.1) (q.2.length + 1) = some q.2 := by
    intro q hq
    obtain ⟨p, hp, rfl⟩ := mem_revPlan.mp hq
    obtain ⟨hsegR, hnotR⟩ := walkTo_seg _ _ _ _ _ (hwalkR p hp)
    have hsegL : Seg s.L (aget s.L p.1) p.2.reverse p.1 :=
      seg_rev s.R s.L p.2 p.1 p.1 hsegR (hlinkR p hp)
    have hwalkL : walkTo s.L p.1 (aget s.L p.1) (p.2.reverse.length + 1) =
        some p.2.reverse :=
      seg_walkTo _ _ _ _ _ hsegL
        (fun y hy => hnotR y (List.mem_reverse.mp hy)) (Nat.lt_succ_self _)
    have hstart : aget (headerSplice s c).L p.1 = aget s.L p.1 := by
      rw [headerSplice_L]
      exact aget_aset_ne _ (by have := (hrowinfo p hp).2; omega)
    show walkTo (headerSplice s c).L p.1 (aget (headerSplice s c).L p.1)
        (p.2.reverse.length + 1) = some p.2.reverse
    rw [hstart]
    apply walkTo_congr s.L _ _ _ _ _ hwalkL
    intro x hx
    rw [headerSplice_L]
    refine aget_aset_ne _ ?_
    have hxH : Hn ≤ x :=
      (hcellinfo x (mem_planCells.mpr ⟨p, hp, List.mem_reverse.mp hx⟩)).2.2
    omega
  obtain ⟨huncover, _⟩ := uncoverOuter_eq_fold c (revPlan plan) (headerSplice s c)
    ((planCells plan).foldl spliceOut (headerSplice s c))
    (aget ((planCells plan).foldl spliceOut (headerSplice s c)).U c) fuel
    hinv1full hwalkU2 hrowsL
    (fun q hq => by
      obtain ⟨p, hp, rfl⟩ := mem_revPlan.mp hq
      exact (hrowinfo p hp).1)
    (fun j hj => by
      rw [planCells_revPlan] at hj
      have hj2 := hcellinfo j (List.mem_reverse.mp hj)
      exact ⟨hj2.1, hj2.2.1⟩)
    (by rw [revPlan_length]; exact hfuel1)
    (fun q hq => by
      obtain ⟨p, hp, rfl⟩ := mem_revPlan.mp hq
      rw [revPlan_length]
      simpa using hfuel2 p hp)
  have hcancel : (planCells (revPlan plan)).foldl spliceIn
      ((planCells plan).foldl spliceOut (headerSplice s c)) = headerSplice s c := by
    rw [planCells_revPlan]
    apply foldl_out_in_cancel (planCells plan) (headerSplice s c) hnodup
    · intro j hj
      exact hlinked j hj
    · intro j hj
      have hjC : j < s.C.length := (hcellinfo j hj).2.1
      rw [headerSplice_U, headerSplice_D]
      show aget s.U j < s.D.length ∧ aget s.D j < s.U.length
      rw [hlenD, hlenU]
      exact hlb j hjC
    · intro j hj
      rw [headerSplice_S, headerSplice_C]
      show aget s.S (aget s.C j) < W64
      by_cases hin : aget s.C j < s.S.length
      · exact hSb _ hin
      · rw [aget_oob (Nat.le_of_not_lt hin)]
        norm_num [W64]
  have hrestoreR : aset (headerSplice s c).R (aget (headerSplice s c).L c) c = s.R := by
    have hgetL : aget (headerSplice s c).L c = aget s.L c := by
      rw [headerSplice_L]
      exact aget_aset_ne _ hRcne
    rw [hgetL, hbR, aset_aset, aset_cancel hRLc]
  have hrestoreL : aset (headerSplice s c).L (aget s.R c) c = s.L := by
    rw [headerSplice_L, aset_aset, aset_cancel hLRc]
  have huncov : uncoverColumn fuel
      ((planCells plan).foldl spliceOut (headerSplice s c)) c = some s := by
    simp only [uncoverColumn, huncover, hcancel]
    refine congrArg some (dlxDataExt ?_ ?_ ?_ ?_ ?_ ?_ ?_)
    · exact headerSplice_S s c
    · exact hrestoreR
    · show aset (headerSplice s c).L
        (aget (aset (headerSplice s c).R (aget (headerSplice s c).L c) c) c) c = s.L
      rw [hrestoreR]
      exact hrestoreL
    · exact headerSplice_U s c
    · exact headerSplice_D s c
    · exact headerSplice_C s c
    · exact headerSplice_RM s c
  rw [hcov]
  show uncoverColumn fuel ((planCells plan).foldl spliceOut (headerSplice s c)) c = some s
  exact huncov

/-- Specification of a successful cover: on a `coverOK` state, `coverColumn c`
returns the header-splice followed by the splice fold over the plan cells, and
the splice-fold invariant holds of the result. -/
theorem coverColumn_spec (Hn : Nat) (s : DlxData) (c : Nat)
    (plan : List (Nat × List Nat)) (fuel : Nat)
    (hok : coverOK Hn s c plan)
    (hfuel1 : plan.length < fuel)
    (hfuel2 : ∀ p ∈ plan, plan.length + p.2.length < fuel) :
    coverColumn fuel s c =
        some ((planCells plan).foldl spliceOut (headerSplice s c)) ∧
      spliceInv c (headerSplice s c)
        ((planCells plan).foldl spliceOut (headerSplice s c)) := by
  obtain ⟨hcoh, hlb, hlenU, hlenD, hSb, hCc, hcH, hRcne, hLcne, hLcH, hRcH,
    hRLc, hLRc, hwalkD, hwalkR, hrowinfo, hcellinfo, hnodup, hlinked, hlinkD, hlinkR⟩ := hok
  have hbR : (headerSplice s c).R = aset s.R (aget s.L c) (aget s.R c) :=
    headerSplice_R s c hRcne
  have hinv0 : spliceInv c (headerSplice s c) (headerSplice s c) := by
    apply spliceInv_refl
    · exact hcoh
    · exact hlb
    · exact hlenU
    · exact hlenD
  have hrows2 : ∀ p ∈ plan, walkTo (headerSplice s c).R p.1
      (aget (headerSplice s c).R p.1) (p.2.length + 1) = some p.2 := by
    intro p hp
    have hstart : aget (headerSplice s c).R p.1 = aget s.R p.1 := by
      rw [hbR]
      exact aget_aset_ne _ (by have := (hrowinfo p hp).2; omega)
    rw [hstart]
    apply walkTo_congr s.R _ _ _ _ _ (hwalkR p hp)
    intro x hx
    rw [hbR]
    refine aget_aset_ne _ ?_
    have hxH : Hn ≤ x := (hcellinfo x (mem_planCells.mpr ⟨p, hp, hx⟩)).2.2
    omega
  exact coverOuter_eq_fold c plan (headerSplice s c) (headerSplice s c)
    (aget (headerSplice s c).D c) fuel hinv0 hwalkD hrows2
    (fun p hp => (hrowinfo p hp).1)
    (fun j hj => ⟨(hcellinfo j hj).1, (hcellinfo j hj).2.1⟩) hfuel1 hfuel2

/-- C2, amended: for every arena state that is well formed along column `c`
with `c` active (properly linked into the header ring) — as every state reached
by the search is, for every column still in the ring — executing
`coverColumn c` followed by `uncoverColumn c` restores every `L`, `R`, `U`,
`D`, `C` and `S` field exactly.  The original claim's quantification over all
columns of any reachable state fails for already-covered columns (see the
counterexample). -/
theorem c2_amended_cover_uncover_restores (Hn : Nat) (s : DlxData) (c : Nat)
    (plan : List (Nat × List Nat)) (fuel : Nat)
    (hok : coverOK Hn s c plan)
    (hfuel1 : plan.length < fuel)
    (hfuel2 : ∀ p ∈ plan, plan.length + p.2.length < fuel) :
    (coverColumn fuel s c).bind (fun t => uncoverColumn fuel t c) = some s :=
  coverColumn_uncoverColumn_restore Hn s c plan fuel hok hfuel1 hfuel2

/-- Witness for the amended C2 theorem: on the built arena of `psSmall6` and
the active column 2 (cover plan: row node 8 with right-walk `[9, 7]`), the
cover/uncover pair returns exactly the built arena. -/
theorem c2_amended_cover_uncover_restores_witness :
    (coverColumn 10 (dlxInit 6 4 psSmall6) 2).bind
        (fun t => uncoverColumn 10 t 2) = some (dlxInit 6 4 psSmall6) :=
  c2_amended_cover_uncover_restores 7 (dlxInit 6 4 psSmall6) 2 [(8, [9, 7])] 10
    (by decide) (by decide) (by decide)

/-- C9: on a state well formed along the active column `c`, `coverColumn c`
leaves `S[c]` unchanged, leaves the up and down links of every node of column
`c` unchanged, and the down-walk from `c` afterwards still enumerates exactly
the candidate row nodes of the cover plan in their pre-cover order. -/
theorem c9_cover_preserves_column_c (Hn : Nat) (s : DlxData) (c : Nat)
    (plan : List (Nat × List Nat)) (fuel : Nat)
    (hok : coverOK Hn s c plan)
    (hfuel1 : plan.length < fuel)
    (hfuel2 : ∀ p ∈ plan, plan.length + p.2.length < fuel) :
    ∃ s2, coverColumn fuel s c = some s2 ∧
      aget s2.S c = aget s.S c ∧
      (∀ x, aget s.C x = c → aget s2.U x = aget s.U x ∧ aget s2.D x = aget s.D x) ∧
      walkTo s2.D c (aget s2.D c) (plan.length + 1) = some (plan.map Prod.fst) := by
  obtain ⟨hcov, hinv⟩ := coverColumn_spec Hn s c plan fuel hok hfuel1 hfuel2
  obtain ⟨hcoh, hlb, hlenU, hlenD, hSb, hCc, hcH, hRcne, hLcne, hLcH, hRcH,
    hRLc, hLRc, hwalkD, hwalkR, hrowinfo, hcellinfo, hnodup, hlinked, hlinkD, hlinkR⟩ := hok
  obtain ⟨iC, iR, iL, iRM, icoh, ilb, iUlen, iDlen, iSlen, iUC, iDC, icol, iS⟩ := hinv
  refine ⟨_, hcov, ?_, ?_, ?_⟩
  · exact iS
  · intro x hxc
    exact icol x hxc
  · have hDc : aget ((planCells plan).foldl spliceOut (headerSplice s c)).D c =
        aget s.D c := (icol c hCc).2
    rw [hDc]
    apply walkTo_congr s.D _ _ _ _ _ hwalkD
    intro x hx
    obtain ⟨px, hpx, hpx1⟩ := List.mem_map.mp hx
    have hxc : aget s.C x = c := by rw [← hpx1]; exact (hrowinfo px hpx).1
    exact (icol x hxc).2

/-- Witness for the C9 theorem on the built arena of `psSmall6` at column 2. -/
theorem c9_cover_preserves_column_c_witness :
    ∃ s2, coverColumn 10 (dlxInit 6 4 psSmall6) 2 = some s2 ∧
      aget s2.S 2 = aget (dlxInit 6 4 psSmall6).S 2 ∧
      (∀ x, aget (dlxInit 6 4 psSmall6).C x = 2 →
        aget s2.U x = aget (dlxInit 6 4 psSmall6).U x ∧
        aget s2.D x = aget (dlxInit 6 4 psSmall6).D x) ∧
      walkTo s2.D 2 (aget s2.D 2) 2 = some [8] :=
  c9_cover_preserves_column_c 7 (dlxInit 6 4 psSmall6) 2 [(8, [9, 7])] 10
    (by decide) (by decide) (by decide)

/-!
Success-based forms of the loop bridgings: whenever a loop call returns `some`,
its value is determined by the walk on the pre-state, with no explicit fuel
bound needed.
-/

theorem coverInner_succ (i : Nat) :
    ∀ (J : List Nat) (t r : DlxData) (j fuel : Nat),
      walkTo t.R i j (J.length + 1) = some J →
      coverInner fuel t i j = some r → r = J.foldl spliceOut t := by
  intro J
  induction J with
  | nil =>
      intro t r j fuel hw hrun
      have hji : j = i := (walkTo_seg _ _ _ _ _ hw).1
      match fuel, hrun with
      | f + 1, hrun =>
          rw [hji] at hrun
          simp [coverInner] at hrun
          exact hrun.symm
  | cons j0 J ih =>
      intro t r j fuel hw hrun
      obtain ⟨hseg, hnot⟩ := walkTo_seg _ _ _ _ _ hw
      obtain ⟨hj, hseg2⟩ := hseg
      subst hj
      have hne : j ≠ i := hnot j (by simp)
      match fuel, hrun with
      | f + 1, hrun =>
          simp only [coverInner, if_neg hne] at hrun
          rw [List.foldl_cons]
          refine ih (spliceOut t j) r _ f ?_ hrun
          rw [spliceOut_R]
          exact seg_walkTo _ _ _ _ _ hseg2 (fun y hy => hnot y (by simp [hy]))
            (Nat.lt_succ_self _)

theorem uncoverInner_succ (i : Nat) :
    ∀ (J : List Nat) (t r : DlxData) (j fuel : Nat),
      walkTo t.L i j (J.length + 1) = some J →
      uncoverInner fuel t i j = some r → r = J.foldl spliceIn t := by
  intro J
  induction J with
  | nil =>
      intro t r j fuel hw hrun
      have hji : j = i := (walkTo_seg _ _ _ _ _ hw).1
      match fuel, hrun with
      | f + 1, hrun =>
          rw [hji] at hrun
          simp [uncoverInner] at hrun
          exact hrun.symm
  | cons j0 J ih =>
      intro t r j fuel hw hrun
      obtain ⟨hseg, hnot⟩ := walkTo_seg _ _ _ _ _ hw
      obtain ⟨hj, hseg2⟩ := hseg
      subst hj
      have hne : j ≠ i := hnot j (by simp)
      match fuel, hrun with
      | f + 1, hrun =>
          simp only [uncoverInner, if_neg hne] at hrun
          rw [List.foldl_cons]
          refine ih (spliceIn t j) r _ f ?_ hrun
          rw [spliceIn_L]
          exact seg_walkTo _ _ _ _ _ hseg2 (fun y hy => hnot y (by simp [hy]))
            (Nat.lt_succ_self _)

theorem coverOuter_succ (c : Nat) :
    ∀ (plan : List (Nat × List Nat)) (base t r : DlxData) (i fuel : Nat),
      spliceInv c base t →
      walkTo t.D c i (plan.length + 1) = some (plan.map Prod.fst) →
      (∀ p ∈ plan, walkTo base.R p.1 (aget base.R p.1) (p.2.length + 1) = some p.2) →
      (∀ p ∈ plan, aget base.C p.1 = c) →
      (∀ j ∈ planCells plan, aget base.C j ≠ c ∧ j < base.C.length) →
      coverOuter fuel t c i = some r →
      r = (planCells plan).foldl spliceOut t := by
  intro plan
  induction plan with
  | nil =>
      intro base t r i fuel _ hI _ _ _ hrun
      have hic : i = c := (walkTo_seg _ _ _ _ _ hI).1
      match fuel, hrun with
      | f + 1, hrun =>
          rw [hic] at hrun
          simp [coverOuter] at hrun
          simp [planCells]
          exact hrun.symm
  | cons p plan ih =>
      intro base t r i fuel hinv hI hrows hrowcol hcells hrun
      simp only [List.map_cons, List.length_cons] at hI
      obtain ⟨hseg, hnot⟩ := walkTo_seg _ _ _ _ _ hI
      obtain ⟨hip, hseg2⟩ := hseg
      subst hip
      have hne : p.1 = c → False := fun h => hnot p.1 (by simp) h
      have hrec : walkTo t.D c (aget t.D p.1) (plan.length + 1) =
          some (plan.map Prod.fst) :=
        seg_walkTo _ _ _ _ _ hseg2 (fun y hy => hnot y (by simp [hy])) (by simp)
      obtain ⟨hC, hR, hL, hRM, hcoh, hlb, hUlen, hDlen, hSlen, hUC, hDC,
        hcol, hS⟩ := hinv
      have hinvfull : spliceInv c base t :=
        ⟨hC, hR, hL, hRM, hcoh, hlb, hUlen, hDlen, hSlen, hUC, hDC, hcol, hS⟩
      have hp1c : aget base.C p.1 = c := hrowcol p (by simp)
      have hrowwalk : walkTo t.R p.1 (aget t.R p.1) (p.2.length + 1) = some p.2 := by
        rw [hR]
        exact hrows p (by simp)
      match fuel, hrun with
      | f + 1, hrun =>
          simp only [coverOuter, if_neg hne] at hrun
          match hinner : coverInner (f + 1) t p.1 (aget t.R p.1), hrun with
          | some s2, hrun =>
              have hrun : coverOuter f s2 c (aget s2.D p.1) = some r := hrun
              have hs2 : s2 = p.2.foldl spliceOut t :=
                coverInner_succ p.1 p.2 t s2 (aget t.R p.1) (f + 1) hrowwalk hinner
              subst hs2
              have hcellsp : ∀ j ∈ p.2, aget base.C j ≠ c ∧ j < base.C.length := by
                intro j hj
                exact hcells j (by rw [planCells_cons]; exact List.mem_append_left _ hj)
              have hinv' : spliceInv c base (p.2.foldl spliceOut t) :=
                spliceInv_foldOut c base p.2 t hinvfull hcellsp
              have hDadv : aget (p.2.foldl spliceOut t).D p.1 = aget t.D p.1 := by
                obtain ⟨_, _, _, _, _, _, _, _, _, _, _, hcol', _⟩ := hinv'
                rw [(hcol' p.1 hp1c).2, (hcol p.1 hp1c).2]
              have hI' : walkTo (p.2.foldl spliceOut t).D c
                  (aget (p.2.foldl spliceOut t).D p.1) (plan.length + 1) =
                  some (plan.map Prod.fst) := by
                rw [hDadv]
                apply walkTo_congr t.D _ c _ _ _ hrec
                intro x hx
                obtain ⟨_, _, _, _, _, _, _, _, _, _, _, hcol', _⟩ := hinv'
                obtain ⟨px, hpx, hpx1⟩ := List.mem_map.mp hx
                have hxc : aget base.C x = c := by
                  rw [← hpx1]
                  exact hrowcol px (by simp [hpx])
                rw [(hcol' x hxc).2, (hcol x hxc).2]
              rw [planCells_cons, List.foldl_append]
              exact ih base (p.2.foldl spliceOut t) r
                (aget (p.2.foldl spliceOut t).D p.1) f hinv' hI'
                (fun q hq => hrows q (by simp [hq]))
                (fun q hq => hrowcol q (by simp [hq]))
                (fun j hj => hcells j
                  (by rw [planCells_cons]; exact List.mem_append_right _ hj))
                hrun

theorem uncoverOuter_succ (c : Nat) :
    ∀ (plan : List (Nat × List Nat)) (base t r : DlxData) (i fuel : Nat),
      spliceInv c base t →
      walkTo t.U c i (plan.length + 1) = some (plan.map Prod.fst) →
      (∀ p ∈ plan, walkTo base.L p.1 (aget base.L p.1) (p.2.length + 1) = some p.2) →
      (∀ p ∈ plan, aget base.C p.1 = c) →
      (∀ j ∈ planCells plan, aget base.C j ≠ c ∧ j < base.C.length) →
      uncoverOuter fuel t c i = some r →
      r = (planCells plan).foldl spliceIn t := by
  intro plan
  induction plan with
  | nil =>
      intro base t r i fuel _ hI _ _ _ hrun
      have hic : i = c := (walkTo_seg _ _ _ _ _ hI).1
      match fuel, hrun with
      | f + 1, hrun =>
          rw [hic] at hrun
          simp [uncoverOuter] at hrun
          simp [planCells]
          exact hrun.symm
  | cons p plan ih =>
      intro base t r i fuel hinv hI hrows hrowcol hcells hrun
      simp only [List.map_cons, List.length_cons] at hI
      obtain ⟨hseg, hnot⟩ := walkTo_seg _ _ _ _ _ hI
      obtain ⟨hip, hseg2⟩ := hseg
      subst hip
      have hne : p.1 = c → False := fun h => hnot p.1 (by simp) h
      have hrec : walkTo t.U c (aget t.U p.1) (plan.length + 1) =
          some (plan.map Prod.fst) :=
        seg_walkTo _ _ _ _ _ hseg2 (fun y hy => hnot y (by simp [hy])) (by simp)
      obtain ⟨hC, hR, hL, hRM, hcoh, hlb, hUlen, hDlen, hSlen, hUC, hDC,
        hcol, hS⟩ := hinv
      have hinvfull : spliceInv c base t :=
        ⟨hC, hR, hL, hRM, hcoh, hlb, hUlen, hDlen, hSlen, hUC, hDC, hcol, hS⟩
      have hp1c : aget base.C p.1 = c := hrowcol p (by simp)
      have hrowwalk : walkTo t.L p.1 (aget t.L p.1) (p.2.length + 1) = some p.2 := by
        rw [hL]
        exact hrows p (by simp)
      match fuel, hrun with
      | f + 1, hrun =>
          simp only [uncoverOuter, if_neg hne] at hrun
          match hinner : uncoverInner (f + 1) t p.1 (aget t.L p.1), hrun with
          | some s2, hrun =>
              have hrun : uncoverOuter f s2 c (aget s2.U p.1) = some r := hrun
              have hs2 : s2 = p.2.foldl spliceIn t :=
                uncoverInner_succ p.1 p.2 t s2 (aget t.L p.1) (f + 1) hrowwalk hinner
              subst hs2
              have hcellsp : ∀ j ∈ p.2, aget base.C j ≠ c ∧ j < base.C.length := by
                intro j hj
                exact hcells j (by rw [planCells_cons]; exact List.mem_append_left _ hj)
              have hinv' : spliceInv c base (p.2.foldl spliceIn t) :=
                spliceInv_foldIn c base p.2 t hinvfull hcellsp
              have hUadv : aget (p.2.foldl spliceIn t).U p.1 = aget t.U p.1 := by
                obtain ⟨_, _, _, _, _, _, _, _, _, _, _, hcol', _⟩ := hinv'
                rw [(hcol' p.1 hp1c).1, (hcol p.1 hp1c).1]
              have hI' : walkTo (p.2.foldl spliceIn t).U c
                  (aget (p.2.foldl spliceIn t).U p.1) (plan.length + 1) =
                  some (plan.map Prod.fst) := by
                rw [hUadv]
                apply walkTo_congr t.U _ c _ _ _ hrec
                intro x hx
                obtain ⟨_, _, _, _, _, _, _, _, _, _, _, hcol', _⟩ := hinv'
                obtain ⟨px, hpx, hpx1⟩ := List.mem_map.mp hx
                have hxc : aget base.C x = c := by
                  rw [← hpx1]
                  exact hrowcol px (by simp [hpx])
                rw [(hcol' x hxc).1, (hcol x hxc).1]
              rw [planCells_cons, List.foldl_append]
              exact ih base (p.2.foldl spliceIn t) r
                (aget (p.2.foldl spliceIn t).U p.1) f hinv' hI'
                (fun q hq => hrows q (by simp [hq]))
                (fun q hq => hrowcol q (by simp [hq]))
                (fun j hj => hcells j
                  (by rw [planCells_cons]; exact List.mem_append_right _ hj))
                hrun

theorem chooseLoop_succ (s : DlxData) (header : Nat) :
    ∀ (T : List Nat) (fuelW i m r fuel : Nat),
      walkTo s.R header i fuelW = some T →
      chooseLoop fuel s header i m = some r → r = T.foldl (pickMin s) m := by
  intro T
  induction T with
  | nil =>
      intro fuelW i m r fuel hw hrun
      have hih : i = header := (walkTo_seg _ _ _ _ _ hw).1
      match fuel, hrun with
      | f + 1, hrun =>
          rw [hih] at hrun
          simp [chooseLoop] at hrun
          exact hrun.symm
  | cons a T ih =>
      intro fuelW i m r fuel hw hrun
      obtain ⟨hseg, hnot⟩ := walkTo_seg _ _ _ _ _ hw
      obtain ⟨hia, hseg2⟩ := hseg
      subst hia
      have hne : i ≠ header := hnot i (by simp)
      match fuel, hrun with
      | f + 1, hrun =>
          simp only [chooseLoop, if_neg hne] at hrun
          rw [List.foldl_cons]
          exact ih (T.length + 1) _ _ r f
            (seg_walkTo _ _ _ _ _ hseg2 (fun y hy => hnot y (by simp [hy]))
              (Nat.lt_succ_self _)) hrun

theorem foldl_pickMin_mem (s : DlxData) :
    ∀ (T : List Nat) (m : Nat), T.foldl (pickMin s) m ∈ m :: T := by
  intro T
  induction T with
  | nil => intro m; simp
  | cons a T ih =>
      intro m
      rw [List.foldl_cons]
      have h := ih (pickMin s m a)
      rcases List.mem_cons.mp h with h2 | h2
      · rw [h2]
        by_cases hlt : aget s.S a < aget s.S m
        · simp [pickMin, hlt]
        · simp [pickMin, hlt]
      · simp [h2]

/-!
Ring-walk utilities: congruence of `Seg` under agreement on the visited nodes,
decomposition of a `Seg` across an append, the last link of a walk, membership
of successors and existence of predecessors on a closed ring walk, and the
surgery lemma: splicing one node out of a doubly linked ring turns its walk
into the walk with that node erased.
-/

theorem seg_congr (arr arr2 : List Nat) :
    ∀ (l : List Nat) (start e : Nat), Seg arr start l e →
      (∀ x ∈ l, aget arr2 x = aget arr x) → Seg arr2 start l e := by
  intro l
  induction l with
  | nil => intro start e h _; exact h
  | cons x l ih =>
      intro start e h hag
      obtain ⟨rfl, h2⟩ := h
      refine ⟨rfl, ?_⟩
      rw [hag start (by simp)]
      exact ih _ e h2 (fun y hy => hag y (by simp [hy]))

theorem seg_append_inv (arr : List Nat) :
    ∀ (l1 l2 : List Nat) (start e : Nat), Seg arr start (l1 ++ l2) e →
      ∃ m, Seg arr start l1 m ∧ Seg arr m l2 e := by
  intro l1
  induction l1 with
  | nil =>
      intro l2 start e h
      exact ⟨start, rfl, h⟩
  | cons x l1 ih =>
      intro l2 start e h
      obtain ⟨rfl, h2⟩ := h
      obtain ⟨m, hm1, hm2⟩ := ih l2 _ e h2
      exact ⟨m, ⟨rfl, hm1⟩, hm2⟩

theorem seg_last (arr : List Nat) :
    ∀ (l : List Nat) (start e : Nat), Seg arr start l e → ∀ (hne : l ≠ []),
      aget arr (l.getLast hne) = e := by
  intro l
  induction l with
  | nil => intro start e _ hne; exact absurd rfl hne
  | cons x l ih =>
      intro start e h hne
      obtain ⟨rfl, h2⟩ := h
      match l, h2 with
      | [], h2 =>
          simp only [List.getLast_singleton]
          exact h2
      | y :: l2, h2 =>
          rw [List.getLast_cons (by simp)]
          exact ih _ e h2 (by simp)

theorem ring_succ_mem (arr : List Nat) (stop : Nat) (A : List Nat)
    (hw : walkTo arr stop (aget arr stop) (A.length + 1) = some A) :
    ∀ x ∈ stop :: A, aget arr x ∈ stop :: A := by
  obtain ⟨hseg, _⟩ := walkTo_seg _ _ _ _ _ hw
  intro x hx
  rcases List.mem_cons.mp hx with hxs | hxA
  · subst hxs
    match A, hseg with
    | [], hseg => simp [show aget arr x = x from hseg]
    | a :: A, hseg => simp [show aget arr x = a from hseg.1]
  · obtain ⟨A1, A2, hdec⟩ := List.append_of_mem hxA
    subst hdec
    obtain ⟨m, _, hm2⟩ := seg_append_inv arr A1 (x :: A2) _ _ hseg
    obtain ⟨hmx, hm3⟩ := hm2
    match A2, hm3 with
    | [], hm3 => simp [show aget arr x = stop from hm3]
    | y :: A2, hm3 =>
        have : aget arr x = y := hm3.1
        rw [this]
        simp

theorem ring_pred_ex (arr : List Nat) (stop : Nat) (A : List Nat)
    (hw : walkTo arr stop (aget arr stop) (A.length + 1) = some A) :
    ∀ x ∈ A, ∃ y ∈ stop :: A, aget arr y = x := by
  obtain ⟨hseg, _⟩ := walkTo_seg _ _ _ _ _ hw
  intro x hx
  obtain ⟨A1, A2, hdec⟩ := List.append_of_mem hx
  subst hdec
  obtain ⟨m, hm1, hm2⟩ := seg_append_inv arr A1 (x :: A2) _ _ hseg
  obtain ⟨hmx, _⟩ := hm2
  rw [hmx] at hm1
  match A1, hm1 with
  | [], hm1 =>
      exact ⟨stop, by simp, hm1⟩
  | a :: A1, hm1 =>
      have hlne : (a :: A1) ≠ [] := by simp
      refine ⟨(a :: A1).getLast hlne, ?_, seg_last arr _ _ _ hm1 hlne⟩
      exact List.mem_cons_of_mem stop
        (List.mem_append_left _ (List.getLast_mem hlne))

theorem ring_succ_ne (arr : List Nat) (stop : Nat) (A : List Nat)
    (hw : walkTo arr stop (aget arr stop) (A.length + 1) = some A)
    (hnd : (stop :: A).Nodup) :
    ∀ x ∈ A, aget arr x ≠ x := by
  obtain ⟨hseg, hnot⟩ := walkTo_seg _ _ _ _ _ hw
  intro x hx
  obtain ⟨A1, A2, hdec⟩ := List.append_of_mem hx
  subst hdec
  obtain ⟨m, _, hm2⟩ := seg_append_inv arr A1 (x :: A2) _ _ hseg
  obtain ⟨hmx, hm3⟩ := hm2
  have hndA : (A1 ++ x :: A2).Nodup := (List.nodup_cons.mp hnd).2
  have hxA2 : x ∉ A2 := by
    have := (List.nodup_append.mp hndA).2.1
    exact (List.nodup_cons.mp this).1
  match A2, hm3, hxA2 with
  | [], hm3, _ =>
      rw [show aget arr x = stop from hm3]
      exact fun h => hnot x hx h.symm
  | y :: A2, hm3, hxA2 =>
      rw [show aget arr x = y from hm3.1]
      intro h
      exact hxA2 (by rw [h]; simp)

theorem walk_splice_erase (arr : List Nat) (stop j : Nat) (l : List Nat)
    (hw : walkTo arr stop (aget arr stop) (l.length + 1) = some l)
    (hnd : (stop :: l).Nodup)
    (hj : j ∈ l)
    (p : Nat)
    (hpl : p < arr.length)
    (huniq : ∀ y ∈ stop :: l, aget arr y = j → y = p) :
    walkTo (aset arr p (aget arr j)) stop (aget (aset arr p (aget arr j)) stop)
      ((l.erase j).length + 1) = some (l.erase j) := by
  obtain ⟨l1, l2, hdec⟩ := List.append_of_mem hj
  subst hdec
  obtain ⟨hseg, _⟩ := walkTo_seg _ _ _ _ _ hw
  have hstopl : stop ∉ l1 ++ j :: l2 := (List.nodup_cons.mp hnd).1
  have hndl : (l1 ++ j :: l2).Nodup := (List.nodup_cons.mp hnd).2
  have hjl1 : j ∉ l1 := by
    intro hmem
    have := (List.nodup_append.mp hndl).2.2
    exact this hmem (by simp)
  have hdisj : ∀ y ∈ l1, y ∉ j :: l2 := fun y hy => (List.nodup_append.mp hndl).2.2 hy
  have herase : (l1 ++ j :: l2).erase j = l1 ++ l2 := by
    rw [List.erase_append_right _ hjl1, List.erase_cons_head]
  obtain ⟨m, hseg1, hseg2⟩ := seg_append_inv arr l1 (j :: l2) _ _ hseg
  obtain ⟨hmj, hseg3⟩ := hseg2
  rw [hmj] at hseg1
  rw [herase]
  have hallne : ∀ x ∈ l1 ++ l2, x ≠ stop := by
    intro x hx h
    subst h
    rcases List.mem_append.mp hx with h | h
    · exact hstopl (List.mem_append_left _ h)
    · exact hstopl (List.mem_append_right _ (by simp [h]))
  match l1, hseg1, hjl1, hdisj, hallne with
  | [], hseg1, _, _, hallne =>
      have hsj : aget arr stop = j := hseg1
      have hsp : stop = p := huniq stop (by simp) hsj
      have hstart : aget (aset arr p (aget arr j)) stop = aget arr j := by
        rw [← hsp]
        rw [← hsp] at hpl
        exact aget_aset_self _ hpl
      rw [hstart]
      refine seg_walkTo _ _ _ _ _ ?_ (by simpa using hallne) (Nat.lt_succ_self _)
      refine seg_congr arr _ l2 _ _ hseg3 ?_
      intro x hx
      refine aget_aset_ne _ ?_
      intro h
      rw [← hsp] at h
      exact hstopl (by rw [h]; simp [hx])
  | a :: l1, hseg1, hjl1, hdisj, hallne =>
      have hlne : (a :: l1) ≠ [] := by simp
      have hq : aget arr ((a :: l1).getLast hlne) = j := seg_last arr _ _ _ hseg1 hlne
      have hqmem : (a :: l1).getLast hlne ∈ a :: l1 := List.getLast_mem hlne
      have hqbig : (a :: l1).getLast hlne ∈ stop :: ((a :: l1) ++ j :: l2) :=
        List.mem_cons_of_mem stop (List.mem_append_left _ hqmem)
      have hqp : (a :: l1).getLast hlne = p := huniq _ hqbig hq
      have hstopq : stop ≠ p := by
        intro h
        rw [← hqp] at h
        exact hstopl (by rw [h]; exact List.mem_append_left _ hqmem)
      have hstart : aget (aset arr p (aget arr j)) stop = a := by
        rw [aget_aset_ne _ (fun h => hstopq h.symm)]
        exact hseg1.1
      rw [hstart]
      have hndl1 : (a :: l1).Nodup := (List.nodup_append.mp
        (show ((a :: l1) ++ j :: l2).Nodup from hndl)).1
      have hqdrop : p ∉ (a :: l1).dropLast := by
        rw [← hqp]
        intro hmem
        have hdecomp := List.dropLast_append_getLast hlne
        have : ¬ (a :: l1).Nodup := by
          rw [← hdecomp, List.nodup_append]
          intro ⟨_, _, hd⟩
          exact hd hmem (by simp)
        exact this hndl1
      have hsegd : Seg arr (aget arr stop)
          ((a :: l1).dropLast ++ [(a :: l1).getLast hlne]) j := by
        rw [List.dropLast_append_getLast hlne]
        exact hseg1
      obtain ⟨m2, hm2a, hm2b⟩ := seg_append_inv arr _ _ _ _ hsegd
      have hm2q : m2 = p := by
        obtain ⟨h1, _⟩ := hm2b
        rw [h1, hqp]
      rw [hm2q] at hm2a
      have hsegA : Seg (aset arr p (aget arr j)) (aget arr stop) (a :: l1).dropLast p := by
        refine seg_congr arr _ _ _ _ hm2a ?_
        intro x hx
        exact aget_aset_ne _ (fun h => hqdrop (h ▸ hx))
      have hsegB : Seg (aset arr p (aget arr j)) p [p] (aget arr j) :=
        ⟨rfl, aget_aset_self _ hpl⟩
      have hsegC : Seg (aset arr p (aget arr j)) (aget arr j) l2 stop := by
        refine seg_congr arr _ _ _ _ hseg3 ?_
        intro x hx
        refine aget_aset_ne _ ?_
        intro h
        rw [← hqp] at h
        have hxin : x ∈ a :: l1 := h ▸ hqmem
        exact hdisj x hxin (List.mem_cons_of_mem _ hx)
      have hseg4 : Seg (aset arr p (aget arr j)) (aget arr stop)
          ((a :: l1).dropLast ++ [p]) (aget arr j) :=
        seg_append _ _ _ _ _ _ hsegA hsegB
      have hseg5 : Seg (aset arr p (aget arr j)) (aget arr stop)
          (((a :: l1).dropLast ++ [p]) ++ l2) stop :=
        seg_append _ _ _ _ _ _ hseg4 hsegC
      have hlisteq : ((a :: l1).dropLast ++ [p]) ++ l2 = (a :: l1) ++ l2 := by
        rw [← hqp, List.dropLast_append_getLast hlne]
      rw [hlisteq] at hseg5
      have hseg6 : Seg (aset arr p (aget arr j)) a ((a :: l1) ++ l2) stop := by
        have hsa : aget arr stop = a := hseg1.1
        rw [hsa] at hseg5
        exact hseg5
      exact seg_walkTo _ _ _ _ _ hseg6 (by simpa using hallne) (Nat.lt_succ_self _)

/-!
List helpers for the plan-data transforms.
-/

theorem map_fst_filter_not_mem (l : List (Nat × List Nat)) (rm : List Nat) :
    (l.filter (fun p => ¬ p.1 ∈ rm)).map Prod.fst =
      (l.map Prod.fst).filter (fun x => ¬ x ∈ rm) := by
  induction l with
  | nil => rfl
  | cons p l ih =>
      by_cases h : p.1 ∈ rm
      · simpa [List.filter_cons, h] using ih
      · simpa [List.filter_cons, h] using ih

theorem plansFilter_append (cols : List (Nat × List (Nat × List Nat)))
    (l1 l2 : List Nat) :
    plansFilter (plansFilter cols l1) l2 = plansFilter cols (l1 ++ l2) := by
  simp only [plansFilter, List.map_map]
  refine List.map_congr_left ?_
  intro ce _
  simp only [Function.comp, List.filter_filter]
  refine congrArg (fun z => (ce.1, z)) ?_
  refine List.filter_congr ?_
  intro p _
  by_cases h1 : p.1 ∈ l1 <;> by_cases h2 : p.1 ∈ l2 <;>
    simp [h1, h2]

theorem plansFilter_map_fst (cols : List (Nat × List (Nat × List Nat)))
    (rm : List Nat) : (plansFilter cols rm).map Prod.fst = cols.map Prod.fst := by
  simp [plansFilter, List.map_map, Function.comp]

theorem plansFilter_nil (cols : List (Nat × List (Nat × List Nat))) :
    plansFilter cols [] = cols := by
  simp only [plansFilter]
  have : ∀ ce : Nat × List (Nat × List Nat),
      (fun ce => (ce.1, ce.2.filter (fun p => ¬ p.1 ∈ ([] : List Nat)))) ce = ce := by
    intro ce
    simp
  simp [this]

theorem mem_plansFilter_of_mem {cols : List (Nat × List (Nat × List Nat))}
    {ce : Nat × List (Nat × List Nat)} (h : ce ∈ cols) (rm : List Nat) :
    (ce.1, ce.2.filter (fun p => ¬ p.1 ∈ rm)) ∈ plansFilter cols rm := by
  simp only [plansFilter, List.mem_map]
  exact ⟨ce, h, rfl⟩

theorem mem_of_mem_plansFilter {cols : List (Nat × List (Nat × List Nat))}
    {ce : Nat × List (Nat × List Nat)} {rm : List Nat}
    (h : ce ∈ plansFilter cols rm) :
    ∃ ce0 ∈ cols, ce = (ce0.1, ce0.2.filter (fun p => ¬ p.1 ∈ rm)) := by
  simp only [plansFilter, List.mem_map] at h
  obtain ⟨ce0, h0, h1⟩ := h
  exact ⟨ce0, h0, h1.symm⟩

theorem colPlan_eq_of_mem {cols : List (Nat × List (Nat × List Nat))}
    {ce : Nat × List (Nat × List Nat)} (hnd : (cols.map Prod.fst).Nodup)
    (hce : ce ∈ cols) : colPlan cols ce.1 = ce.2 := by
  induction cols with
  | nil => cases hce
  | cons ce0 cols ih =>
      rcases List.mem_cons.mp hce with hh | hmem
      · subst hh
        simp only [colPlan]
        rw [List.find?_cons_of_pos _ (by simp)]
      · have hne : ce0.1 ≠ ce.1 := by
          intro h
          have : ce.1 ∈ cols.map Prod.fst := List.mem_map.mpr ⟨ce, hmem, rfl⟩
          rw [← h] at this
          exact (List.nodup_cons.mp (by simpa using hnd)).1 this
        have hstep : colPlan (ce0 :: cols) ce.1 = colPlan cols ce.1 := by
          simp only [colPlan]
          rw [List.find?_cons_of_neg _ (by simp [hne])]
        rw [hstep]
        exact ih (List.nodup_cons.mp (by simpa using hnd)).2 hmem

theorem fst_mem_of_colPlan_ne_nil {cols : List (Nat × List (Nat × List Nat))}
    {c : Nat} {q : Nat × List Nat} (h : q ∈ colPlan cols c) :
    (c, colPlan cols c) ∈ cols := by
  unfold colPlan at h ⊢
  match hfind : cols.find? (fun ce => ce.1 == c) with
  | none => rw [hfind] at h; cases h
  | some ce =>
      rw [hfind] at h ⊢
      have hmem := List.mem_of_find?_eq_some hfind
      have hprop := List.find?_some hfind
      have hc : ce.1 = c := by simpa using hprop
      have : (c, ce.2) = ce := by
        rw [← hc]
      rw [this]
      exact hmem

/-!
Projections of the splice folds: the horizontal arrays, colours and row tags
are never touched, and the array lengths are stable.
-/

theorem foldl_spliceOut_R (js : List Nat) : ∀ t : DlxData,
    (js.foldl spliceOut t).R = t.R := by
  induction js with
  | nil => intro t; rfl
  | cons j js ih => intro t; rw [List.foldl_cons, ih, spliceOut_R]

theorem foldl_spliceOut_L (js : List Nat) : ∀ t : DlxData,
    (js.foldl spliceOut t).L = t.L := by
  induction js with
  | nil => intro t; rfl
  | cons j js ih => intro t; rw [List.foldl_cons, ih, spliceOut_L]

theorem foldl_spliceOut_C (js : List Nat) : ∀ t : DlxData,
    (js.foldl spliceOut t).C = t.C := by
  induction js with
  | nil => intro t; rfl
  | cons j js ih => intro t; rw [List.foldl_cons, ih, spliceOut_C]

theorem foldl_spliceOut_RM (js : List Nat) : ∀ t : DlxData,
    (js.foldl spliceOut t).RM = t.RM := by
  induction js with
  | nil => intro t; rfl
  | cons j js ih => intro t; rw [List.foldl_cons, ih, spliceOut_RM]

/-!
Preservation of the vertical structure (`VertInv`) by one splice and by the
whole splice fold of a cover: splicing a cell out erases its row from its own
column's ring and leaves every other active column's ring untouched.
-/

theorem entry_eq_of_fst_eq {l : List (Nat × List (Nat × List Nat))}
    (hnd : (l.map Prod.fst).Nodup) {a b : Nat × List (Nat × List Nat)}
    (ha : a ∈ l) (hb : b ∈ l) (hfst : a.1 = b.1) : a = b := by
  induction l with
  | nil => cases ha
  | cons c l ih =>
      rw [List.map_cons] at hnd
      have hnd2 := List.nodup_cons.mp hnd
      rcases List.mem_cons.mp ha with rfl | ha2
      · rcases List.mem_cons.mp hb with rfl | hb2
        · rfl
        · exact absurd (hfst ▸ List.mem_map.mpr ⟨b, hb2, rfl⟩) hnd2.1
      · rcases List.mem_cons.mp hb with rfl | hb2
        · exact absurd (hfst ▸ List.mem_map.mpr ⟨a, ha2, rfl⟩) hnd2.1
        · exact ih hnd2.2 ha2 hb2

theorem filter_not_mem_single (l : List (Nat × List Nat)) (j : Nat)
    (h : ∀ p ∈ l, p.1 ≠ j) : l.filter (fun p => ¬ p.1 ∈ [j]) = l := by
  refine List.filter_eq_self.mpr ?_
  intro p hp
  simp [h p hp]

theorem erase_eq_filter_single (l : List Nat) (j : Nat) (hnd : l.Nodup) :
    l.filter (fun x => ¬ x ∈ [j]) = l.erase j := by
  rw [List.Nodup.erase_eq_filter hnd]
  refine List.filter_congr ?_
  intro x _
  by_cases h : x = j <;> simp [h]

theorem vertInv_spliceOut (t : DlxData)
    (colsv : List (Nat × List (Nat × List Nat))) (j : Nat)
    (hinv : VertInv t colsv)
    (hjlen : j < t.C.length)
    (hmem : ∃ ce ∈ colsv, ce.1 = aget t.C j ∧ j ∈ ce.2.map Prod.fst) :
    VertInv (spliceOut t j) (plansFilter colsv [j]) := by
  obtain ⟨hcoh, hlb, hUC, hDC, hSb, hfst, hcols⟩ := hinv
  obtain ⟨ce, hce, hcej, hjanch⟩ := hmem
  obtain ⟨hcohS, hlbS⟩ := colCoherent_spliceOut t j hcoh hjlen hlb hUC hDC
  obtain ⟨hwalk, hndc, hlink, hpfacts, hhc⟩ := hcols ce hce
  have hbUj : aget t.U j < t.D.length := by
    rw [hDC]; exact (hlb j hjlen).1
  have hbDj : aget t.D j < t.U.length := by
    rw [hUC]; exact (hlb j hjlen).2
  have hjne1 : ce.1 ≠ j := by
    intro h
    exact (List.nodup_cons.mp hndc).1 (h ▸ hjanch)
  have hlinkj : linkedV t j := hlink j (List.mem_cons_of_mem _ hjanch)
  refine ⟨hcohS, hlbS, ?_, ?_, ?_, ?_, ?_⟩
  · rw [spliceOut_U_length, spliceOut_C]; exact hUC
  · rw [spliceOut_D_length, spliceOut_C]; exact hDC
  · intro k hk
    rw [spliceOut_S_length] at hk
    have hW : 0 < W64 := by norm_num [W64]
    rw [spliceOut_S]
    rcases aget_aset_cases t.S (aget t.C j)
        ((aget t.S (aget t.C j) + (W64 - 1)) % W64) k with h | h
    · rw [h]; exact Nat.mod_lt _ hW
    · rw [h]; exact hSb k hk
  · rw [plansFilter_map_fst]; exact hfst
  · intro ce2 hce2
    obtain ⟨ce0, hce0, hformula⟩ := mem_of_mem_plansFilter hce2
    obtain ⟨hwalk0, hndc0, hlink0, hpfacts0, hhc0⟩ := hcols ce0 hce0
    by_cases hcase : ce0.1 = aget t.C j
    · -- the spliced cell's own column: its ring loses `j`
      have hee : ce0 = ce := entry_eq_of_fst_eq hfst hce0 hce (by rw [hcase, hcej])
      subst hee
      have huniq : ∀ y ∈ ce0.1 :: ce0.2.map Prod.fst, aget t.D y = j → y = aget t.U j := by
        intro y hy hDy
        have := (hlink0 y hy).2
        rw [hDy] at this
        exact this.symm
      have hpl : aget t.U j < t.D.length := hbUj
      have hsurg := walk_splice_erase t.D ce0.1 j (ce0.2.map Prod.fst)
        (by rw [show (ce0.2.map Prod.fst).length = ce0.2.length from by simp]
            exact hwalk0)
        hndc0 hjanch (aget t.U j) hpl huniq
      have hDeq : (spliceOut t j).D = aset t.D (aget t.U j) (aget t.D j) :=
        spliceOut_D t j
      have hmapf : ce2.2.map Prod.fst = (ce0.2.map Prod.fst).erase j := by
        rw [hformula]
        show (ce0.2.filter (fun p => ¬ p.1 ∈ [j])).map Prod.fst = _
        rw [map_fst_filter_not_mem]
        exact erase_eq_filter_single _ _ (List.nodup_cons.mp hndc0).2
      have hfst2 : ce2.1 = ce0.1 := by rw [hformula]
      refine ⟨?_, ?_, ?_, ?_, ?_⟩
      · rw [hfst2, hmapf, hDeq]
        have hlen2 : ce2.2.length = ((ce0.2.map Prod.fst).erase j).length := by
          rw [show ce2.2.length = (ce2.2.map Prod.fst).length from by simp, hmapf]
        rw [hlen2]
        exact hsurg
      · rw [hfst2, hmapf]
        refine List.Nodup.sublist ?_ hndc0
        exact List.Sublist.cons₂ _ (List.erase_sublist _ _)
      · intro x hx
        rw [hfst2, hmapf] at hx
        have hxne : x ≠ j := by
          rcases List.mem_cons.mp hx with rfl | hx2
          · exact hjne1
          · intro h
            subst h
            exact (List.Nodup.not_mem_erase (List.nodup_cons.mp hndc0).2) hx2
        have hxmem : x ∈ ce0.1 :: ce0.2.map Prod.fst := by
          rcases List.mem_cons.mp hx with rfl | hx2
          · simp
          · exact List.mem_cons_of_mem _ (List.mem_of_mem_erase hx2)
        exact linkedV_spliceOut t j x hxne hlinkj (hlink0 x hxmem) hbUj hbDj
      · intro p hp
        rw [hformula] at hp
        have hp0 : p ∈ ce0.2 := List.mem_of_mem_filter hp
        rw [hfst2, spliceOut_C]
        exact hpfacts0 p hp0
      · rw [hfst2, spliceOut_C]
        exact hhc0
    · -- a different column: its ring is untouched
      have hnone : ce2.2 = ce0.2 := by
        rw [hformula]
        show ce0.2.filter (fun p => ¬ p.1 ∈ [j]) = ce0.2
        refine filter_not_mem_single _ _ ?_
        intro p hp h
        exact hcase (by rw [← h]; exact (hpfacts0 p hp).1.symm)
      have hfst2 : ce2.1 = ce0.1 := by rw [hformula]
      have hpres := spliceOut_preserves_colored t j ce0.1 hcoh hjlen
        (fun h => hcase h.symm)
      have hanchne : ∀ x ∈ ce0.1 :: ce0.2.map Prod.fst, aget t.C x = ce0.1 := by
        intro x hx
        rcases List.mem_cons.mp hx with rfl | hx2
        · exact hhc0
        · obtain ⟨p, hp, rfl⟩ := List.mem_map.mp hx2
          exact (hpfacts0 p hp).1
      refine ⟨?_, ?_, ?_, ?_, ?_⟩
      · rw [hfst2, hnone]
        have hstart : aget (spliceOut t j).D ce0.1 = aget t.D ce0.1 :=
          (hpres ce0.1 hhc0).2
        rw [hstart]
        refine walkTo_congr t.D _ _ _ _ _ hwalk0 ?_
        intro x hx
        have hxc : aget t.C x = ce0.1 :=
          hanchne x (List.mem_cons_of_mem _ hx)
        exact (hpres x hxc).2
      · rw [hfst2, hnone]; exact hndc0
      · intro x hx
        rw [hfst2, hnone] at hx
        have hxne : x ≠ j := by
          intro h
          subst h
          exact hcase (hanchne _ hx).symm
        exact linkedV_spliceOut t j x hxne hlinkj (hlink0 x hx) hbUj hbDj
      · intro p hp
        rw [hnone] at hp
        rw [hfst2, spliceOut_C]
        exact hpfacts0 p hp
      · rw [hfst2, spliceOut_C]
        exact hhc0

theorem vertInv_fold : ∀ (todo : List Nat) (t : DlxData)
    (colsv : List (Nat × List (Nat × List Nat))),
    VertInv t colsv → todo.Nodup →
    (∀ j ∈ todo, j < t.C.length ∧
      ∃ ce ∈ colsv, ce.1 = aget t.C j ∧ j ∈ ce.2.map Prod.fst) →
    VertInv (todo.foldl spliceOut t) (plansFilter colsv todo) := by
  intro todo
  induction todo with
  | nil =>
      intro t colsv hinv _ _
      rw [plansFilter_nil]
      exact hinv
  | cons j todo ih =>
      intro t colsv hinv hnd hjs
      have hj := hjs j (by simp)
      have hstep := vertInv_spliceOut t colsv j hinv hj.1 hj.2
      have hnext : ∀ j2 ∈ todo, j2 < (spliceOut t j).C.length ∧
          ∃ ce ∈ plansFilter colsv [j], ce.1 = aget (spliceOut t j).C j2 ∧
            j2 ∈ ce.2.map Prod.fst := by
        intro j2 hj2
        obtain ⟨hlen2, ce, hce, hcefst, hanch⟩ := hjs j2 (by simp [hj2])
        have hne : j2 ≠ j := by
          intro h
          subst h
          exact (List.nodup_cons.mp hnd).1 hj2
        refine ⟨by rw [spliceOut_C]; exact hlen2,
          (ce.1, ce.2.filter (fun p => ¬ p.1 ∈ [j])), mem_plansFilter_of_mem hce [j],
          by rw [spliceOut_C]; exact hcefst, ?_⟩
        show j2 ∈ (ce.2.filter (fun p => ¬ p.1 ∈ [j])).map Prod.fst
        rw [map_fst_filter_not_mem]
        exact List.mem_filter.mpr ⟨hanch, by simp [hne]⟩
      have hrec := ih (spliceOut t j) (plansFilter colsv [j]) hstep
        (List.nodup_cons.mp hnd).2 hnext
      rw [plansFilter_append] at hrec
      exact hrec

/-!
From the global invariant `GS` to the per-cover facts: every active column of
a `GS` state is `coverOK`, and cells of surviving rows are not removed by a
cover of another column.
-/

theorem rowEntry_eq_of_fst_eq {l : List (Nat × List Nat)}
    (hnd : (l.map Prod.fst).Nodup) {a b : Nat × List Nat}
    (ha : a ∈ l) (hb : b ∈ l) (hfst : a.1 = b.1) : a = b := by
  induction l with
  | nil => cases ha
  | cons c l ih =>
      rw [List.map_cons] at hnd
      have hnd2 := List.nodup_cons.mp hnd
      rcases List.mem_cons.mp ha with rfl | ha2
      · rcases List.mem_cons.mp hb with rfl | hb2
        · rfl
        · exact absurd (hfst ▸ List.mem_map.mpr ⟨b, hb2, rfl⟩) hnd2.1
      · rcases List.mem_cons.mp hb with rfl | hb2
        · exact absurd (hfst ▸ List.mem_map.mpr ⟨a, ha2, rfl⟩) hnd2.1
        · exact ih hnd2.2 ha2 hb2

theorem planCells_filter_sublist (plan : List (Nat × List Nat))
    (q : Nat × List Nat → Bool) :
    (planCells (plan.filter q)).Sublist (planCells plan) := by
  induction plan with
  | nil => simp [planCells]
  | cons p plan ih =>
      rw [planCells_cons]
      by_cases h : q p
      · rw [List.filter_cons_of_pos h, planCells_cons]
        exact List.Sublist.append (List.Sublist.refl _) ih
      · rw [List.filter_cons_of_neg h]
        exact List.Sublist.trans ih (List.sublist_append_right _ _)

theorem colsErase_map_fst_filter (cols : List (Nat × List (Nat × List Nat)))
    (c0 : Nat) :
    (colsErase cols c0).map Prod.fst =
      (cols.map Prod.fst).filter (fun x => ¬ x = c0) := by
  unfold colsErase
  induction cols with
  | nil => rfl
  | cons ce cols ih =>
      by_cases h : ce.1 = c0
      · simpa [List.filter_cons, h] using ih
      · simpa [List.filter_cons, h] using ih

theorem colsErase_map_fst (cols : List (Nat × List (Nat × List Nat))) (c0 : Nat)
    (hnd : (cols.map Prod.fst).Nodup) :
    (colsErase cols c0).map Prod.fst = (cols.map Prod.fst).erase c0 := by
  rw [colsErase_map_fst_filter, List.Nodup.erase_eq_filter hnd]
  refine List.filter_congr ?_
  intro x _
  by_cases h : x = c0 <;> simp [h]

theorem GS_coverOK (nc : Nat) (s : DlxData)
    (cols : List (Nat × List (Nat × List Nat)))
    (hGS : GS nc s cols) (c : Nat) (plan : List (Nat × List Nat))
    (hce : (c, plan) ∈ cols) :
    coverOK (nc + 1) s c plan := by
  obtain ⟨hcoh, hlb, hUC, hDC, hLC, hRC, hSb, hHlen, hwalkH, hndH, hcolf, hL, hcols⟩ := hGS
  obtain ⟨hwalkD, hndc, hlink, hpf, hwalkR, hrownd, hrowCnd, hlinkR, hcell, hpcnd, hsib⟩ :=
    hcols (c, plan) hce
  have hwalkH2 : walkTo s.R nc (aget s.R nc) ((cols.map Prod.fst).length + 1) =
      some (cols.map Prod.fst) := by
    rw [List.length_map]; exact hwalkH
  have hcmem : c ∈ cols.map Prod.fst := List.mem_map.mpr ⟨(c, plan), hce, rfl⟩
  have hcfacts := hcolf c hcmem
  have hRcne : aget s.R c ≠ c := ring_succ_ne s.R nc _ hwalkH2 hndH c hcmem
  have hcycH : ∀ x ∈ nc :: cols.map Prod.fst, x < nc + 1 := by
    intro x hx
    rcases List.mem_cons.mp hx with rfl | hx2
    · omega
    · have := (hcolf x hx2).1; omega
  have hRcH : aget s.R c < nc + 1 :=
    hcycH _ (ring_succ_mem s.R nc _ hwalkH2 c (List.mem_cons_of_mem _ hcmem))
  obtain ⟨y, hymem, hyR⟩ := ring_pred_ex s.R nc _ hwalkH2 c hcmem
  have hLc : aget s.L c = y := by
    have := hL y hymem
    rw [hyR] at this
    exact this
  have hLcH : aget s.L c < nc + 1 := by rw [hLc]; exact hcycH y hymem
  have hLcne : aget s.L c ≠ c := by
    rw [hLc]
    intro h
    subst h
    exact hRcne hyR
  have hRLc : aget s.R (aget s.L c) = c := by rw [hLc, hyR]
  have hLRc : aget s.L (aget s.R c) = c := hL c (List.mem_cons_of_mem _ hcmem)
  refine ⟨hcoh, hlb, hUC, hDC, hSb, hcfacts.2, by omega, hRcne, hLcne, hLcH, hRcH,
    hRLc, hLRc, hwalkD, hwalkR, ?_, ?_, hpcnd, ?_, ?_, hlinkR⟩
  · intro p hp
    exact ⟨(hpf p hp).1, (hpf p hp).2.1⟩
  · intro j hj
    obtain ⟨p, hp, hjp⟩ := mem_planCells.mp hj
    obtain ⟨h1, h2, h3, _⟩ := hcell p hp j hjp
    exact ⟨h3, h2, h1⟩
  · intro j hj
    obtain ⟨p, hp, hjp⟩ := mem_planCells.mp hj
    exact (hcell p hp j hjp).2.2.2
  · intro x hx
    exact (hlink x hx).2

theorem cell_col_ne_covered (nc : Nat) (s : DlxData)
    (cols : List (Nat × List (Nat × List Nat)))
    (hGS : GS nc s cols) (c0 : Nat) (plan0 : List (Nat × List Nat))
    (hce0 : (c0, plan0) ∈ cols)
    (c1 : Nat) (plan1 : List (Nat × List Nat)) (hce1 : (c1, plan1) ∈ cols)
    (hne : c1 ≠ c0)
    (p : Nat × List Nat) (hp : p ∈ plan1) (hp1 : ¬ p.1 ∈ planCells plan0)
    (j : Nat) (hj : j ∈ p.2) : aget s.C j ≠ c0 := by
  intro hCj
  obtain ⟨_, _, _, _, _, _, _, _, _, hndH, _, _, hcols⟩ := hGS
  have hndf : (cols.map Prod.fst).Nodup := (List.nodup_cons.mp hndH).2
  obtain ⟨_, _, _, hpf1, _, _, _, _, _, _, hsib1⟩ := hcols (c1, plan1) hce1
  obtain ⟨_, qB, hqB, hqB1, _, hdirB2⟩ := hsib1 p hp j hj
  have hplan0 : colPlan cols (aget s.C j) = plan0 := by
    rw [hCj]
    exact colPlan_eq_of_mem hndf hce0
  rw [hplan0] at hqB
  have hp1j : p.1 ≠ j := by
    intro h
    have hc1 : aget s.C p.1 = c1 := (hpf1 p hp).1
    rw [h, hCj] at hc1
    exact hne hc1.symm
  have hp1in : p.1 ∈ qB.2 := hdirB2 p.1 (by simp) hp1j
  exact hp1 (mem_planCells.mpr ⟨qB, hqB, hp1in⟩)

theorem cell_not_removed (nc : Nat) (s : DlxData)
    (cols : List (Nat × List (Nat × List Nat)))
    (hGS : GS nc s cols) (c0 : Nat) (plan0 : List (Nat × List Nat))
    (hce0 : (c0, plan0) ∈ cols)
    (c1 : Nat) (plan1 : List (Nat × List Nat)) (hce1 : (c1, plan1) ∈ cols)
    (hne : c1 ≠ c0)
    (p : Nat × List Nat) (hp : p ∈ plan1) (hp1 : ¬ p.1 ∈ planCells plan0)
    (j : Nat) (hj : j ∈ p.2) : ¬ j ∈ planCells plan0 := by
  intro hjin
  obtain ⟨_, _, _, _, _, _, _, _, _, hndH, _, _, hcols⟩ := hGS
  have hndf : (cols.map Prod.fst).Nodup := (List.nodup_cons.mp hndH).2
  obtain ⟨q0, hq0, hjq0⟩ := mem_planCells.mp hjin
  obtain ⟨_, _, _, hpf0, _, _, _, _, _, _, hsib0⟩ := hcols (c0, plan0) hce0
  obtain ⟨_, _, _, hpf1, _, _, _, _, _, _, hsib1⟩ := hcols (c1, plan1) hce1
  obtain ⟨hCmem, qA, hqA, hqA1, hdirA1, _⟩ := hsib0 q0 hq0 j hjq0
  obtain ⟨_, qB, hqB, hqB1, _, hdirB2⟩ := hsib1 p hp j hj
  have hentry : (aget s.C j, colPlan cols (aget s.C j)) ∈ cols :=
    fst_mem_of_colPlan_ne_nil hqA
  obtain ⟨_, hnda, _, _, _, _, _, _, _, _, _⟩ := hcols _ hentry
  have hndanch : ((colPlan cols (aget s.C j)).map Prod.fst).Nodup :=
    (List.nodup_cons.mp hnda).2
  have hqAB : qA = qB := rowEntry_eq_of_fst_eq hndanch hqA hqB (by rw [hqA1, hqB1])
  have hp1j : p.1 ≠ j := fun h => hp1 (h ▸ hjin)
  have hp1in : p.1 ∈ qB.2 := hdirB2 p.1 (by simp) hp1j
  rw [← hqAB] at hp1in
  have hdir := hdirA1 p.1 hp1in
  rcases List.mem_cons.mp hdir.1 with heq | hmem2
  · have hc1 : aget s.C p.1 = c1 := (hpf1 p hp).1
    have hc0 : aget s.C q0.1 = c0 := (hpf0 q0 hq0).1
    rw [heq, hc0] at hc1
    exact hne hc1.symm
  · exact hp1 (mem_planCells.mpr ⟨q0, hq0, hmem2⟩)

/-- Covering an active column of a `GS` state preserves the invariant: the
canonical cover result is again `GS` with the covered column dropped from the
ring and the removed rows dropped from every other column's plan. -/
theorem GS_cover (nc : Nat) (s : DlxData)
    (cols : List (Nat × List (Nat × List Nat)))
    (hGS : GS nc s cols) (c0 : Nat) (plan0 : List (Nat × List Nat))
    (hce : (c0, plan0) ∈ cols) :
    GS nc (canonCover s c0 plan0) (gsAfterCover cols c0 (planCells plan0)) := by
  have hGS2 := hGS
  have hok := GS_coverOK nc s cols hGS c0 plan0 hce
  obtain ⟨hcoh, hlb, hUC, hDC, hLC, hRC, hSb, hHlen, hwalkH, hndH, hcolf, hL, hcols⟩ := hGS
  obtain ⟨_, _, _, _, _, hCc0, hc0H, hRcne, hLcne, hLcH, hRcH, hRLc, hLRc, _, _, _,
    _, hnodupP, _, _, _⟩ := hok
  have hndf : (cols.map Prod.fst).Nodup := (List.nodup_cons.mp hndH).2
  have hvert0 : VertInv (headerSplice s c0) (colsErase cols c0) := by
    refine ⟨hcoh, hlb, hUC, hDC, hSb, ?_, ?_⟩
    · exact List.Nodup.sublist
        (List.Sublist.map Prod.fst (List.filter_sublist cols)) hndf
    · intro ce hcee
      have hcem : ce ∈ cols := List.mem_of_mem_filter hcee
      obtain ⟨hwalkD0, hndc0, hlink0, hpf0, _, _, _, _, _, _, _⟩ := hcols ce hcem
      have hfstmem : ce.1 ∈ cols.map Prod.fst := List.mem_map.mpr ⟨ce, hcem, rfl⟩
      exact ⟨hwalkD0, hndc0, hlink0,
        (fun p hp => ⟨(hpf0 p hp).1, (hpf0 p hp).2.2⟩), (hcolf ce.1 hfstmem).2⟩
  have htodo : ∀ j ∈ planCells plan0, j < (headerSplice s c0).C.length ∧
      ∃ ce ∈ colsErase cols c0, ce.1 = aget (headerSplice s c0).C j ∧
        j ∈ ce.2.map Prod.fst := by
    intro j hj
    obtain ⟨p, hp, hjp⟩ := mem_planCells.mp hj
    obtain ⟨_, _, _, _, _, _, _, _, hcell0, _, hsib0⟩ := hcols (c0, plan0) hce
    obtain ⟨hjH, hjlen, hCjne, _⟩ := hcell0 p hp j hjp
    obtain ⟨hCmem, q, hq, hq1, _, _⟩ := hsib0 p hp j hjp
    have hentry : (aget s.C j, colPlan cols (aget s.C j)) ∈ cols :=
      fst_mem_of_colPlan_ne_nil hq
    refine ⟨hjlen, (aget s.C j, colPlan cols (aget s.C j)), ?_, rfl, ?_⟩
    · exact List.mem_filter.mpr ⟨hentry, by simp [hCjne]⟩
    · exact List.mem_map.mpr ⟨q, hq, hq1⟩
  have hvert := vertInv_fold (planCells plan0) (headerSplice s c0)
    (colsErase cols c0) hvert0 hnodupP htodo
  have hRs : (canonCover s c0 plan0).R = aset s.R (aget s.L c0) (aget s.R c0) := by
    show ((planCells plan0).foldl spliceOut (headerSplice s c0)).R = _
    rw [foldl_spliceOut_R, headerSplice_R s c0 hRcne]
  have hLs : (canonCover s c0 plan0).L = aset s.L (aget s.R c0) (aget s.L c0) := by
    show ((planCells plan0).foldl spliceOut (headerSplice s c0)).L = _
    rw [foldl_spliceOut_L, headerSplice_L]
  have hCs : (canonCover s c0 plan0).C = s.C := by
    show ((planCells plan0).foldl spliceOut (headerSplice s c0)).C = _
    rw [foldl_spliceOut_C, headerSplice_C]
  have hwalkH2 : walkTo s.R nc (aget s.R nc) ((cols.map Prod.fst).length + 1) =
      some (cols.map Prod.fst) := by
    rw [List.length_map]; exact hwalkH
  have hc0mem : c0 ∈ cols.map Prod.fst := List.mem_map.mpr ⟨(c0, plan0), hce, rfl⟩
  have hpl : aget s.L c0 < s.R.length := by rw [hRC]; omega
  have huniqH : ∀ y ∈ nc :: cols.map Prod.fst, aget s.R y = c0 → y = aget s.L c0 := by
    intro y hy hRy
    have := hL y hy
    rw [hRy] at this
    exact this.symm
  have hsurgH := walk_splice_erase s.R nc c0 (cols.map Prod.fst) hwalkH2 hndH hc0mem
    (aget s.L c0) hpl huniqH
  have hmapf : (gsAfterCover cols c0 (planCells plan0)).map Prod.fst =
      (cols.map Prod.fst).erase c0 := by
    show (plansFilter (colsErase cols c0) (planCells plan0)).map Prod.fst = _
    rw [plansFilter_map_fst, colsErase_map_fst _ _ hndf]
  have hvert2 : VertInv (canonCover s c0 plan0)
      (gsAfterCover cols c0 (planCells plan0)) := hvert
  obtain ⟨hcoh2, hlb2, hUC2, hDC2, hSb2, hfst2, hcols2⟩ := hvert2
  have hRcHlen : aget s.R c0 < s.L.length := by rw [hLC]; omega
  refine ⟨hcoh2, hlb2, hUC2, hDC2, ?_, ?_, hSb2, ?_, ?_, ?_, ?_, ?_, ?_⟩
  · rw [hLs, hCs]
    show (aset s.L (aget s.R c0) (aget s.L c0)).length = s.C.length
    rw [length_aset]
    exact hLC
  · rw [hRs, hCs]
    show (aset s.R (aget s.L c0) (aget s.R c0)).length = s.C.length
    rw [length_aset]
    exact hRC
  · rw [hCs]
    exact hHlen
  · -- the new header ring walk
    have hlen' : (gsAfterCover cols c0 (planCells plan0)).length =
        ((cols.map Prod.fst).erase c0).length := by
      rw [← hmapf, List.length_map]
    rw [hlen', hmapf, hRs]
    exact hsurgH
  · rw [hmapf]
    exact List.Nodup.sublist
      (List.Sublist.cons₂ nc (List.erase_sublist c0 (cols.map Prod.fst))) hndH
  · simp only [hmapf, hCs]
    intro c hc
    exact hcolf c (List.mem_of_mem_erase hc)
  · -- the header double links survive the unlink of c0
    simp only [hmapf, hRs, hLs]
    intro x hx
    have hxcyc : x ∈ nc :: cols.map Prod.fst := by
      rcases List.mem_cons.mp hx with rfl | hx2
      · simp
      · exact List.mem_cons_of_mem _ (List.mem_of_mem_erase hx2)
    have hxne : x ≠ c0 := by
      rcases List.mem_cons.mp hx with rfl | hx2
      · have := (hcolf c0 hc0mem).1
        omega
      · intro h
        subst h
        exact List.Nodup.not_mem_erase hndf hx2
    by_cases hxp : x = aget s.L c0
    · subst hxp
      rw [aget_aset_self _ hpl, aget_aset_self _ hRcHlen]
    · rw [aget_aset_ne _ (fun h => hxp h.symm)]
      have hRxne : aget s.R x ≠ aget s.R c0 := by
        intro h
        have h1 : aget s.L (aget s.R x) = x := hL x hxcyc
        have h2 : aget s.L (aget s.R c0) = c0 := hL c0 (List.mem_cons_of_mem _ hc0mem)
        rw [h, h2] at h1
        exact hxne h1.symm
      rw [aget_aset_ne _ (fun h => hRxne h.symm)]
      exact hL x hxcyc
  · -- per-column well-formedness of the covered state
    intro ce hcee
    obtain ⟨ce0, hce0e, hform⟩ := mem_of_mem_plansFilter
      (show ce ∈ plansFilter (colsErase cols c0) (planCells plan0) from hcee)
    have hce0cols : ce0 ∈ cols := List.mem_of_mem_filter hce0e
    have hce0pair : (ce0.1, ce0.2) ∈ cols := by
      rw [Prod.mk.eta]
      exact hce0cols
    have hc1ne : ce0.1 ≠ c0 := by
      have := List.of_mem_filter hce0e
      simpa using this
    obtain ⟨hwalk2, hndc2, hlink2, hpf2, hhc2⟩ := hcols2 ce hcee
    obtain ⟨hwalk0, hndc0, hlink0, hpf0, hwalkR0, hrownd0, hrowCnd0, hlinkR0,
      hcell0, hpcnd0, hsib0⟩ := hcols ce0 hce0cols
    have hmemp : ∀ p ∈ ce.2, p ∈ ce0.2 ∧ ¬ p.1 ∈ planCells plan0 := by
      intro p hp
      rw [hform] at hp
      refine ⟨List.mem_of_mem_filter hp, ?_⟩
      have := List.of_mem_filter hp
      simpa using this
    have hfstce : ce.1 = ce0.1 := by rw [hform]
    refine ⟨hwalk2, hndc2, hlink2, ?_, ?_, ?_, ?_, ?_, ?_, ?_, ?_⟩
    · intro p hp
      obtain ⟨hp0, _⟩ := hmemp p hp
      exact ⟨(hpf2 p hp).1, (hpf0 p hp0).2.1, (hpf2 p hp).2⟩
    · -- row walks are untouched
      intro p hp
      obtain ⟨hp0, _⟩ := hmemp p hp
      have hwR := hwalkR0 p hp0
      have hp1H : nc + 1 ≤ p.1 := (hpf0 p hp0).2.1
      have hstart : aget (canonCover s c0 plan0).R p.1 = aget s.R p.1 := by
        rw [hRs]
        exact aget_aset_ne _ (by omega)
      rw [hstart]
      refine walkTo_congr s.R _ _ _ _ _ hwR ?_
      intro x hx
      rw [hRs]
      refine aget_aset_ne _ ?_
      have hxH : nc + 1 ≤ x := (hcell0 p hp0 x hx).1
      omega
    · intro p hp
      exact hrownd0 p (hmemp p hp).1
    · intro p hp
      simp only [hCs]
      exact hrowCnd0 p (hmemp p hp).1
    · -- row double links survive
      intro p hp x hx
      obtain ⟨hp0, _⟩ := hmemp p hp
      have hxH : nc + 1 ≤ x := by
        rcases List.mem_cons.mp hx with rfl | hx2
        · exact (hpf0 p hp0).2.1
        · exact (hcell0 p hp0 x hx2).1
      have hRx : aget (canonCover s c0 plan0).R x = aget s.R x := by
        rw [hRs]
        exact aget_aset_ne _ (by omega)
      have hringw := hwalkR0 p hp0
      have hsuccm := ring_succ_mem s.R p.1 p.2 hringw
      have hRxH : nc + 1 ≤ aget s.R x := by
        rcases List.mem_cons.mp (hsuccm x hx) with h | h
        · rw [h]; exact (hpf0 p hp0).2.1
        · exact (hcell0 p hp0 _ h).1
      rw [hRx, hLs]
      rw [aget_aset_ne _ (by omega)]
      exact hlinkR0 p hp0 x hx
    · -- cells of surviving rows: bounds, colours and double links
      intro p hp j hj
      obtain ⟨hp0, hpnot⟩ := hmemp p hp
      obtain ⟨hjH, hjlen, hjne, _⟩ := hcell0 p hp0 j hj
      have hjnot : ¬ j ∈ planCells plan0 :=
        cell_not_removed nc s cols hGS2 c0 plan0 hce ce0.1 ce0.2 hce0pair hc1ne
          p hp0 hpnot j hj
      have hCjne0 : aget s.C j ≠ c0 :=
        cell_col_ne_covered nc s cols hGS2 c0 plan0 hce ce0.1 ce0.2 hce0pair hc1ne
          p hp0 hpnot j hj
      obtain ⟨hCjmem, q, hq, hq1, _, _⟩ := hsib0 p hp0 j hj
      have hentryJ : (aget s.C j, colPlan cols (aget s.C j)) ∈ cols :=
        fst_mem_of_colPlan_ne_nil hq
      have hentryJe : (aget s.C j, colPlan cols (aget s.C j)) ∈ colsErase cols c0 :=
        List.mem_filter.mpr ⟨hentryJ, by simp [hCjne0]⟩
      have hentryJ2 := mem_plansFilter_of_mem hentryJe (planCells plan0)
      have hjanch : j ∈ ((colPlan cols (aget s.C j)).filter
          (fun p2 => ¬ p2.1 ∈ planCells plan0)).map Prod.fst := by
        rw [map_fst_filter_not_mem]
        exact List.mem_filter.mpr ⟨List.mem_map.mpr ⟨q, hq, hq1⟩, by simp [hjnot]⟩
      obtain ⟨_, _, hlinkJ, _, _⟩ := hcols2 _ hentryJ2
      refine ⟨hjH, by rw [hCs]; exact hjlen, ?_, ?_⟩
      · rw [hCs, hfstce]
        exact hjne
      · exact hlinkJ j (List.mem_cons_of_mem _ hjanch)
    · -- the spliced cells stay pairwise distinct
      rw [hform]
      show (planCells (ce0.2.filter (fun p => ¬ p.1 ∈ planCells plan0))).Nodup
      exact List.Nodup.sublist (planCells_filter_sublist _ _) hpcnd0
    · -- the sibling-anchor structure survives
      intro p hp j hj
      obtain ⟨hp0, hpnot⟩ := hmemp p hp
      have hjnot : ¬ j ∈ planCells plan0 :=
        cell_not_removed nc s cols hGS2 c0 plan0 hce ce0.1 ce0.2 hce0pair hc1ne
          p hp0 hpnot j hj
      have hCjne0 : aget s.C j ≠ c0 :=
        cell_col_ne_covered nc s cols hGS2 c0 plan0 hce ce0.1 ce0.2 hce0pair hc1ne
          p hp0 hpnot j hj
      obtain ⟨hCjmem, q, hq, hq1, hdir1, hdir2⟩ := hsib0 p hp0 j hj
      have hentryJ : (aget s.C j, colPlan cols (aget s.C j)) ∈ cols :=
        fst_mem_of_colPlan_ne_nil hq
      have hentryJe : (aget s.C j, colPlan cols (aget s.C j)) ∈ colsErase cols c0 :=
        List.mem_filter.mpr ⟨hentryJ, by simp [hCjne0]⟩
      have hentryJ2 := mem_plansFilter_of_mem hentryJe (planCells plan0)
      have hplan' : colPlan (gsAfterCover cols c0 (planCells plan0)) (aget s.C j) =
          (colPlan cols (aget s.C j)).filter
            (fun p2 => ¬ p2.1 ∈ planCells plan0) := by
        have hnd' : ((gsAfterCover cols c0 (planCells plan0)).map Prod.fst).Nodup :=
          hfst2
        exact colPlan_eq_of_mem hnd' hentryJ2
      constructor
      · simp only [hCs, hmapf]
        exact (List.mem_erase_of_ne hCjne0).mpr hCjmem
      · simp only [hCs]
        rw [hplan']
        refine ⟨q, ?_, hq1, hdir1, hdir2⟩
        refine List.mem_filter.mpr ⟨hq, ?_⟩
        rw [hq1]
        simp [hjnot]

/-- Success-based value of a cover: whenever `coverColumn c` returns on a
`coverOK` state, its result is the canonical cover, whatever the fuel. -/
theorem coverColumn_succ_value (Hn : Nat) (s : DlxData) (c : Nat)
    (plan : List (Nat × List Nat)) (fuel : Nat) (t : DlxData)
    (hok : coverOK Hn s c plan)
    (hrun : coverColumn fuel s c = some t) :
    t = canonCover s c plan := by
  obtain ⟨hcoh, hlb, hlenU, hlenD, hSb, hCc, hcH, hRcne, hLcne, hLcH, hRcH,
    hRLc, hLRc, hwalkD, hwalkR, hrowinfo, hcellinfo, hnodup, hlinked, hlinkD, hlinkR⟩ := hok
  have hbR : (headerSplice s c).R = aset s.R (aget s.L c) (aget s.R c) :=
    headerSplice_R s c hRcne
  have hinv0 : spliceInv c (headerSplice s c) (headerSplice s c) := by
    apply spliceInv_refl
    · exact hcoh
    · exact hlb
    · exact hlenU
    · exact hlenD
  have hrows2 : ∀ p ∈ plan, walkTo (headerSplice s c).R p.1
      (aget (headerSplice s c).R p.1) (p.2.length + 1) = some p.2 := by
    intro p hp
    have hstart : aget (headerSplice s c).R p.1 = aget s.R p.1 := by
      rw [hbR]
      exact aget_aset_ne _ (by have := (hrowinfo p hp).2; omega)
    rw [hstart]
    apply walkTo_congr s.R _ _ _ _ _ (hwalkR p hp)
    intro x hx
    rw [hbR]
    refine aget_aset_ne _ ?_
    have hxH : Hn ≤ x := (hcellinfo x (mem_planCells.mpr ⟨p, hp, hx⟩)).2.2
    omega
  have hrun2 : coverOuter fuel (headerSplice s c) c
      (aget (headerSplice s c).D c) = some t := hrun
  exact coverOuter_succ c plan (headerSplice s c) (headerSplice s c) t
    (aget (headerSplice s c).D c) fuel hinv0 hwalkD hrows2
    (fun p hp => (hrowinfo p hp).1)
    (fun j hj => ⟨(hcellinfo j hj).1, (hcellinfo j hj).2.1⟩) hrun2

/-- Success-based restoration of an uncover: whenever `uncoverColumn c` returns
on the canonical cover of a `coverOK` state, its result is exactly the original
state, whatever the fuel. -/
theorem uncoverColumn_restore_value (Hn : Nat) (s : DlxData) (c : Nat)
    (plan : List (Nat × List Nat)) (fuel : Nat) (t : DlxData)
    (hok : coverOK Hn s c plan)
    (hrun : uncoverColumn fuel (canonCover s c plan) c = some t) :
    t = s := by
  obtain ⟨hcoh, hlb, hlenU, hlenD, hSb, hCc, hcH, hRcne, hLcne, hLcH, hRcH,
    hRLc, hLRc, hwalkD, hwalkR, hrowinfo, hcellinfo, hnodup, hlinked, hlinkD, hlinkR⟩ := hok
  have hbR : (headerSplice s c).R = aset s.R (aget s.L c) (aget s.R c) :=
    headerSplice_R s c hRcne
  have hinv0 : spliceInv c (headerSplice s c) (headerSplice s c) := by
    apply spliceInv_refl
    · exact hcoh
    · exact hlb
    · exact hlenU
    · exact hlenD
  have hinv1 : spliceInv c (headerSplice s c)
      ((planCells plan).foldl spliceOut (headerSplice s c)) := by
    apply spliceInv_foldOut c (headerSplice s c) (planCells plan)
      (headerSplice s c) hinv0
    intro j hj
    exact ⟨(hcellinfo j hj).1, (hcellinfo j hj).2.1⟩
  obtain ⟨iC, iR, iL, iRM, icoh, ilb, iUlen, iDlen, iSlen, iUC, iDC, icol, iS⟩ := hinv1
  have hinv1full : spliceInv c (headerSplice s c)
      ((planCells plan).foldl spliceOut (headerSplice s c)) :=
    ⟨iC, iR, iL, iRM, icoh, ilb, iUlen, iDlen, iSlen, iUC, iDC, icol, iS⟩
  have hs'Uc : aget ((planCells plan).foldl spliceOut (headerSplice s c)).U c =
      aget s.U c := (icol c hCc).1
  obtain ⟨hsegD, hnotD⟩ := walkTo_seg _ _ _ _ _ hwalkD
  have hsegU : Seg s.U (aget s.U c) (plan.map Prod.fst).reverse c :=
    seg_rev s.D s.U (plan.map Prod.fst) c c hsegD hlinkD
  have hwalkU : walkTo s.U c (aget s.U c) ((plan.map Prod.fst).reverse.length + 1) =
      some (plan.map Prod.fst).reverse :=
    seg_walkTo _ _ _ _ _ hsegU
      (fun y hy => hnotD y (List.mem_reverse.mp hy)) (Nat.lt_succ_self _)
  have hIcolor : ∀ x ∈ plan.map Prod.fst, aget s.C x = c := by
    intro x hx
    obtain ⟨px, hpx, hpx1⟩ := List.mem_map.mp hx
    rw [← hpx1]
    exact (hrowinfo px hpx).1
  have hwalkU2 : walkTo ((planCells plan).foldl spliceOut (headerSplice s c)).U c
      (aget ((planCells plan).foldl spliceOut (headerSplice s c)).U c)
      ((revPlan plan).length + 1) = some ((revPlan plan).map Prod.fst) := by
    rw [hs'Uc, revPlan_map_fst, revPlan_length]
    have hlen : (plan.map Prod.fst).reverse.length = plan.length := by simp
    rw [← hlen]
    apply walkTo_congr s.U _ _ _ _ _ hwalkU
    intro x hx
    have hxc : aget s.C x = c := hIcolor x (List.mem_reverse.mp hx)
    exact (icol x hxc).1
  have hrowsL : ∀ q ∈ revPlan plan, walkTo (headerSplice s c).L q.1
      (aget (headerSplice s c).L q.1) (q.2.length + 1) = some q.2 := by
    intro q hq
    obtain ⟨p, hp, rfl⟩ := mem_revPlan.mp hq
    obtain ⟨hsegR, hnotR⟩ := walkTo_seg _ _ _ _ _ (hwalkR p hp)
    have hsegL : Seg s.L (aget s.L p.1) p.2.reverse p.1 :=
      seg_rev s.R s.L p.2 p.1 p.1 hsegR (hlinkR p hp)
    have hwalkL : walkTo s.L p.1 (aget s.L p.1) (p.2.reverse.length + 1) =
        some p.2.reverse :=
      seg_walkTo _ _ _ _ _ hsegL
        (fun y hy => hnotR y (List.mem_reverse.mp hy)) (Nat.lt_succ_self _)
    have hstart : aget (headerSplice s c).L p.1 = aget s.L p.1 := by
      rw [headerSplice_L]
      exact aget_aset_ne _ (by have := (hrowinfo p hp).2; omega)
    show walkTo (headerSplice s c).L p.1 (aget (headerSplice s c).L p.1)
        (p.2.reverse.length + 1) = some p.2.reverse
    rw [hstart]
    apply walkTo_congr s.L _ _ _ _ _ hwalkL
    intro x hx
    rw [headerSplice_L]
    refine aget_aset_ne _ ?_
    have hxH : Hn ≤ x :=
      (hcellinfo x (mem_planCells.mpr ⟨p, hp, List.mem_reverse.mp hx⟩)).2.2
    omega
  have hrunU : uncoverColumn fuel
      ((planCells plan).foldl spliceOut (headerSplice s c)) c = some t := hrun
  unfold uncoverColumn at hrunU
  match hout : uncoverOuter fuel ((planCells plan).foldl spliceOut (headerSplice s c)) c
      (aget ((planCells plan).foldl spliceOut (headerSplice s c)).U c), hrunU with
  | some s1, hrunU =>
      have hs1 : s1 = (planCells (revPlan plan)).foldl spliceIn
          ((planCells plan).foldl spliceOut (headerSplice s c)) :=
        uncoverOuter_succ c (revPlan plan) (headerSplice s c)
          ((planCells plan).foldl spliceOut (headerSplice s c)) s1
          (aget ((planCells plan).foldl spliceOut (headerSplice s c)).U c) fuel
          hinv1full hwalkU2 hrowsL
          (fun q hq => by
            obtain ⟨p, hp, rfl⟩ := mem_revPlan.mp hq
            exact (hrowinfo p hp).1)
          (fun j hj => by
            rw [planCells_revPlan] at hj
            have hj2 := hcellinfo j (List.mem_reverse.mp hj)
            exact ⟨hj2.1, hj2.2.1⟩)
          hout
      have hcancel : (planCells (revPlan plan)).foldl spliceIn
          ((planCells plan).foldl spliceOut (headerSplice s c)) = headerSplice s c := by
        rw [planCells_revPlan]
        apply foldl_out_in_cancel (planCells plan) (headerSplice s c) hnodup
        · intro j hj
          exact hlinked j hj
        · intro j hj
          have hjC : j < s.C.length := (hcellinfo j hj).2.1
          rw [headerSplice_U, headerSplice_D]
          show aget s.U j < s.D.length ∧ aget s.D j < s.U.length
          rw [hlenD, hlenU]
          exact hlb j hjC
        · intro j hj
          rw [headerSplice_S, headerSplice_C]
          show aget s.S (aget s.C j) < W64
          by_cases hin : aget s.C j < s.S.length
          · exact hSb _ hin
          · rw [aget_oob (Nat.le_of_not_lt hin)]
            norm_num [W64]
      have hs1h : s1 = headerSplice s c := by rw [hs1, hcancel]
      subst hs1h
      have hrestoreR : aset (headerSplice s c).R (aget (headerSplice s c).L c) c =
          s.R := by
        have hgetL : aget (headerSplice s c).L c = aget s.L c := by
          rw [headerSplice_L]
          exact aget_aset_ne _ hRcne
        rw [hgetL, hbR, aset_aset, aset_cancel hRLc]
      have hrestoreL : aset (headerSplice s c).L (aget s.R c) c = s.L := by
        rw [headerSplice_L, aset_aset, aset_cancel hLRc]
      have ht : t = { { headerSplice s c with
          R := aset (headerSplice s c).R (aget (headerSplice s c).L c) c } with
          L := aset ({ headerSplice s c with
            R := aset (headerSplice s c).R (aget (headerSplice s c).L c) c }).L
            (aget ({ headerSplice s c with
              R := aset (headerSplice s c).R (aget (headerSplice s c).L c) c }).R c)
            c } := by
        have := hrunU
        simp only [Option.some.injEq] at this
        exact this.symm
      rw [ht]
      refine dlxDataExt ?_ ?_ ?_ ?_ ?_ ?_ ?_
      · exact headerSplice_S s c
      · exact hrestoreR
      · show aset (headerSplice s c).L
          (aget (aset (headerSplice s c).R (aget (headerSplice s c).L c) c) c) c = s.L
        rw [hrestoreR]
        exact hrestoreL
      · exact headerSplice_U s c
      · exact headerSplice_D s c
      · exact headerSplice_C s c
      · exact headerSplice_RM s c

/-!
Transport of the static arrays through a canonical cover and a cover stack:
`C` and `RM` are untouched, and `R`/`L` are untouched at every node index at or
beyond `HeaderSize`.
-/

theorem canonCover_C (s : DlxData) (c : Nat) (plan : List (Nat × List Nat)) :
    (canonCover s c plan).C = s.C := by
  show ((planCells plan).foldl spliceOut (headerSplice s c)).C = _
  rw [foldl_spliceOut_C, headerSplice_C]

theorem canonCover_RM (s : DlxData) (c : Nat) (plan : List (Nat × List Nat)) :
    (canonCover s c plan).RM = s.RM := by
  show ((planCells plan).foldl spliceOut (headerSplice s c)).RM = _
  rw [foldl_spliceOut_RM, headerSplice_RM]

theorem canonCover_R_cell (Hn : Nat) (s : DlxData) (c : Nat)
    (plan : List (Nat × List Nat)) (hok : coverOK Hn s c plan)
    (x : Nat) (hx : Hn ≤ x) :
    aget (canonCover s c plan).R x = aget s.R x := by
  obtain ⟨_, _, _, _, _, _, _, hRcne, _, hLcH, _, _, _, _, _, _, _, _, _, _, _⟩ := hok
  show aget ((planCells plan).foldl spliceOut (headerSplice s c)).R x = _
  rw [foldl_spliceOut_R, headerSplice_R s c hRcne]
  exact aget_aset_ne _ (by omega)

theorem canonCover_L_cell (Hn : Nat) (s : DlxData) (c : Nat)
    (plan : List (Nat × List Nat)) (hok : coverOK Hn s c plan)
    (x : Nat) (hx : Hn ≤ x) :
    aget (canonCover s c plan).L x = aget s.L x := by
  obtain ⟨_, _, _, _, _, _, _, _, _, _, hRcH, _, _, _, _, _, _, _, _, _, _⟩ := hok
  show aget ((planCells plan).foldl spliceOut (headerSplice s c)).L x = _
  rw [foldl_spliceOut_L, headerSplice_L]
  exact aget_aset_ne _ (by omega)

theorem coverStack_cell_arrays (Hn : Nat) : ∀ (cells : List Nat) (s s1 : DlxData),
    CoverStack Hn cells s s1 →
    s1.C = s.C ∧ s1.RM = s.RM ∧
    (∀ x, Hn ≤ x → aget s1.R x = aget s.R x ∧ aget s1.L x = aget s.L x) := by
  intro cells
  induction cells with
  | nil =>
      intro s s1 hst
      rw [show s1 = s from hst]
      exact ⟨rfl, rfl, fun x _ => ⟨rfl, rfl⟩⟩
  | cons k rest ih =>
      intro s s1 hst
      obtain ⟨plan, hok, hst2⟩ := hst
      obtain ⟨hC, hRM, hRL⟩ := ih _ s1 hst2
      refine ⟨by rw [hC, canonCover_C], by rw [hRM, canonCover_RM], ?_⟩
      intro x hx
      constructor
      · rw [(hRL x hx).1, canonCover_R_cell Hn s _ plan hok x hx]
      · rw [(hRL x hx).2, canonCover_L_cell Hn s _ plan hok x hx]

/-- Dropping the (unique) entry of a present key from an association list
removes exactly one element. -/
theorem filter_ne_length {α : Type} (c : Nat) : ∀ (l : List (Nat × α)),
    c ∈ l.map Prod.fst → (l.map Prod.fst).Nodup →
    (l.filter (fun ce => ¬ ce.1 = c)).length + 1 = l.length := by
  intro l
  induction l with
  | nil => intro hmem _; simp at hmem
  | cons ce l ih =>
      intro hmem hnd
      rw [List.map_cons] at hmem hnd
      obtain ⟨hhd, htl⟩ := List.nodup_cons.mp hnd
      by_cases hc : ce.1 = c
      · have hkeep : l.filter (fun ce => ¬ ce.1 = c) = l := by
          refine List.filter_eq_self.mpr ?_
          intro a ha
          have hane : a.1 ≠ c := by
            intro h
            exact hhd (by rw [hc, ← h]; exact List.mem_map.mpr ⟨a, ha, rfl⟩)
          simpa using hane
        rw [List.filter_cons, if_neg (by simp [hc]), hkeep]
        simp
      · have hmem2 : c ∈ l.map Prod.fst := by
          rcases List.mem_cons.mp hmem with h | h
          · exact absurd h.symm hc
          · exact h
        rw [List.filter_cons, if_pos (by simpa using hc)]
        rw [List.length_cons, List.length_cons]
        rw [← ih hmem2 htl]

/-- A cover removes exactly the chosen column from the active-column data. -/
theorem gsAfterCover_length (cols : List (Nat × List (Nat × List Nat)))
    (c0 : Nat) (rm : List Nat) (hmem : c0 ∈ cols.map Prod.fst)
    (hnd : (cols.map Prod.fst).Nodup) :
    (gsAfterCover cols c0 rm).length + 1 = cols.length := by
  show ((colsErase cols c0).map
    (fun ce => (ce.1, ce.2.filter (fun p => ¬ p.1 ∈ rm)))).length + 1 = cols.length
  rw [List.length_map]
  exact filter_ne_length c0 cols hmem hnd

/-- A duplicate-free list of naturals below `nc` has at most `nc` elements. -/
theorem nodup_lt_length_le (nc : Nat) (A : List Nat) (hnd : A.Nodup)
    (hlt : ∀ x ∈ A, x < nc) : A.length ≤ nc := by
  have hsub : A.toFinset ⊆ Finset.range nc := by
    intro x hx
    rw [Finset.mem_range]
    exact hlt x (List.mem_toFinset.mp hx)
  have hcard := Finset.card_le_card hsub
  rw [Finset.card_range] at hcard
  rw [← List.toFinset_card_of_nodup hnd]
  exact hcard

/-- A `GS` state has at most `nc` active columns: the ring members are distinct
column indices below the root `nc`. -/
theorem GS_cols_length_le (nc : Nat) (s : DlxData)
    (cols : List (Nat × List (Nat × List Nat))) (hGS : GS nc s cols) :
    cols.length ≤ nc := by
  obtain ⟨_, _, _, _, _, _, _, _, _, hndH, hmemf, _, _⟩ := hGS
  have h1 : (cols.map Prod.fst).Nodup := (List.nodup_cons.mp hndH).2
  have h2 := nodup_lt_length_le nc (cols.map Prod.fst) h1
    (fun x hx => (hmemf x hx).1)
  rw [List.length_map] at h2
  exact h2

/-- The `coverCols` loop of `find_solution` on a `GS` state: it performs the
canonical covers of the columns of the walked cells (a `CoverStack`) and lands
on a `GS` state again, with one active column gone per walked cell. -/
theorem cchain (nc : Nat) : ∀ (cells : List Nat) (s : DlxData)
    (cols : List (Nat × List (Nat × List Nat))) (i j fuelC : Nat) (s1 : DlxData),
    GS nc s cols →
    walkTo s.R i j (cells.length + 1) = some cells →
    (∀ x ∈ cells, aget s.C x ∈ cols.map Prod.fst ∧ nc + 1 ≤ x) →
    (cells.map (aget s.C)).Nodup →
    coverCols fuelC s i j = some s1 →
    (∃ cols1, GS nc s1 cols1 ∧ cols1.length + cells.length = cols.length) ∧
      CoverStack (nc + 1) cells s s1 := by
  intro cells
  induction cells with
  | nil =>
      intro s cols i j fuelC s1 hGS hw _ _ hrun
      have hji : j = i := (walkTo_seg _ _ _ _ _ hw).1
      match fuelC, hrun with
      | f + 1, hrun =>
          rw [hji] at hrun
          simp only [coverCols, if_pos rfl] at hrun
          have hs1 : s = s1 := by
            simpa using hrun
          rw [← hs1]
          exact ⟨⟨cols, hGS, rfl⟩, rfl⟩
  | cons k rest ih =>
      intro s cols i j fuelC s1 hGS hw hfacts hndC hrun
      obtain ⟨hseg, hnot⟩ := walkTo_seg _ _ _ _ _ hw
      obtain ⟨hjk, hseg2⟩ := hseg
      subst hjk
      have hkne : j ≠ i := hnot j (by simp)
      rw [List.map_cons] at hndC
      obtain ⟨hCk, hkH⟩ := hfacts j (by simp)
      obtain ⟨ce, hcem, hfstc⟩ := List.mem_map.mp hCk
      have hce : (aget s.C j, ce.2) ∈ cols := by
        rw [← hfstc, Prod.mk.eta]
        exact hcem
      have hok := GS_coverOK nc s cols hGS (aget s.C j) ce.2 hce
      match fuelC, hrun with
      | f + 1, hrun =>
          simp only [coverCols, if_neg hkne] at hrun
          match hcov : coverColumn (f + 1) s (aget s.C j), hrun with
          | some s2, hrun =>
              have hrun2 : coverCols f s2 i (aget s2.R j) = some s1 := hrun
              have hs2 : s2 = canonCover s (aget s.C j) ce.2 :=
                coverColumn_succ_value (nc + 1) s _ ce.2 (f + 1) s2 hok hcov
              subst hs2
              have hGS2 := GS_cover nc s cols hGS (aget s.C j) ce.2 hce
              have hRj : aget (canonCover s (aget s.C j) ce.2).R j = aget s.R j :=
                canonCover_R_cell (nc + 1) s _ ce.2 hok j hkH
              have hw2 : walkTo (canonCover s (aget s.C j) ce.2).R i
                  (aget (canonCover s (aget s.C j) ce.2).R j) (rest.length + 1) =
                  some rest := by
                rw [hRj]
                refine seg_walkTo _ _ _ _ _ ?_
                  (fun y hy => hnot y (by simp [hy])) (Nat.lt_succ_self _)
                refine seg_congr s.R _ _ _ _ hseg2 ?_
                intro x hx
                exact canonCover_R_cell (nc + 1) s _ ce.2 hok x
                  (hfacts x (by simp [hx])).2
              have hfacts2 : ∀ x ∈ rest,
                  aget (canonCover s (aget s.C j) ce.2).C x ∈
                    (gsAfterCover cols (aget s.C j) (planCells ce.2)).map Prod.fst ∧
                  nc + 1 ≤ x := by
                intro x hx
                obtain ⟨hCx, hxH⟩ := hfacts x (by simp [hx])
                have hCne : aget s.C x ≠ aget s.C j := by
                  intro h
                  have hnin := (List.nodup_cons.mp hndC).1
                  exact hnin (h ▸ List.mem_map.mpr ⟨x, hx, rfl⟩)
                refine ⟨?_, hxH⟩
                rw [canonCover_C]
                have hmapf : (gsAfterCover cols (aget s.C j) (planCells ce.2)).map
                    Prod.fst = (cols.map Prod.fst).erase (aget s.C j) := by
                  show (plansFilter (colsErase cols (aget s.C j))
                    (planCells ce.2)).map Prod.fst = _
                  rw [plansFilter_map_fst]
                  refine colsErase_map_fst _ _ ?_
                  obtain ⟨_, _, _, _, _, _, _, _, _, hndH, _, _, _⟩ := hGS
                  exact (List.nodup_cons.mp hndH).2
                rw [hmapf]
                exact (List.mem_erase_of_ne hCne).mpr hCx
              have hndC2 : (rest.map
                  (aget (canonCover s (aget s.C j) ce.2).C)).Nodup := by
                rw [canonCover_C]
                exact (List.nodup_cons.mp hndC).2
              obtain ⟨⟨cols1, hGS1, hlen1⟩, hstack⟩ := ih (canonCover s (aget s.C j) ce.2)
                (gsAfterCover cols (aget s.C j) (planCells ce.2)) i
                (aget (canonCover s (aget s.C j) ce.2).R j) f s1 hGS2 hw2
                hfacts2 hndC2 hrun2
              have hndf : (cols.map Prod.fst).Nodup := by
                obtain ⟨_, _, _, _, _, _, _, _, _, hndH, _, _, _⟩ := hGS
                exact (List.nodup_cons.mp hndH).2
              have hglen := gsAfterCover_length cols (aget s.C j)
                (planCells ce.2) hCk hndf
              refine ⟨⟨cols1, hGS1, ?_⟩, ce.2, hok, hstack⟩
              rw [List.length_cons]
              omega

/-- The `uncoverCols` loop of `find_solution` unwinds a cover stack: running it
on the fully covered state from the last covered cell is the same as running it
on the original state from the link that precedes the first covered cell. -/
theorem uchain (Hn : Nat) : ∀ (cells : List Nat) (s s1 : DlxData)
    (i jstart jend fuelU : Nat) (r : DlxData),
    CoverStack Hn cells s s1 →
    Seg s.L jstart cells.reverse jend →
    (∀ x ∈ cells, x ≠ i ∧ Hn ≤ x) →
    uncoverCols fuelU s1 i jstart = some r →
    ∃ fuelU2, uncoverCols fuelU2 s i jend = some r := by
  intro cells
  induction cells with
  | nil =>
      intro s s1 i jstart jend fuelU r hst hseg _ hrun
      have hse : jstart = jend := hseg
      have hs1 : s1 = s := hst
      rw [← hse, ← hs1]
      exact ⟨fuelU, hrun⟩
  | cons k rest ih =>
      intro s s1 i jstart jend fuelU r hst hseg hfacts hrun
      obtain ⟨plan, hok, hst2⟩ := hst
      have hrevc : (k :: rest).reverse = rest.reverse ++ [k] := by simp
      rw [hrevc] at hseg
      obtain ⟨m, hsegA, hsegB⟩ := seg_append_inv s.L rest.reverse [k] _ _ hseg
      obtain ⟨hmk, hsegC⟩ := hsegB
      rw [hmk] at hsegA
      have hjend : aget s.L k = jend := hsegC
      have hsegA2 : Seg (canonCover s (aget s.C k) plan).L jstart rest.reverse k := by
        refine seg_congr s.L _ _ _ _ hsegA ?_
        intro x hx
        exact canonCover_L_cell Hn s _ plan hok x
          (hfacts x (by simp [List.mem_reverse.mp hx])).2
      obtain ⟨f2, hrun2⟩ := ih (canonCover s (aget s.C k) plan) s1 i jstart k fuelU r
        hst2 hsegA2 (fun x hx => hfacts x (by simp [hx])) hrun
      obtain ⟨hkne, hkH⟩ := hfacts k (by simp)
      match f2, hrun2 with
      | f3 + 1, hrun2 =>
          simp only [uncoverCols, if_neg hkne] at hrun2
          have hCke : aget (canonCover s (aget s.C k) plan).C k = aget s.C k := by
            rw [canonCover_C]
          rw [hCke] at hrun2
          match huncov : uncoverColumn (f3 + 1)
              (canonCover s (aget s.C k) plan) (aget s.C k), hrun2 with
          | some t2, hrun2 =>
              have hrun3 : uncoverCols f3 t2 i (aget t2.L k) = some r := hrun2
              have ht2 : t2 = s :=
                uncoverColumn_restore_value Hn s _ plan (f3 + 1) t2 hok huncov
              subst ht2
              rw [hjend] at hrun3
              exact ⟨f3, hrun3⟩

/-- After the canonical cover of `c`, the down-walk from `c` still enumerates
the plan's candidate rows (the covered column's own vertical ring is never
touched by its cover). -/
theorem canonCover_colwalk (Hn : Nat) (s : DlxData) (c : Nat)
    (plan : List (Nat × List Nat)) (hok : coverOK Hn s c plan) :
    walkTo (canonCover s c plan).D c (aget (canonCover s c plan).D c)
      (plan.length + 1) = some (plan.map Prod.fst) := by
  obtain ⟨hcoh, hlb, hlenU, hlenD, hSb, hCc, hcH, hRcne, hLcne, hLcH, hRcH,
    hRLc, hLRc, hwalkD, hwalkR, hrowinfo, hcellinfo, hnodup, hlinked, hlinkD, hlinkR⟩ := hok
  have hinv0 : spliceInv c (headerSplice s c) (headerSplice s c) := by
    apply spliceInv_refl
    · exact hcoh
    · exact hlb
    · exact hlenU
    · exact hlenD
  have hinv1 : spliceInv c (headerSplice s c)
      ((planCells plan).foldl spliceOut (headerSplice s c)) := by
    apply spliceInv_foldOut c (headerSplice s c) (planCells plan)
      (headerSplice s c) hinv0
    intro j hj
    exact ⟨(hcellinfo j hj).1, (hcellinfo j hj).2.1⟩
  obtain ⟨_, _, _, _, _, _, _, _, _, _, _, icol, _⟩ := hinv1
  have hDc : aget (canonCover s c plan).D c = aget s.D c := (icol c hCc).2
  show walkTo ((planCells plan).foldl spliceOut (headerSplice s c)).D c
    (aget (canonCover s c plan).D c) (plan.length + 1) = some (plan.map Prod.fst)
  rw [hDc]
  apply walkTo_congr s.D _ _ _ _ _ hwalkD
  intro x hx
  obtain ⟨px, hpx, hpx1⟩ := List.mem_map.mp hx
  have hxc : aget s.C x = c := by rw [← hpx1]; exact (hrowinfo px hpx).1
  exact (icol x hxc).2

/-- Failure-case restoration of the search, both modes at once, by induction on
the fuel: if `find_solution` (mode `false`) returns a no-solution triple from a
`GS` state, the arena is exactly the state at entry; and if the candidate-row
loop (mode `true`) returns a no-solution triple from the canonically covered
state of its chosen column, the arena is exactly that covered state. -/
theorem searchGo_none_restores (nc : Nat) : ∀ fuel : Nat,
    (∀ (s : DlxData) (cols : List (Nat × List (Nat × List Nat)))
        (sol : List Bool) (r : Option (List Bool)) (s' : DlxData) (sol' : List Bool),
      GS nc s cols →
      searchGo fuel false nc 0 s sol 0 = some (r, s', sol') →
      r = none → s' = s) ∧
    (∀ (s0 : DlxData) (cols : List (Nat × List (Nat × List Nat))) (m : Nat)
        (plan0 : List (Nat × List Nat)) (sol : List Bool) (i : Nat)
        (rest : List Nat) (r : Option (List Bool)) (s' : DlxData) (sol' : List Bool),
      GS nc s0 cols →
      (m, plan0) ∈ cols →
      walkTo (canonCover s0 m plan0).D m i (rest.length + 1) = some rest →
      (∀ x ∈ rest, x ∈ plan0.map Prod.fst) →
      searchGo fuel true nc m (canonCover s0 m plan0) sol i = some (r, s', sol') →
      r = none → s' = canonCover s0 m plan0) := by
  intro fuel
  induction fuel with
  | zero =>
      constructor
      · intro s cols sol r s' sol' _ hrun
        exact absurd hrun (by simp [searchGo])
      · intro s0 cols m plan0 sol i rest r s' sol' _ _ _ _ hrun
        exact absurd hrun (by simp [searchGo])
  | succ f ihf =>
      obtain ⟨ihA, ihB⟩ := ihf
      constructor
      · -- mode false: find_solution body
        intro s cols sol r s' sol' hGS hrun hr
        have hGS2 := hGS
        obtain ⟨_, _, _, _, _, _, _, _, hwalkH, hndH, _, _, _⟩ := hGS
        simp only [searchGo] at hrun
        by_cases hroot : aget s.R nc = nc
        · rw [if_pos hroot] at hrun
          simp only [Option.some.injEq, Prod.mk.injEq] at hrun
          rw [hr] at hrun
          exact absurd hrun.1 (by simp)
        · rw [if_neg hroot] at hrun
          cases hcl : chooseLoop (f + 1) s nc (aget s.R (aget s.R nc)) (aget s.R nc) with
          | none => simp [hcl] at hrun
          | some mv =>
            simp only [hcl] at hrun
            by_cases hmz : mv = nc ∨ aget s.S mv = 0
            · rw [if_pos hmz] at hrun
              simp only [Option.some.injEq, Prod.mk.injEq] at hrun
              exact hrun.2.1.symm
            · rw [if_neg hmz] at hrun
              -- the chosen column is an active ring member
              have hmmem : mv ∈ cols.map Prod.fst := by
                match hA : cols.map Prod.fst, hwalkH with
                | [], hwalkH =>
                    exact absurd (walkTo_seg _ _ _ _ _ hwalkH).1 hroot
                | m0 :: T, hwalkH =>
                    have hlenA : cols.length + 1 = (m0 :: T).length + 1 := by
                      rw [← hA, List.length_map]
                    rw [hlenA] at hwalkH
                    obtain ⟨hsegA, hnotA⟩ := walkTo_seg _ _ _ _ _ hwalkH
                    obtain ⟨hm0, hsegT⟩ := hsegA
                    have hwT : walkTo s.R nc (aget s.R m0) (T.length + 1) = some T :=
                      seg_walkTo _ _ _ _ _ hsegT
                        (fun y hy => hnotA y (by simp [hy])) (Nat.lt_succ_self _)
                    have hwT2 : walkTo s.R nc (aget s.R (aget s.R nc))
                        (T.length + 1) = some T := by
                      rw [hm0]
                      exact hwT
                    have hmval : mv = T.foldl (pickMin s) (aget s.R nc) :=
                      chooseLoop_succ s nc T (T.length + 1)
                        (aget s.R (aget s.R nc)) (aget s.R nc) mv (f + 1) hwT2 hcl
                    rw [hmval, hm0]
                    exact foldl_pickMin_mem s T m0
              obtain ⟨ce, hcem, hfstc⟩ := List.mem_map.mp hmmem
              have hce : (mv, ce.2) ∈ cols := by
                rw [← hfstc, Prod.mk.eta]
                exact hcem
              have hok := GS_coverOK nc s cols hGS2 mv ce.2 hce
              cases hcov : coverColumn (f + 1) s mv with
              | none => simp [hcov] at hrun
              | some s2 =>
                simp only [hcov] at hrun
                have hs2 : s2 = canonCover s mv ce.2 :=
                  coverColumn_succ_value (nc + 1) s mv ce.2 (f + 1) s2 hok hcov
                subst hs2
                cases hrec : searchGo f true nc mv (canonCover s mv ce.2) sol
                    (aget (canonCover s mv ce.2).D mv) with
                | none => simp [hrec] at hrun
                | some trip =>
                  obtain ⟨ob, s3, sol3⟩ := trip
                  cases ob with
                  | some v =>
                      simp only [hrec] at hrun
                      simp only [Option.some.injEq, Prod.mk.injEq] at hrun
                      rw [hr] at hrun
                      exact absurd hrun.1 (by simp)
                  | none =>
                      simp only [hrec] at hrun
                      have hs3 : s3 = canonCover s mv ce.2 :=
                        ihB s cols mv ce.2 sol
                          (aget (canonCover s mv ce.2).D mv)
                          (ce.2.map Prod.fst) none s3 sol3 hGS2 hce
                          (by rw [show (ce.2.map Prod.fst).length = ce.2.length
                                from by simp]
                              exact canonCover_colwalk (nc + 1) s mv ce.2 hok)
                          (fun x hx => hx) hrec rfl
                      cases huncov : uncoverColumn (f + 1) s3 mv with
                      | none => simp [huncov] at hrun
                      | some s4 =>
                        simp only [huncov] at hrun
                        have hs4 : s4 = s := by
                          refine uncoverColumn_restore_value (nc + 1) s mv
                            ce.2 (f + 1) s4 hok ?_
                          rw [← hs3]
                          exact huncov
                        simp only [Option.some.injEq, Prod.mk.injEq] at hrun
                        rw [← hrun.2.1, hs4]
      · -- mode true: the candidate-row loop on the covered state
        intro s0 cols m plan0 sol i rest r s' sol' hGS hce hwalkI hsub hrun hr
        have hGS2 := hGS
        have hok0 := GS_coverOK nc s0 cols hGS m plan0 hce
        simp only [searchGo] at hrun
        by_cases him : i = m
        · rw [if_pos him] at hrun
          simp only [Option.some.injEq, Prod.mk.injEq] at hrun
          exact hrun.2.1.symm
        · rw [if_neg him] at hrun
          obtain ⟨hsegI, hnotI⟩ := walkTo_seg _ _ _ _ _ hwalkI
          match rest, hsegI, hnotI, hsub with
          | [], hsegI, _, _ => exact absurd hsegI him
          | i2 :: rest2, hsegI, hnotI, hsub =>
            obtain ⟨hii, hsegR2⟩ := hsegI
            subst hii
            have himem : i ∈ plan0.map Prod.fst := hsub i (by simp)
            obtain ⟨p, hp, hpfst⟩ := List.mem_map.mp himem
            obtain ⟨hcohG, hlbG, hUCg, hDCg, hLCg, hRCg, hSbG, hHlenG, hwalkHG,
              hndHG, hcolfG, hLg, hcolsG⟩ := hGS
            obtain ⟨hwalk0, hndc0, hlink0, hpf0, hwalkR0, hrownd0, hrowCnd0,
              hlinkR0, hcell0, hpcnd0, hsib0⟩ := hcolsG (m, plan0) hce
            have hp1H : nc + 1 ≤ p.1 := (hpf0 p hp).2.1
            have hRi : aget (canonCover s0 m plan0).R i = aget s0.R i := by
              rw [← hpfst]
              exact canonCover_R_cell (nc + 1) s0 m plan0 hok0 p.1 hp1H
            have hwrow0 : walkTo s0.R p.1 (aget s0.R p.1) (p.2.length + 1) =
                some p.2 := hwalkR0 p hp
            have hwrow2 : walkTo (canonCover s0 m plan0).R i
                (aget (canonCover s0 m plan0).R i) (p.2.length + 1) = some p.2 := by
              rw [hRi, ← hpfst]
              refine walkTo_congr s0.R _ _ _ _ _ hwrow0 ?_
              intro x hx
              exact canonCover_R_cell (nc + 1) s0 m plan0 hok0 x
                (hcell0 p hp x hx).1
            have hGScov := GS_cover nc s0 cols hGS2 m plan0 hce
            have hmapfc : (gsAfterCover cols m (planCells plan0)).map Prod.fst =
                (cols.map Prod.fst).erase m := by
              show (plansFilter (colsErase cols m) (planCells plan0)).map
                Prod.fst = _
              rw [plansFilter_map_fst]
              exact colsErase_map_fst _ _ (List.nodup_cons.mp hndHG).2
            have hchainfacts : ∀ x ∈ p.2,
                aget (canonCover s0 m plan0).C x ∈
                  (gsAfterCover cols m (planCells plan0)).map Prod.fst ∧
                nc + 1 ≤ x := by
              intro x hx
              obtain ⟨hxH, _, hxne, _⟩ := hcell0 p hp x hx
              obtain ⟨hCmem, _⟩ := hsib0 p hp x hx
              rw [canonCover_C, hmapfc]
              exact ⟨(List.mem_erase_of_ne hxne).mpr hCmem, hxH⟩
            have hndC2 : (p.2.map (aget (canonCover s0 m plan0).C)).Nodup := by
              rw [canonCover_C]
              exact hrowCnd0 p hp
            cases hcc : coverCols (f + 1) (canonCover s0 m plan0) i
                (aget (canonCover s0 m plan0).R i) with
            | none => simp [hcc] at hrun
            | some s1 =>
              simp only [hcc] at hrun
              obtain ⟨⟨cols1, hGS1, _⟩, hstack⟩ := cchain nc p.2
                (canonCover s0 m plan0)
                (gsAfterCover cols m (planCells plan0)) i
                (aget (canonCover s0 m plan0).R i) (f + 1) s1 hGScov hwrow2
                hchainfacts hndC2 hcc
              cases hrec : searchGo f false nc 0 s1
                  (sol.set (aget (canonCover s0 m plan0).RM i) true) 0 with
              | none => simp [hrec] at hrun
              | some trip =>
                obtain ⟨ob, s2, sol2⟩ := trip
                cases ob with
                | some v =>
                    simp only [hrec] at hrun
                    simp only [Option.some.injEq, Prod.mk.injEq] at hrun
                    rw [hr] at hrun
                    exact absurd hrun.1 (by simp)
                | none =>
                    simp only [hrec] at hrun
                    have hs2 : s2 = s1 := ihA s1 cols1
                      (sol.set (aget (canonCover s0 m plan0).RM i) true)
                      none s2 sol2 hGS1 hrec rfl
                    cases huncv : uncoverCols (f + 1) s2 i (aget s2.L i) with
                    | none => simp [huncv] at hrun
                    | some s3 =>
                      simp only [huncv] at hrun
                      have hiH : nc + 1 ≤ i := hpfst ▸ hp1H
                      have hLtrans := (coverStack_cell_arrays (nc + 1) p.2
                        (canonCover s0 m plan0) s1 hstack).2.2 i hiH
                      have hs2L : aget s2.L i =
                          aget (canonCover s0 m plan0).L i := by
                        rw [hs2]
                        exact hLtrans.2
                      obtain ⟨hsegRow, hnotRow⟩ := walkTo_seg _ _ _ _ _ hwrow0
                      have hsegLrow : Seg s0.L (aget s0.L p.1) p.2.reverse p.1 :=
                        seg_rev s0.R s0.L p.2 p.1 p.1 hsegRow (hlinkR0 p hp)
                      have hLi : aget (canonCover s0 m plan0).L i =
                          aget s0.L i := by
                        rw [← hpfst]
                        exact canonCover_L_cell (nc + 1) s0 m plan0 hok0 p.1 hp1H
                      have hsegL2 : Seg (canonCover s0 m plan0).L
                          (aget (canonCover s0 m plan0).L i) p.2.reverse i := by
                        rw [hLi, ← hpfst]
                        refine seg_congr s0.L _ _ _ _ hsegLrow ?_
                        intro x hx
                        exact canonCover_L_cell (nc + 1) s0 m plan0 hok0 x
                          (hcell0 p hp x (List.mem_reverse.mp hx)).1
                      have hrowfacts : ∀ x ∈ p.2, x ≠ i ∧ nc + 1 ≤ x := by
                        intro x hx
                        refine ⟨?_, (hcell0 p hp x hx).1⟩
                        intro h
                        subst h
                        rw [← hpfst] at hx
                        exact (List.nodup_cons.mp (hrownd0 p hp)).1 hx
                      have huncv2 : uncoverCols (f + 1) s1 i
                          (aget (canonCover s0 m plan0).L i) = some s3 := by
                        rw [← hs2L, ← hs2]
                        exact huncv
                      obtain ⟨f2, hrun2⟩ := uchain (nc + 1) p.2
                        (canonCover s0 m plan0) s1 i
                        (aget (canonCover s0 m plan0).L i) i (f + 1) s3
                        hstack hsegL2 hrowfacts huncv2
                      have hs3 : s3 = canonCover s0 m plan0 := by
                        match f2, hrun2 with
                        | f3 + 1, hrun2 =>
                            simp [uncoverCols] at hrun2
                            exact hrun2.symm
                      subst hs3
                      have hwrest : walkTo (canonCover s0 m plan0).D m
                          (aget (canonCover s0 m plan0).D i)
                          (rest2.length + 1) = some rest2 := by
                        refine seg_walkTo _ _ _ _ _ hsegR2 ?_ (Nat.lt_succ_self _)
                        intro y hy
                        exact hnotI y (by simp [hy])
                      exact ihB s0 cols m plan0 (sol2.set (aget s2.RM i) false)
                        (aget (canonCover s0 m plan0).D i)
                        rest2 r s' sol' hGS2 hce hwrest
                        (fun x hx => hsub x (by simp [hx])) hrun hr

/-!
Fuel monotonicity: every fuelled loop that returns a value returns the same
value at any larger fuel.  Used to combine the fuel requirements of the
sub-computations in the termination proof.
-/

theorem option_mono_le {α : Type} (g : Nat → Option α)
    (hmono : ∀ f x, g f = some x → g (f + 1) = some x)
    {f f2 : Nat} {x : α} (hle : f ≤ f2) (h : g f = some x) : g f2 = some x := by
  induction hle with
  | refl => exact h
  | step _ ih => exact hmono _ _ ih

theorem coverInner_mono (i : Nat) : ∀ (f : Nat) (s : DlxData) (j : Nat) (r : DlxData),
    coverInner f s i j = some r → coverInner (f + 1) s i j = some r := by
  intro f
  induction f with
  | zero => intro s j r h; exact absurd h (by simp [coverInner])
  | succ f ih =>
      intro s j r h
      simp only [coverInner] at h ⊢
      by_cases hji : j = i
      · rw [if_pos hji] at h ⊢; exact h
      · rw [if_neg hji] at h ⊢
        exact ih _ _ _ h

theorem uncoverInner_mono (i : Nat) : ∀ (f : Nat) (s : DlxData) (j : Nat) (r : DlxData),
    uncoverInner f s i j = some r → uncoverInner (f + 1) s i j = some r := by
  intro f
  induction f with
  | zero => intro s j r h; exact absurd h (by simp [uncoverInner])
  | succ f ih =>
      intro s j r h
      simp only [uncoverInner] at h ⊢
      by_cases hji : j = i
      · rw [if_pos hji] at h ⊢; exact h
      · rw [if_neg hji] at h ⊢
        exact ih _ _ _ h

theorem chooseLoop_mono (header : Nat) : ∀ (f : Nat) (s : DlxData) (i m r : Nat),
    chooseLoop f s header i m = some r → chooseLoop (f + 1) s header i m = some r := by
  intro f
  induction f with
  | zero => intro s i m r h; exact absurd h (by simp [chooseLoop])
  | succ f ih =>
      intro s i m r h
      simp only [chooseLoop] at h ⊢
      by_cases hih : i = header
      · rw [if_pos hih] at h ⊢; exact h
      · rw [if_neg hih] at h ⊢
        exact ih _ _ _ _ h

theorem coverOuter_mono (c : Nat) : ∀ (f : Nat) (s : DlxData) (i : Nat) (r : DlxData),
    coverOuter f s c i = some r → coverOuter (f + 1) s c i = some r := by
  intro f
  induction f with
  | zero => intro s i r h; exact absurd h (by simp [coverOuter])
  | succ f ih =>
      intro s i r h
      simp only [coverOuter] at h ⊢
      by_cases hic : i = c
      · rw [if_pos hic] at h ⊢; exact h
      · rw [if_neg hic] at h ⊢
        cases hin : coverInner (f + 1) s i (aget s.R i) with
        | none => simp [hin] at h
        | some s2 =>
            simp only [hin] at h
            simp only [coverInner_mono i (f + 1) s _ s2 hin]
            exact ih _ _ _ h

theorem uncoverOuter_mono (c : Nat) : ∀ (f : Nat) (s : DlxData) (i : Nat) (r : DlxData),
    uncoverOuter f s c i = some r → uncoverOuter (f + 1) s c i = some r := by
  intro f
  induction f with
  | zero => intro s i r h; exact absurd h (by simp [uncoverOuter])
  | succ f ih =>
      intro s i r h
      simp only [uncoverOuter] at h ⊢
      by_cases hic : i = c
      · rw [if_pos hic] at h ⊢; exact h
      · rw [if_neg hic] at h ⊢
        cases hin : uncoverInner (f + 1) s i (aget s.L i) with
        | none => simp [hin] at h
        | some s2 =>
            simp only [hin] at h
            simp only [uncoverInner_mono i (f + 1) s _ s2 hin]
            exact ih _ _ _ h

theorem coverColumn_mono (s : DlxData) (c : Nat) (f : Nat) (r : DlxData)
    (h : coverColumn f s c = some r) : coverColumn (f + 1) s c = some r :=
  coverOuter_mono c f (headerSplice s c) _ r h

theorem uncoverColumn_mono (s : DlxData) (c : Nat) (f : Nat) (r : DlxData)
    (h : uncoverColumn f s c = some r) : uncoverColumn (f + 1) s c = some r := by
  unfold uncoverColumn at h ⊢
  cases hout : uncoverOuter f s c (aget s.U c) with
  | none => simp [hout] at h
  | some s1 =>
      simp only [hout] at h
      simp only [uncoverOuter_mono c f s _ s1 hout]
      exact h

theorem coverCols_mono : ∀ (f : Nat) (s : DlxData) (i j : Nat) (r : DlxData),
    coverCols f s i j = some r → coverCols (f + 1) s i j = some r := by
  intro f
  induction f with
  | zero => intro s i j r h; exact absurd h (by simp [coverCols])
  | succ f ih =>
      intro s i j r h
      simp only [coverCols] at h ⊢
      by_cases hji : j = i
      · rw [if_pos hji] at h ⊢; exact h
      · rw [if_neg hji] at h ⊢
        cases hcov : coverColumn (f + 1) s (aget s.C j) with
        | none => simp [hcov] at h
        | some s2 =>
            simp only [hcov] at h
            simp only [coverColumn_mono s _ (f + 1) s2 hcov]
            exact ih _ _ _ _ h

theorem uncoverCols_mono : ∀ (f : Nat) (s : DlxData) (i j : Nat) (r : DlxData),
    uncoverCols f s i j = some r → uncoverCols (f + 1) s i j = some r := by
  intro f
  induction f with
  | zero => intro s i j r h; exact absurd h (by simp [uncoverCols])
  | succ f ih =>
      intro s i j r h
      simp only [uncoverCols] at h ⊢
      by_cases hji : j = i
      · rw [if_pos hji] at h ⊢; exact h
      · rw [if_neg hji] at h ⊢
        cases hcov : uncoverColumn (f + 1) s (aget s.C j) with
        | none => simp [hcov] at h
        | some s2 =>
            simp only [hcov] at h
            simp only [uncoverColumn_mono s _ (f + 1) s2 hcov]
            exact ih _ _ _ _ h

theorem searchGo_mono (header : Nat) : ∀ (f : Nat) (b : Bool) (m : Nat) (s : DlxData)
    (sol : List Bool) (i : Nat) (x : Option (List Bool) × DlxData × List Bool),
    searchGo f b header m s sol i = some x →
    searchGo (f + 1) b header m s sol i = some x := by
  intro f
  induction f with
  | zero =>
      intro b m s sol i x h
      exact absurd h (by simp [searchGo])
  | succ f ih =>
      intro b m s sol i x h
      cases b with
      | false =>
          rw [searchGo] at h
          rw [searchGo]
          by_cases hroot : aget s.R header = header
          · rw [if_pos hroot] at h ⊢; exact h
          · rw [if_neg hroot] at h ⊢
            cases hcl : chooseLoop (f + 1) s header (aget s.R (aget s.R header))
                (aget s.R header) with
            | none => simp [hcl] at h
            | some mv =>
                simp only [hcl] at h
                simp only [chooseLoop_mono header (f + 1) s _ _ mv hcl]
                by_cases hmz : mv = header ∨ aget s.S mv = 0
                · rw [if_pos hmz] at h ⊢; exact h
                · rw [if_neg hmz] at h ⊢
                  cases hcov : coverColumn (f + 1) s mv with
                  | none => simp [hcov] at h
                  | some s2 =>
                      simp only [hcov] at h
                      simp only [coverColumn_mono s mv (f + 1) s2 hcov]
                      cases hrec : searchGo f true header mv s2 sol (aget s2.D mv) with
                      | none => simp [hrec] at h
                      | some trip =>
                          simp only [hrec] at h
                          simp only [ih true mv s2 sol (aget s2.D mv) trip hrec]
                          obtain ⟨ob, s3, sol3⟩ := trip
                          cases ob with
                          | some v => exact h
                          | none =>
                              cases huncov : uncoverColumn (f + 1) s3 mv with
                              | none => simp [huncov] at h
                              | some s4 =>
                                  simp only [huncov] at h
                                  simp only [uncoverColumn_mono s3 mv (f + 1) s4 huncov]
                                  exact h
      | true =>
          rw [searchGo] at h
          rw [searchGo]
          by_cases him : i = m
          · rw [if_pos him] at h ⊢; exact h
          · rw [if_neg him] at h ⊢
            cases hcc : coverCols (f + 1) s i (aget s.R i) with
            | none => simp [hcc] at h
            | some s1 =>
                simp only [hcc] at h
                simp only [coverCols_mono (f + 1) s i _ s1 hcc]
                cases hrec : searchGo f false header 0 s1
                    (sol.set (aget s.RM i) true) 0 with
                | none => simp [hrec] at h
                | some trip =>
                    simp only [hrec] at h
                    simp only [ih false 0 s1 (sol.set (aget s.RM i) true) 0 trip hrec]
                    obtain ⟨ob, s2, sol2⟩ := trip
                    cases ob with
                    | some v => exact h
                    | none =>
                        cases huncv : uncoverCols (f + 1) s2 i (aget s2.L i) with
                        | none => simp [huncv] at h
                        | some s3 =>
                            simp only [huncv] at h
                            simp only [uncoverCols_mono (f + 1) s2 i _ s3 huncv]
                            exact ih true m s3 (sol2.set (aget s2.RM i) false)
                              (aget s3.D i) x h

theorem coverInner_le (s : DlxData) (i j : Nat) (r : DlxData) {f f2 : Nat}
    (hle : f ≤ f2) (h : coverInner f s i j = some r) : coverInner f2 s i j = some r :=
  option_mono_le (fun f => coverInner f s i j)
    (fun f x hx => coverInner_mono i f s j x hx) hle h

theorem uncoverInner_le (s : DlxData) (i j : Nat) (r : DlxData) {f f2 : Nat}
    (hle : f ≤ f2) (h : uncoverInner f s i j = some r) : uncoverInner f2 s i j = some r :=
  option_mono_le (fun f => uncoverInner f s i j)
    (fun f x hx => uncoverInner_mono i f s j x hx) hle h

theorem coverOuter_le (s : DlxData) (c i : Nat) (r : DlxData) {f f2 : Nat}
    (hle : f ≤ f2) (h : coverOuter f s c i = some r) : coverOuter f2 s c i = some r :=
  option_mono_le (fun f => coverOuter f s c i)
    (fun f x hx => coverOuter_mono c f s i x hx) hle h

theorem uncoverOuter_le (s : DlxData) (c i : Nat) (r : DlxData) {f f2 : Nat}
    (hle : f ≤ f2) (h : uncoverOuter f s c i = some r) : uncoverOuter f2 s c i = some r :=
  option_mono_le (fun f => uncoverOuter f s c i)
    (fun f x hx => uncoverOuter_mono c f s i x hx) hle h

theorem coverColumn_le (s : DlxData) (c : Nat) (r : DlxData) {f f2 : Nat}
    (hle : f ≤ f2) (h : coverColumn f s c = some r) : coverColumn f2 s c = some r :=
  option_mono_le (fun f => coverColumn f s c)
    (fun f x hx => coverColumn_mono s c f x hx) hle h

theorem uncoverColumn_le (s : DlxData) (c : Nat) (r : DlxData) {f f2 : Nat}
    (hle : f ≤ f2) (h : uncoverColumn f s c = some r) : uncoverColumn f2 s c = some r :=
  option_mono_le (fun f => uncoverColumn f s c)
    (fun f x hx => uncoverColumn_mono s c f x hx) hle h

theorem chooseLoop_le (s : DlxData) (header i m : Nat) (r : Nat) {f f2 : Nat}
    (hle : f ≤ f2) (h : chooseLoop f s header i m = some r) :
    chooseLoop f2 s header i m = some r :=
  option_mono_le (fun f => chooseLoop f s header i m)
    (fun f x hx => chooseLoop_mono header f s i m x hx) hle h

theorem coverCols_le (s : DlxData) (i j : Nat) (r : DlxData) {f f2 : Nat}
    (hle : f ≤ f2) (h : coverCols f s i j = some r) : coverCols f2 s i j = some r :=
  option_mono_le (fun f => coverCols f s i j)
    (fun f x hx => coverCols_mono f s i j x hx) hle h

theorem uncoverCols_le (s : DlxData) (i j : Nat) (r : DlxData) {f f2 : Nat}
    (hle : f ≤ f2) (h : uncoverCols f s i j = some r) : uncoverCols f2 s i j = some r :=
  option_mono_le (fun f => uncoverCols f s i j)
    (fun f x hx => uncoverCols_mono f s i j x hx) hle h

theorem searchGo_le (b : Bool) (header m : Nat) (s : DlxData) (sol : List Bool)
    (i : Nat) (x : Option (List Bool) × DlxData × List Bool) {f f2 : Nat}
    (hle : f ≤ f2) (h : searchGo f b header m s sol i = some x) :
    searchGo f2 b header m s sol i = some x :=
  option_mono_le (fun f => searchGo f b header m s sol i)
    (fun f x hx => searchGo_mono header f b m s sol i x hx) hle h

/-!
Termination (for C7): every fuelled loop of the search succeeds at a large
enough fuel.  For the inner loops the sufficient fuel is explicit (the walk
length); for the nested loops the fuels of the sub-runs are combined with `max`
via the monotonicity lemmas.
-/

theorem coverInner_ex (i : Nat) : ∀ (J : List Nat) (t : DlxData) (j : Nat),
    walkTo t.R i j (J.length + 1) = some J →
    coverInner (J.length + 1) t i j = some (J.foldl spliceOut t) := by
  intro J
  induction J with
  | nil =>
      intro t j hw
      have hji : j = i := (walkTo_seg _ _ _ _ _ hw).1
      rw [hji]
      simp [coverInner]
  | cons j0 J ih =>
      intro t j hw
      obtain ⟨hseg, hnot⟩ := walkTo_seg _ _ _ _ _ hw
      obtain ⟨hj, hseg2⟩ := hseg
      subst hj
      have hne : j ≠ i := hnot j (by simp)
      show coverInner (J.length + 1 + 1) t i j = some ((j :: J).foldl spliceOut t)
      simp only [coverInner, if_neg hne]
      rw [List.foldl_cons]
      refine ih (spliceOut t j) _ ?_
      rw [spliceOut_R]
      exact seg_walkTo _ _ _ _ _ hseg2 (fun y hy => hnot y (by simp [hy]))
        (Nat.lt_succ_self _)

theorem uncoverInner_ex (i : Nat) : ∀ (J : List Nat) (t : DlxData) (j : Nat),
    walkTo t.L i j (J.length + 1) = some J →
    uncoverInner (J.length + 1) t i j = some (J.foldl spliceIn t) := by
  intro J
  induction J with
  | nil =>
      intro t j hw
      have hji : j = i := (walkTo_seg _ _ _ _ _ hw).1
      rw [hji]
      simp [uncoverInner]
  | cons j0 J ih =>
      intro t j hw
      obtain ⟨hseg, hnot⟩ := walkTo_seg _ _ _ _ _ hw
      obtain ⟨hj, hseg2⟩ := hseg
      subst hj
      have hne : j ≠ i := hnot j (by simp)
      show uncoverInner (J.length + 1 + 1) t i j = some ((j :: J).foldl spliceIn t)
      simp only [uncoverInner, if_neg hne]
      rw [List.foldl_cons]
      refine ih (spliceIn t j) _ ?_
      rw [spliceIn_L]
      exact seg_walkTo _ _ _ _ _ hseg2 (fun y hy => hnot y (by simp [hy]))
        (Nat.lt_succ_self _)

theorem coverOuter_ex (c : Nat) :
    ∀ (plan : List (Nat × List Nat)) (base t : DlxData) (i : Nat),
      spliceInv c base t →
      walkTo t.D c i (plan.length + 1) = some (plan.map Prod.fst) →
      (∀ p ∈ plan, walkTo base.R p.1 (aget base.R p.1) (p.2.length + 1) = some p.2) →
      (∀ p ∈ plan, aget base.C p.1 = c) →
      (∀ j ∈ planCells plan, aget base.C j ≠ c ∧ j < base.C.length) →
      ∃ fuel r, coverOuter fuel t c i = some r := by
  intro plan
  induction plan with
  | nil =>
      intro base t i _ hI _ _ _
      have hic : i = c := (walkTo_seg _ _ _ _ _ hI).1
      exact ⟨1, t, by rw [hic]; simp [coverOuter]⟩
  | cons p plan ih =>
      intro base t i hinv hI hrows hrowcol hcells
      simp only [List.map_cons, List.length_cons] at hI
      obtain ⟨hseg, hnot⟩ := walkTo_seg _ _ _ _ _ hI
      obtain ⟨hip, hseg2⟩ := hseg
      subst hip
      have hne : p.1 = c → False := fun h => hnot p.1 (by simp) h
      have hrec : walkTo t.D c (aget t.D p.1) (plan.length + 1) =
          some (plan.map Prod.fst) :=
        seg_walkTo _ _ _ _ _ hseg2 (fun y hy => hnot y (by simp [hy])) (by simp)
      obtain ⟨hC, hR, hL, hRM, hcoh, hlb, hUlen, hDlen, hSlen, hUC, hDC,
        hcol, hS⟩ := hinv
      have hinvfull : spliceInv c base t :=
        ⟨hC, hR, hL, hRM, hcoh, hlb, hUlen, hDlen, hSlen, hUC, hDC, hcol, hS⟩
      have hp1c : aget base.C p.1 = c := hrowcol p (by simp)
      have hrowwalk : walkTo t.R p.1 (aget t.R p.1) (p.2.length + 1) = some p.2 := by
        rw [hR]
        exact hrows p (by simp)
      have hinner : coverInner (p.2.length + 1) t p.1 (aget t.R p.1) =
          some (p.2.foldl spliceOut t) :=
        coverInner_ex p.1 p.2 t (aget t.R p.1) hrowwalk
      have hcellsp : ∀ j ∈ p.2, aget base.C j ≠ c ∧ j < base.C.length := by
        intro j hj
        exact hcells j (by rw [planCells_cons]; exact List.mem_append_left _ hj)
      have hinv' : spliceInv c base (p.2.foldl spliceOut t) :=
        spliceInv_foldOut c base p.2 t hinvfull hcellsp
      have hDadv : aget (p.2.foldl spliceOut t).D p.1 = aget t.D p.1 := by
        obtain ⟨_, _, _, _, _, _, _, _, _, _, _, hcol', _⟩ := hinv'
        rw [(hcol' p.1 hp1c).2, (hcol p.1 hp1c).2]
      have hI' : walkTo (p.2.foldl spliceOut t).D c
          (aget (p.2.foldl spliceOut t).D p.1) (plan.length + 1) =
          some (plan.map Prod.fst) := by
        rw [hDadv]
        apply walkTo_congr t.D _ c _ _ _ hrec
        intro x hx
        obtain ⟨_, _, _, _, _, _, _, _, _, _, _, hcol', _⟩ := hinv'
        obtain ⟨px, hpx, hpx1⟩ := List.mem_map.mp hx
        have hxc : aget base.C x = c := by
          rw [← hpx1]
          exact hrowcol px (by simp [hpx])
        rw [(hcol' x hxc).2, (hcol x hxc).2]
      obtain ⟨f2, r, hrun2⟩ := ih base (p.2.foldl spliceOut t)
        (aget (p.2.foldl spliceOut t).D p.1) hinv' hI'
        (fun q hq => hrows q (by simp [hq]))
        (fun q hq => hrowcol q (by simp [hq]))
        (fun j hj => hcells j
          (by rw [planCells_cons]; exact List.mem_append_right _ hj))
      refine ⟨max p.2.length f2 + 1, r, ?_⟩
      have hinner2 : coverInner (max p.2.length f2 + 1) t p.1 (aget t.R p.1) =
          some (p.2.foldl spliceOut t) :=
        coverInner_le t p.1 (aget t.R p.1) _ (by omega) hinner
      have hrun3 : coverOuter (max p.2.length f2) (p.2.foldl spliceOut t) c
          (aget (p.2.foldl spliceOut t).D p.1) = some r :=
        coverOuter_le _ c _ r (by omega) hrun2
      show coverOuter (max p.2.length f2 + 1) t c p.1 = some r
      simp only [coverOuter, if_neg hne, hinner2]
      exact hrun3

theorem uncoverOuter_ex (c : Nat) :
    ∀ (plan : List (Nat × List Nat)) (base t : DlxData) (i : Nat),
      spliceInv c base t →
      walkTo t.U c i (plan.length + 1) = some (plan.map Prod.fst) →
      (∀ p ∈ plan, walkTo base.L p.1 (aget base.L p.1) (p.2.length + 1) = some p.2) →
      (∀ p ∈ plan, aget base.C p.1 = c) →
      (∀ j ∈ planCells plan, aget base.C j ≠ c ∧ j < base.C.length) →
      ∃ fuel r, uncoverOuter fuel t c i = some r := by
  intro plan
  induction plan with
  | nil =>
      intro base t i _ hI _ _ _
      have hic : i = c := (walkTo_seg _ _ _ _ _ hI).1
      exact ⟨1, t, by rw [hic]; simp [uncoverOuter]⟩
  | cons p plan ih =>
      intro base t i hinv hI hrows hrowcol hcells
      simp only [List.map_cons, List.length_cons] at hI
      obtain ⟨hseg, hnot⟩ := walkTo_seg _ _ _ _ _ hI
      obtain ⟨hip, hseg2⟩ := hseg
      subst hip
      have hne : p.1 = c → False := fun h => hnot p.1 (by simp) h
      have hrec : walkTo t.U c (aget t.U p.1) (plan.length + 1) =
          some (plan.map Prod.fst) :=
        seg_walkTo _ _ _ _ _ hseg2 (fun y hy => hnot y (by simp [hy])) (by simp)
      obtain ⟨hC, hR, hL, hRM, hcoh, hlb, hUlen, hDlen, hSlen, hUC, hDC,
        hcol, hS⟩ := hinv
      have hinvfull : spliceInv c base t :=
        ⟨hC, hR, hL, hRM, hcoh, hlb, hUlen, hDlen, hSlen, hUC, hDC, hcol, hS⟩
      have hp1c : aget base.C p.1 = c := hrowcol p (by simp)
      have hrowwalk : walkTo t.L p.1 (aget t.L p.1) (p.2.length + 1) = some p.2 := by
        rw [hL]
        exact hrows p (by simp)
      have hinner : uncoverInner (p.2.length + 1) t p.1 (aget t.L p.1) =
          some (p.2.foldl spliceIn t) :=
        uncoverInner_ex p.1 p.2 t (aget t.L p.1) hrowwalk
      have hcellsp : ∀ j ∈ p.2, aget base.C j ≠ c ∧ j < base.C.length := by
        intro j hj
        exact hcells j (by rw [planCells_cons]; exact List.mem_append_left _ hj)
      have hinv' : spliceInv c base (p.2.foldl spliceIn t) :=
        spliceInv_foldIn c base p.2 t hinvfull hcellsp
      have hUadv : aget (p.2.foldl spliceIn t).U p.1 = aget t.U p.1 := by
        obtain ⟨_, _, _, _, _, _, _, _, _, _, _, hcol', _⟩ := hinv'
        rw [(hcol' p.1 hp1c).1, (hcol p.1 hp1c).1]
      have hI' : walkTo (p.2.foldl spliceIn t).U c
          (aget (p.2.foldl spliceIn t).U p.1) (plan.length + 1) =
          some (plan.map Prod.fst) := by
        rw [hUadv]
        apply walkTo_congr t.U _ c _ _ _ hrec
        intro x hx
        obtain ⟨_, _, _, _, _, _, _, _, _, _, _, hcol', _⟩ := hinv'
        obtain ⟨px, hpx, hpx1⟩ := List.mem_map.mp hx
        have hxc : aget base.C x = c := by
          rw [← hpx1]
          exact hrowcol px (by simp [hpx])
        rw [(hcol' x hxc).1, (hcol x hxc).1]
      obtain ⟨f2, r, hrun2⟩ := ih base (p.2.foldl spliceIn t)
        (aget (p.2.foldl spliceIn t).U p.1) hinv' hI'
        (fun q hq => hrows q (by simp [hq]))
        (fun q hq => hrowcol q (by simp [hq]))
        (fun j hj => hcells j
          (by rw [planCells_cons]; exact List.mem_append_right _ hj))
      refine ⟨max p.2.length f2 + 1, r, ?_⟩
      have hinner2 : uncoverInner (max p.2.length f2 + 1) t p.1 (aget t.L p.1) =
          some (p.2.foldl spliceIn t) :=
        uncoverInner_le t p.1 (aget t.L p.1) _ (by omega) hinner
      have hrun3 : uncoverOuter (max p.2.length f2) (p.2.foldl spliceIn t) c
          (aget (p.2.foldl spliceIn t).U p.1) = some r :=
        uncoverOuter_le _ c _ r (by omega) hrun2
      show uncoverOuter (max p.2.length f2 + 1) t c p.1 = some r
      simp only [uncoverOuter, if_neg hne, hinner2]
      exact hrun3

/-- Termination of `coverColumn` on a `coverOK` state: some fuel makes it
return, and by `coverColumn_succ_value` the result is the canonical cover. -/
theorem coverColumn_ex (Hn : Nat) (s : DlxData) (c : Nat)
    (plan : List (Nat × List Nat)) (hok : coverOK Hn s c plan) :
    ∃ fuel, coverColumn fuel s c = some (canonCover s c plan) := by
  have hok' := hok
  obtain ⟨hcoh, hlb, hlenU, hlenD, hSb, hCc, hcH, hRcne, hLcne, hLcH, hRcH,
    hRLc, hLRc, hwalkD, hwalkR, hrowinfo, hcellinfo, hnodup, hlinked, hlinkD,
    hlinkR⟩ := hok'
  have hbR : (headerSplice s c).R = aset s.R (aget s.L c) (aget s.R c) :=
    headerSplice_R s c hRcne
  have hinv0 : spliceInv c (headerSplice s c) (headerSplice s c) := by
    apply spliceInv_refl
    · exact hcoh
    · exact hlb
    · exact hlenU
    · exact hlenD
  have hrows2 : ∀ p ∈ plan, walkTo (headerSplice s c).R p.1
      (aget (headerSplice s c).R p.1) (p.2.length + 1) = some p.2 := by
    intro p hp
    have hstart : aget (headerSplice s c).R p.1 = aget s.R p.1 := by
      rw [hbR]
      exact aget_aset_ne _ (by have := (hrowinfo p hp).2; omega)
    rw [hstart]
    apply walkTo_congr s.R _ _ _ _ _ (hwalkR p hp)
    intro x hx
    rw [hbR]
    refine aget_aset_ne _ ?_
    have hxH : Hn ≤ x := (hcellinfo x (mem_planCells.mpr ⟨p, hp, hx⟩)).2.2
    omega
  obtain ⟨fuel, r, hout⟩ := coverOuter_ex c plan (headerSplice s c)
    (headerSplice s c) (aget (headerSplice s c).D c) hinv0 hwalkD hrows2
    (fun p hp => (hrowinfo p hp).1)
    (fun j hj => ⟨(hcellinfo j hj).1, (hcellinfo j hj).2.1⟩)
  have hrun : coverColumn fuel s c = some r := hout
  have hval : r = canonCover s c plan :=
    coverColumn_succ_value Hn s c plan fuel r hok hrun
  exact ⟨fuel, hval ▸ hrun⟩

/-- Termination of `uncoverColumn` on the canonical cover of a `coverOK` state:
some fuel makes it return, and by `uncoverColumn_restore_value` the result is
the original state. -/
theorem uncoverColumn_ex (Hn : Nat) (s : DlxData) (c : Nat)
    (plan : List (Nat × List Nat)) (hok : coverOK Hn s c plan) :
    ∃ fuel, uncoverColumn fuel (canonCover s c plan) c = some s := by
  have hok' := hok
  obtain ⟨hcoh, hlb, hlenU, hlenD, hSb, hCc, hcH, hRcne, hLcne, hLcH, hRcH,
    hRLc, hLRc, hwalkD, hwalkR, hrowinfo, hcellinfo, hnodup, hlinked, hlinkD,
    hlinkR⟩ := hok'
  have hinv0 : spliceInv c (headerSplice s c) (headerSplice s c) := by
    apply spliceInv_refl
    · exact hcoh
    · exact hlb
    · exact hlenU
    · exact hlenD
  have hinv1 : spliceInv c (headerSplice s c)
      ((planCells plan).foldl spliceOut (headerSplice s c)) := by
    apply spliceInv_foldOut c (headerSplice s c) (planCells plan)
      (headerSplice s c) hinv0
    intro j hj
    exact ⟨(hcellinfo j hj).1, (hcellinfo j hj).2.1⟩
  obtain ⟨iC, iR, iL, iRM, icoh, ilb, iUlen, iDlen, iSlen, iUC, iDC, icol, iS⟩ := hinv1
  have hinv1full : spliceInv c (headerSplice s c)
      ((planCells plan).foldl spliceOut (headerSplice s c)) :=
    ⟨iC, iR, iL, iRM, icoh, ilb, iUlen, iDlen, iSlen, iUC, iDC, icol, iS⟩
  have hs'Uc : aget ((planCells plan).foldl spliceOut (headerSplice s c)).U c =
      aget s.U c := (icol c hCc).1
  obtain ⟨hsegD, hnotD⟩ := walkTo_seg _ _ _ _ _ hwalkD
  have hsegU : Seg s.U (aget s.U c) (plan.map Prod.fst).reverse c :=
    seg_rev s.D s.U (plan.map Prod.fst) c c hsegD hlinkD
  have hwalkU : walkTo s.U c (aget s.U c) ((plan.map Prod.fst).reverse.length + 1) =
      some (plan.map Prod.fst).reverse :=
    seg_walkTo _ _ _ _ _ hsegU
      (fun y hy => hnotD y (List.mem_reverse.mp hy)) (Nat.lt_succ_self _)
  have hIcolor : ∀ x ∈ plan.map Prod.fst, aget s.C x = c := by
    intro x hx
    obtain ⟨px, hpx, hpx1⟩ := List.mem_map.mp hx
    rw [← hpx1]
    exact (hrowinfo px hpx).1
  have hwalkU2 : walkTo ((planCells plan).foldl spliceOut (headerSplice s c)).U c
      (aget ((planCells plan).foldl spliceOut (headerSplice s c)).U c)
      ((revPlan plan).length + 1) = some ((revPlan plan).map Prod.fst) := by
    rw [hs'Uc, revPlan_map_fst, revPlan_length]
    have hlen : (plan.map Prod.fst).reverse.length = plan.length := by simp
    rw [← hlen]
    apply walkTo_congr s.U _ _ _ _ _ hwalkU
    intro x hx
    have hxc : aget s.C x = c := hIcolor x (List.mem_reverse.mp hx)
    exact (icol x hxc).1
  have hrowsL : ∀ q ∈ revPlan plan, walkTo (headerSplice s c).L q.1
      (aget (headerSplice s c).L q.1) (q.2.length + 1) = some q.2 := by
    intro q hq
    obtain ⟨p, hp, rfl⟩ := mem_revPlan.mp hq
    obtain ⟨hsegR, hnotR⟩ := walkTo_seg _ _ _ _ _ (hwalkR p hp)
    have hsegL : Seg s.L (aget s.L p.1) p.2.reverse p.1 :=
      seg_rev s.R s.L p.2 p.1 p.1 hsegR (hlinkR p hp)
    have hwalkL : walkTo s.L p.1 (aget s.L p.1) (p.2.reverse.length + 1) =
        some p.2.reverse :=
      seg_walkTo _ _ _ _ _ hsegL
        (fun y hy => hnotR y (List.mem_reverse.mp hy)) (Nat.lt_succ_self _)
    have hstart : aget (headerSplice s c).L p.1 = aget s.L p.1 := by
      rw [headerSplice_L]
      exact aget_aset_ne _ (by have := (hrowinfo p hp).2; omega)
    show walkTo (headerSplice s c).L p.1 (aget (headerSplice s c).L p.1)
        (p.2.reverse.length + 1) = some p.2.reverse
    rw [hstart]
    apply walkTo_congr s.L _ _ _ _ _ hwalkL
    intro x hx
    rw [headerSplice_L]
    refine aget_aset_ne _ ?_
    have hxH : Hn ≤ x :=
      (hcellinfo x (mem_planCells.mpr ⟨p, hp, List.mem_reverse.mp hx⟩)).2.2
    omega
  obtain ⟨fuel, r, hout⟩ := uncoverOuter_ex c (revPlan plan) (headerSplice s c)
    ((planCells plan).foldl spliceOut (headerSplice s c))
    (aget ((planCells plan).foldl spliceOut (headerSplice s c)).U c)
    hinv1full hwalkU2 hrowsL
    (fun q hq => by
      obtain ⟨p, hp, rfl⟩ := mem_revPlan.mp hq
      exact (hrowinfo p hp).1)
    (fun j hj => by
      rw [planCells_revPlan] at hj
      have hj2 := hcellinfo j (List.mem_reverse.mp hj)
      exact ⟨hj2.1, hj2.2.1⟩)
  have hex : ∃ t', uncoverColumn fuel (canonCover s c plan) c = some t' := by
    unfold uncoverColumn canonCover
    rw [hout]
    exact ⟨_, rfl⟩
  obtain ⟨t', hrun⟩ := hex
  have hval : t' = s := uncoverColumn_restore_value Hn s c plan fuel t' hok hrun
  exact ⟨fuel, hval ▸ hrun⟩

/-- Termination of the column-selection loop: the walk length plus one is
enough fuel, and the value is the `pickMin` fold. -/
theorem chooseLoop_ex (s : DlxData) (header : Nat) :
    ∀ (T : List Nat) (i m : Nat),
      walkTo s.R header i (T.length + 1) = some T →
      chooseLoop (T.length + 1) s header i m = some (T.foldl (pickMin s) m) := by
  intro T
  induction T with
  | nil =>
      intro i m hw
      have hih : i = header := (walkTo_seg _ _ _ _ _ hw).1
      rw [hih]
      simp [chooseLoop]
  | cons t0 T ih =>
      intro i m hw
      obtain ⟨hseg, hnot⟩ := walkTo_seg _ _ _ _ _ hw
      obtain ⟨hit, hseg2⟩ := hseg
      subst hit
      have hne : i ≠ header := hnot i (by simp)
      show chooseLoop (T.length + 1 + 1) s header i m =
        some ((i :: T).foldl (pickMin s) m)
      simp only [chooseLoop, if_neg hne]
      rw [List.foldl_cons]
      exact ih (aget s.R i) (pickMin s m i)
        (seg_walkTo _ _ _ _ _ hseg2 (fun y hy => hnot y (by simp [hy]))
          (Nat.lt_succ_self _))

/-- Termination of the `coverCols` loop of `find_solution` on a `GS` state. -/
theorem coverCols_ex (nc : Nat) : ∀ (cells : List Nat) (s : DlxData)
    (cols : List (Nat × List (Nat × List Nat))) (i j : Nat),
    GS nc s cols →
    walkTo s.R i j (cells.length + 1) = some cells →
    (∀ x ∈ cells, aget s.C x ∈ cols.map Prod.fst ∧ nc + 1 ≤ x) →
    (cells.map (aget s.C)).Nodup →
    ∃ fuelC s1, coverCols fuelC s i j = some s1 := by
  intro cells
  induction cells with
  | nil =>
      intro s cols i j _ hw _ _
      have hji : j = i := (walkTo_seg _ _ _ _ _ hw).1
      exact ⟨1, s, by rw [hji]; simp [coverCols]⟩
  | cons k rest ih =>
      intro s cols i j hGS hw hfacts hndC
      obtain ⟨hseg, hnot⟩ := walkTo_seg _ _ _ _ _ hw
      obtain ⟨hjk, hseg2⟩ := hseg
      subst hjk
      have hkne : j ≠ i := hnot j (by simp)
      rw [List.map_cons] at hndC
      obtain ⟨hCk, hkH⟩ := hfacts j (by simp)
      obtain ⟨ce, hcem, hfstc⟩ := List.mem_map.mp hCk
      have hce : (aget s.C j, ce.2) ∈ cols := by
        rw [← hfstc, Prod.mk.eta]
        exact hcem
      have hok := GS_coverOK nc s cols hGS (aget s.C j) ce.2 hce
      obtain ⟨f1, hcov⟩ := coverColumn_ex (nc + 1) s (aget s.C j) ce.2 hok
      have hGS2 := GS_cover nc s cols hGS (aget s.C j) ce.2 hce
      have hRj : aget (canonCover s (aget s.C j) ce.2).R j = aget s.R j :=
        canonCover_R_cell (nc + 1) s _ ce.2 hok j hkH
      have hw2 : walkTo (canonCover s (aget s.C j) ce.2).R i
          (aget (canonCover s (aget s.C j) ce.2).R j) (rest.length + 1) =
          some rest := by
        rw [hRj]
        refine seg_walkTo _ _ _ _ _ ?_
          (fun y hy => hnot y (by simp [hy])) (Nat.lt_succ_self _)
        refine seg_congr s.R _ _ _ _ hseg2 ?_
        intro x hx
        exact canonCover_R_cell (nc + 1) s _ ce.2 hok x
          (hfacts x (by simp [hx])).2
      have hfacts2 : ∀ x ∈ rest,
          aget (canonCover s (aget s.C j) ce.2).C x ∈
            (gsAfterCover cols (aget s.C j) (planCells ce.2)).map Prod.fst ∧
          nc + 1 ≤ x := by
        intro x hx
        obtain ⟨hCx, hxH⟩ := hfacts x (by simp [hx])
        have hCne : aget s.C x ≠ aget s.C j := by
          intro h
          have hnin := (List.nodup_cons.mp hndC).1
          exact hnin (h ▸ List.mem_map.mpr ⟨x, hx, rfl⟩)
        refine ⟨?_, hxH⟩
        rw [canonCover_C]
        have hmapf : (gsAfterCover cols (aget s.C j) (planCells ce.2)).map
            Prod.fst = (cols.map Prod.fst).erase (aget s.C j) := by
          show (plansFilter (colsErase cols (aget s.C j))
            (planCells ce.2)).map Prod.fst = _
          rw [plansFilter_map_fst]
          refine colsErase_map_fst _ _ ?_
          obtain ⟨_, _, _, _, _, _, _, _, _, hndH, _, _, _⟩ := hGS
          exact (List.nodup_cons.mp hndH).2
        rw [hmapf]
        exact (List.mem_erase_of_ne hCne).mpr hCx
      have hndC2 : (rest.map
          (aget (canonCover s (aget s.C j) ce.2).C)).Nodup := by
        rw [canonCover_C]
        exact (List.nodup_cons.mp hndC).2
      obtain ⟨f2, s1, hrun2⟩ := ih (canonCover s (aget s.C j) ce.2)
        (gsAfterCover cols (aget s.C j) (planCells ce.2)) i
        (aget (canonCover s (aget s.C j) ce.2).R j) hGS2 hw2 hfacts2 hndC2
      refine ⟨max f1 f2 + 1, s1, ?_⟩
      have hcovF : coverColumn (max f1 f2 + 1) s (aget s.C j) =
          some (canonCover s (aget s.C j) ce.2) :=
        coverColumn_le s _ _ (by omega) hcov
      have hrunF : coverCols (max f1 f2) (canonCover s (aget s.C j) ce.2) i
          (aget (canonCover s (aget s.C j) ce.2).R j) = some s1 :=
        coverCols_le _ i _ s1 (by omega) hrun2
      show coverCols (max f1 f2 + 1) s i j = some s1
      simp only [coverCols, if_neg hkne, hcovF]
      exact hrunF

/-- Winding a run of the `uncoverCols` loop back up a cover stack: a successful
run from the base state extends to a successful run (same result) from the
fully covered state, one `uncoverColumn` per covered cell. -/
theorem uncoverCols_wind (Hn : Nat) : ∀ (cells : List Nat) (s s1 : DlxData)
    (i jstart jend : Nat) (r : DlxData) (fuel0 : Nat),
    CoverStack Hn cells s s1 →
    Seg s.L jstart cells.reverse jend →
    (∀ x ∈ cells, x ≠ i ∧ Hn ≤ x) →
    uncoverCols fuel0 s i jend = some r →
    ∃ fuelU, uncoverCols fuelU s1 i jstart = some r := by
  intro cells
  induction cells with
  | nil =>
      intro s s1 i jstart jend r fuel0 hst hseg _ hrun
      have hse : jstart = jend := hseg
      have hs1 : s1 = s := hst
      rw [hse, hs1]
      exact ⟨fuel0, hrun⟩
  | cons k rest ih =>
      intro s s1 i jstart jend r fuel0 hst hseg hfacts hrun
      obtain ⟨plan, hok, hst2⟩ := hst
      have hrevc : (k :: rest).reverse = rest.reverse ++ [k] := by simp
      rw [hrevc] at hseg
      obtain ⟨m, hsegA, hsegB⟩ := seg_append_inv s.L rest.reverse [k] _ _ hseg
      obtain ⟨hmk, hsegC⟩ := hsegB
      rw [hmk] at hsegA
      have hjend : aget s.L k = jend := hsegC
      obtain ⟨hkne, hkH⟩ := hfacts k (by simp)
      obtain ⟨fu, huk⟩ := uncoverColumn_ex Hn s (aget s.C k) plan hok
      have hsegA2 : Seg (canonCover s (aget s.C k) plan).L jstart rest.reverse k := by
        refine seg_congr s.L _ _ _ _ hsegA ?_
        intro x hx
        exact canonCover_L_cell Hn s _ plan hok x
          (hfacts x (by simp [List.mem_reverse.mp hx])).2
      have hrun' : uncoverCols (max fu fuel0 + 1) (canonCover s (aget s.C k) plan)
          i k = some r := by
        have hukF : uncoverColumn (max fu fuel0 + 1)
            (canonCover s (aget s.C k) plan) (aget s.C k) = some s :=
          uncoverColumn_le _ _ _ (by omega) huk
        have hcontF : uncoverCols (max fu fuel0) s i jend = some r :=
          uncoverCols_le _ i _ r (by omega) hrun
        show uncoverCols (max fu fuel0 + 1) (canonCover s (aget s.C k) plan)
          i k = some r
        simp only [uncoverCols, if_neg hkne, canonCover_C, hukF]
        rw [hjend]
        exact hcontF
      exact ih (canonCover s (aget s.C k) plan) s1 i jstart k r
        (max fu fuel0 + 1) hst2 hsegA2
        (fun x hx => hfacts x (by simp [hx])) hrun'

/-- Termination of the candidate-row loop of `find_solution` on the covered
state of its chosen column, given termination of the recursive search from
every `GS` state with at most `n` active columns (the covers of the row loop
leave strictly fewer than the `n + 1` columns of the current level). -/
theorem rowLoop_ex (nc n : Nat)
    (hsearch : ∀ (s : DlxData) (cols : List (Nat × List (Nat × List Nat)))
      (sol : List Bool), GS nc s cols → cols.length ≤ n →
      ∃ fuel out, searchGo fuel false nc 0 s sol 0 = some out) :
    ∀ (rest : List Nat) (s0 : DlxData) (cols : List (Nat × List (Nat × List Nat)))
      (m : Nat) (plan0 : List (Nat × List Nat)) (sol : List Bool) (i : Nat),
    GS nc s0 cols → cols.length ≤ n + 1 → (m, plan0) ∈ cols →
    walkTo (canonCover s0 m plan0).D m i (rest.length + 1) = some rest →
    (∀ x ∈ rest, x ∈ plan0.map Prod.fst) →
    ∃ fuel out, searchGo fuel true nc m (canonCover s0 m plan0) sol i = some out := by
  intro rest
  induction rest with
  | nil =>
      intro s0 cols m plan0 sol i _ _ _ hwalkI _
      have him : i = m := (walkTo_seg _ _ _ _ _ hwalkI).1
      refine ⟨1, (none, canonCover s0 m plan0, sol), ?_⟩
      rw [him]
      simp [searchGo]
  | cons k rest2 ih =>
      intro s0 cols m plan0 sol i hGS hlen hce hwalkI hsub
      have hGS2 := hGS
      have hok0 := GS_coverOK nc s0 cols hGS m plan0 hce
      obtain ⟨hsegI, hnotI⟩ := walkTo_seg _ _ _ _ _ hwalkI
      obtain ⟨hik, hsegR2⟩ := hsegI
      subst hik
      have him : i ≠ m := hnotI i (by simp)
      have himem : i ∈ plan0.map Prod.fst := hsub i (by simp)
      obtain ⟨p, hp, hpfst⟩ := List.mem_map.mp himem
      obtain ⟨hcohG, hlbG, hUCg, hDCg, hLCg, hRCg, hSbG, hHlenG, hwalkHG,
        hndHG, hcolfG, hLg, hcolsG⟩ := hGS
      obtain ⟨hwalk0, hndc0, hlink0, hpf0, hwalkR0, hrownd0, hrowCnd0,
        hlinkR0, hcell0, hpcnd0, hsib0⟩ := hcolsG (m, plan0) hce
      have hp1H : nc + 1 ≤ p.1 := (hpf0 p hp).2.1
      have hRi : aget (canonCover s0 m plan0).R i = aget s0.R i := by
        rw [← hpfst]
        exact canonCover_R_cell (nc + 1) s0 m plan0 hok0 p.1 hp1H
      have hwrow0 : walkTo s0.R p.1 (aget s0.R p.1) (p.2.length + 1) =
          some p.2 := hwalkR0 p hp
      have hwrow2 : walkTo (canonCover s0 m plan0).R i
          (aget (canonCover s0 m plan0).R i) (p.2.length + 1) = some p.2 := by
        rw [hRi, ← hpfst]
        refine walkTo_congr s0.R _ _ _ _ _ hwrow0 ?_
        intro x hx
        exact canonCover_R_cell (nc + 1) s0 m plan0 hok0 x
          (hcell0 p hp x hx).1
      have hGScov := GS_cover nc s0 cols hGS2 m plan0 hce
      have hmapfc : (gsAfterCover cols m (planCells plan0)).map Prod.fst =
          (cols.map Prod.fst).erase m := by
        show (plansFilter (colsErase cols m) (planCells plan0)).map
          Prod.fst = _
        rw [plansFilter_map_fst]
        exact colsErase_map_fst _ _ (List.nodup_cons.mp hndHG).2
      have hchainfacts : ∀ x ∈ p.2,
          aget (canonCover s0 m plan0).C x ∈
            (gsAfterCover cols m (planCells plan0)).map Prod.fst ∧
          nc + 1 ≤ x := by
        intro x hx
        obtain ⟨hxH, _, hxne, _⟩ := hcell0 p hp x hx
        obtain ⟨hCmem, _⟩ := hsib0 p hp x hx
        rw [canonCover_C, hmapfc]
        exact ⟨(List.mem_erase_of_ne hxne).mpr hCmem, hxH⟩
      have hndC2 : (p.2.map (aget (canonCover s0 m plan0).C)).Nodup := by
        rw [canonCover_C]
        exact hrowCnd0 p hp
      obtain ⟨fC, s1, hcc⟩ := coverCols_ex nc p.2 (canonCover s0 m plan0)
        (gsAfterCover cols m (planCells plan0)) i
        (aget (canonCover s0 m plan0).R i) hGScov hwrow2 hchainfacts hndC2
      obtain ⟨⟨cols1, hGS1, hlen1⟩, hstack⟩ := cchain nc p.2
        (canonCover s0 m plan0)
        (gsAfterCover cols m (planCells plan0)) i
        (aget (canonCover s0 m plan0).R i) fC s1 hGScov hwrow2
        hchainfacts hndC2 hcc
      have hndf : (cols.map Prod.fst).Nodup := (List.nodup_cons.mp hndHG).2
      have hmmf : m ∈ cols.map Prod.fst := List.mem_map.mpr ⟨(m, plan0), hce, rfl⟩
      have hglen := gsAfterCover_length cols m (planCells plan0) hmmf hndf
      have hlen1' : cols1.length ≤ n := by omega
      obtain ⟨f2, out2, hrec⟩ := hsearch s1 cols1
        (sol.set (aget (canonCover s0 m plan0).RM i) true) hGS1 hlen1'
      obtain ⟨r2, s2, sol2⟩ := out2
      cases r2 with
      | some v =>
          refine ⟨max fC f2 + 1, (some v, s2, sol2), ?_⟩
          have hccF : coverCols (max fC f2 + 1) (canonCover s0 m plan0) i
              (aget (canonCover s0 m plan0).R i) = some s1 :=
            coverCols_le _ i _ s1 (by omega) hcc
          have hrecF : searchGo (max fC f2) false nc 0 s1
              (sol.set (aget (canonCover s0 m plan0).RM i) true) 0 =
              some (some v, s2, sol2) :=
            searchGo_le false nc 0 s1 _ 0 _ (by omega) hrec
          rw [searchGo, if_neg him]
          simp only [hccF, hrecF]
      | none =>
          have hs2 : s2 = s1 := (searchGo_none_restores nc f2).1 s1 cols1
            (sol.set (aget (canonCover s0 m plan0).RM i) true)
            none s2 sol2 hGS1 hrec rfl
          rw [hs2] at hrec
          have hiH : nc + 1 ≤ i := hpfst ▸ hp1H
          have hs1L : aget s1.L i = aget (canonCover s0 m plan0).L i :=
            ((coverStack_cell_arrays (nc + 1) p.2 (canonCover s0 m plan0) s1
              hstack).2.2 i hiH).2
          obtain ⟨hsegRow, hnotRow⟩ := walkTo_seg _ _ _ _ _ hwrow0
          have hsegLrow : Seg s0.L (aget s0.L p.1) p.2.reverse p.1 :=
            seg_rev s0.R s0.L p.2 p.1 p.1 hsegRow (hlinkR0 p hp)
          have hLi : aget (canonCover s0 m plan0).L i = aget s0.L i := by
            rw [← hpfst]
            exact canonCover_L_cell (nc + 1) s0 m plan0 hok0 p.1 hp1H
          have hsegL2 : Seg (canonCover s0 m plan0).L
              (aget (canonCover s0 m plan0).L i) p.2.reverse i := by
            rw [hLi, ← hpfst]
            refine seg_congr s0.L _ _ _ _ hsegLrow ?_
            intro x hx
            exact canonCover_L_cell (nc + 1) s0 m plan0 hok0 x
              (hcell0 p hp x (List.mem_reverse.mp hx)).1
          have hrowfacts : ∀ x ∈ p.2, x ≠ i ∧ nc + 1 ≤ x := by
            intro x hx
            refine ⟨?_, (hcell0 p hp x hx).1⟩
            intro h
            subst h
            rw [← hpfst] at hx
            exact (List.nodup_cons.mp (hrownd0 p hp)).1 hx
          have huc0 : uncoverCols 1 (canonCover s0 m plan0) i i =
              some (canonCover s0 m plan0) := by
            simp [uncoverCols]
          obtain ⟨fU, hunw⟩ := uncoverCols_wind (nc + 1) p.2
            (canonCover s0 m plan0) s1 i
            (aget (canonCover s0 m plan0).L i) i (canonCover s0 m plan0) 1
            hstack hsegL2 hrowfacts huc0
          have hwrest : walkTo (canonCover s0 m plan0).D m
              (aget (canonCover s0 m plan0).D i)
              (rest2.length + 1) = some rest2 := by
            refine seg_walkTo _ _ _ _ _ hsegR2 ?_ (Nat.lt_succ_self _)
            intro y hy
            exact hnotI y (by simp [hy])
          obtain ⟨f3, out3, hrec3⟩ := ih s0 cols m plan0
            (sol2.set (aget s1.RM i) false)
            (aget (canonCover s0 m plan0).D i) hGS2 hlen hce hwrest
            (fun x hx => hsub x (by simp [hx]))
          refine ⟨max (max fC f2) (max fU f3) + 1, out3, ?_⟩
          have hccF : coverCols (max (max fC f2) (max fU f3) + 1)
              (canonCover s0 m plan0) i
              (aget (canonCover s0 m plan0).R i) = some s1 :=
            coverCols_le _ i _ s1 (by omega) hcc
          have hrecF : searchGo (max (max fC f2) (max fU f3)) false nc 0 s1
              (sol.set (aget (canonCover s0 m plan0).RM i) true) 0 =
              some (none, s1, sol2) :=
            searchGo_le false nc 0 s1 _ 0 _ (by omega) hrec
          have huncF : uncoverCols (max (max fC f2) (max fU f3) + 1) s1 i
              (aget s1.L i) = some (canonCover s0 m plan0) := by
            rw [hs1L]
            exact uncoverCols_le _ i _ _ (by omega) hunw
          have hrec3F : searchGo (max (max fC f2) (max fU f3)) true nc m
              (canonCover s0 m plan0) (sol2.set (aget s1.RM i) false)
              (aget (canonCover s0 m plan0).D i) = some out3 :=
            searchGo_le true nc m _ _ _ _ (by omega) hrec3
          rw [searchGo, if_neg him]
          simp only [hccF, hrecF, huncF]
          exact hrec3F

/-- Termination of `find_solution` from any `GS` state, by induction on the
number of active columns: the recursion covers its chosen column before
descending, so each level sees a strictly smaller active set. -/
theorem searchGo_ex (nc : Nat) : ∀ (n : Nat) (s : DlxData)
    (cols : List (Nat × List (Nat × List Nat))) (sol : List Bool),
    GS nc s cols → cols.length ≤ n →
    ∃ fuel out, searchGo fuel false nc 0 s sol 0 = some out := by
  intro n
  induction n with
  | zero =>
      intro s cols sol hGS hlen
      have hcols : cols = [] := List.length_eq_zero.mp (Nat.le_zero.mp hlen)
      subst hcols
      obtain ⟨_, _, _, _, _, _, _, _, hwalkH, _, _, _, _⟩ := hGS
      have hroot : aget s.R nc = nc := (walkTo_seg _ _ _ _ _ hwalkH).1
      exact ⟨1, (some sol, s, sol), by simp [searchGo, hroot]⟩
  | succ n ihn =>
      intro s cols sol hGS hlen
      by_cases hroot : aget s.R nc = nc
      · exact ⟨1, (some sol, s, sol), by simp [searchGo, hroot]⟩
      · have hGS2 := hGS
        obtain ⟨_, _, _, _, _, _, _, _, hwalkH, hndH, _, _, _⟩ := hGS
        match hA : cols.map Prod.fst, hwalkH with
        | [], hwalkH =>
            exact absurd (walkTo_seg _ _ _ _ _ hwalkH).1 hroot
        | m0 :: T, hwalkH =>
          have hlenA : cols.length + 1 = (m0 :: T).length + 1 := by
            rw [← hA, List.length_map]
          rw [hlenA] at hwalkH
          obtain ⟨hsegA, hnotA⟩ := walkTo_seg _ _ _ _ _ hwalkH
          obtain ⟨hm0, hsegT⟩ := hsegA
          have hwT : walkTo s.R nc (aget s.R m0) (T.length + 1) = some T :=
            seg_walkTo _ _ _ _ _ hsegT
              (fun y hy => hnotA y (by simp [hy])) (Nat.lt_succ_self _)
          have hwT2 : walkTo s.R nc (aget s.R (aget s.R nc))
              (T.length + 1) = some T := by
            rw [hm0]
            exact hwT
          have hcl : chooseLoop (T.length + 1) s nc (aget s.R (aget s.R nc))
              (aget s.R nc) = some (T.foldl (pickMin s) (aget s.R nc)) :=
            chooseLoop_ex s nc T (aget s.R (aget s.R nc)) (aget s.R nc) hwT2
          by_cases hmz : T.foldl (pickMin s) (aget s.R nc) = nc ∨
              aget s.S (T.foldl (pickMin s) (aget s.R nc)) = 0
          · refine ⟨T.length + 1 + 1, (none, s, sol), ?_⟩
            have hclF : chooseLoop (T.length + 1 + 1) s nc
                (aget s.R (aget s.R nc)) (aget s.R nc) =
                some (T.foldl (pickMin s) (aget s.R nc)) :=
              chooseLoop_le s nc _ _ _ (by omega) hcl
            rw [searchGo, if_neg hroot]
            simp only [hclF, if_pos hmz]
          · have hmmem : T.foldl (pickMin s) (aget s.R nc) ∈
                cols.map Prod.fst := by
              rw [hA, hm0]
              exact foldl_pickMin_mem s T m0
            obtain ⟨ce, hcem, hfstc⟩ := List.mem_map.mp hmmem
            have hce : (T.foldl (pickMin s) (aget s.R nc), ce.2) ∈ cols := by
              rw [← hfstc, Prod.mk.eta]
              exact hcem
            have hok := GS_coverOK nc s cols hGS2 _ ce.2 hce
            obtain ⟨fcov, hcov⟩ := coverColumn_ex (nc + 1) s _ ce.2 hok
            have hwalkB : walkTo
                (canonCover s (T.foldl (pickMin s) (aget s.R nc)) ce.2).D
                (T.foldl (pickMin s) (aget s.R nc))
                (aget (canonCover s (T.foldl (pickMin s) (aget s.R nc)) ce.2).D
                  (T.foldl (pickMin s) (aget s.R nc)))
                ((ce.2.map Prod.fst).length + 1) = some (ce.2.map Prod.fst) := by
              rw [show (ce.2.map Prod.fst).length = ce.2.length from by simp]
              exact canonCover_colwalk (nc + 1) s _ ce.2 hok
            obtain ⟨fB, outB, hrowrun⟩ := rowLoop_ex nc n ihn (ce.2.map Prod.fst)
              s cols (T.foldl (pickMin s) (aget s.R nc)) ce.2 sol
              (aget (canonCover s (T.foldl (pickMin s) (aget s.R nc)) ce.2).D
                (T.foldl (pickMin s) (aget s.R nc)))
              hGS2 hlen hce hwalkB (fun x hx => hx)
            obtain ⟨rB, sB, solB⟩ := outB
            cases rB with
            | some v =>
                refine ⟨max (T.length + 1) (max fcov fB) + 1,
                  (some v, sB, solB), ?_⟩
                have hclF := chooseLoop_le s nc _ _ _
                  (show T.length + 1 ≤ max (T.length + 1) (max fcov fB) + 1
                    by omega) hcl
                have hcovF := coverColumn_le s _ _
                  (show fcov ≤ max (T.length + 1) (max fcov fB) + 1
                    by omega) hcov
                have hrowF := searchGo_le true nc _ _ sol _ _
                  (show fB ≤ max (T.length + 1) (max fcov fB) by omega) hrowrun
                rw [searchGo, if_neg hroot]
                simp only [hclF, if_neg hmz, hcovF, hrowF]
            | none =>
                have hsB : sB =
                    canonCover s (T.foldl (pickMin s) (aget s.R nc)) ce.2 :=
                  (searchGo_none_restores nc fB).2 s cols _ ce.2 sol _
                    (ce.2.map Prod.fst) none sB solB hGS2 hce hwalkB
                    (fun x hx => hx) hrowrun rfl
                obtain ⟨fU, hU⟩ := uncoverColumn_ex (nc + 1) s _ ce.2 hok
                refine ⟨max (max (T.length + 1) fcov) (max fB fU) + 1,
                  (none, s, solB), ?_⟩
                have hclF := chooseLoop_le s nc _ _ _
                  (show T.length + 1 ≤
                    max (max (T.length + 1) fcov) (max fB fU) + 1 by omega) hcl
                have hcovF := coverColumn_le s _ _
                  (show fcov ≤ max (max (T.length + 1) fcov) (max fB fU) + 1
                    by omega) hcov
                have hrowF := searchGo_le true nc _ _ sol _ _
                  (show fB ≤ max (max (T.length + 1) fcov) (max fB fU)
                    by omega) hrowrun
                have hUF : uncoverColumn
                    (max (max (T.length + 1) fcov) (max fB fU) + 1) sB
                    (T.foldl (pickMin s) (aget s.R nc)) = some s := by
                  rw [hsB]
                  exact uncoverColumn_le _ _ _ (by omega) hU
                rw [searchGo, if_neg hroot]
                simp only [hclF, if_neg hmz, hcovF, hrowF, hUF]

/-!
The column-selection loop (for C6): `chooseLoop` equals a fold of `pickMin`
over the ring walk, and that fold computes the first minimum of `S`, which on an
ascending ring is the minimum-`S` header of smallest index.
-/

theorem chooseLoop_eq_foldl (s : DlxData) (header : Nat) :
    ∀ (T : List Nat) (fuelW i m fuel : Nat),
      walkTo s.R header i fuelW = some T → T.length < fuel →
      chooseLoop fuel s header i m = some (T.foldl (pickMin s) m) := by
  intro T
  induction T with
  | nil =>
      intro fuelW i m fuel hw hfuel
      match fuelW, hw with
      | w + 1, hw =>
          match fuel, hfuel with
          | f + 1, _ =>
              simp only [walkTo] at hw
              split at hw
              · next h => simp only [chooseLoop, if_pos h, List.foldl_nil]
              · split at hw <;> simp_all
  | cons a T ih =>
      intro fuelW i m fuel hw hfuel
      match fuelW, hw with
      | w + 1, hw =>
          match fuel, hfuel with
          | f + 1, hfuel =>
              simp only [walkTo] at hw
              split at hw
              · simp_all
              · next hne =>
                  match hrec : walkTo s.R header (aget s.R i) w, hw with
                  | some l, hw =>
                      have hw2 : some (i :: l) = some (a :: T) := hw
                      simp only [Option.some.injEq, List.cons.injEq] at hw2
                      obtain ⟨rfl, rfl⟩ := hw2
                      simp only [chooseLoop, if_neg hne, List.foldl_cons]
                      exact ih w _ _ f hrec (by simpa using Nat.lt_of_succ_lt_succ hfuel)

theorem foldl_pickMin_spec (s : DlxData) :
    ∀ (T : List Nat) (m : Nat), (m :: T).Pairwise (· < ·) →
      T.foldl (pickMin s) m ∈ m :: T ∧
        (∀ a ∈ m :: T, aget s.S (T.foldl (pickMin s) m) ≤ aget s.S a) ∧
        ∀ a ∈ m :: T, aget s.S a = aget s.S (T.foldl (pickMin s) m) →
          T.foldl (pickMin s) m ≤ a := by
  intro T
  induction T with
  | nil =>
      intro m _
      refine ⟨by simp, ?_, ?_⟩ <;> intro a ha <;> simp at ha <;> subst ha <;> simp
  | cons a T ih =>
      intro m hp
      have hma : m < a := (List.pairwise_cons.mp hp).1 a (by simp)
      have hmT : ∀ b ∈ T, m < b := fun b hb => (List.pairwise_cons.mp hp).1 b (by simp [hb])
      have haT : (a :: T).Pairwise (· < ·) := (List.pairwise_cons.mp hp).2
      have hmTp : (m :: T).Pairwise (· < ·) :=
        List.pairwise_cons.mpr ⟨hmT, (List.pairwise_cons.mp haT).2⟩
      simp only [List.foldl_cons]
      by_cases hlt : aget s.S a < aget s.S m
      · have hpick : pickMin s m a = a := by simp [pickMin, hlt]
        rw [hpick]
        obtain ⟨hmem, hmin, htie⟩ := ih a haT
        refine ⟨by simpa using Or.inr (by simpa using hmem), ?_, ?_⟩
        · intro x hx
          rcases List.mem_cons.mp hx with rfl | hx'
          · exact le_of_lt (lt_of_le_of_lt (hmin a (by simp)) hlt)
          · exact hmin x hx'
        · intro x hx hSx
          rcases List.mem_cons.mp hx with rfl | hx'
          · exact absurd hSx (by
              have := lt_of_le_of_lt (hmin a (by simp)) hlt
              omega)
          · exact htie x hx' hSx
      · have hpick : pickMin s m a = m := by simp [pickMin, hlt]
        rw [hpick]
        obtain ⟨hmem, hmin, htie⟩ := ih m hmTp
        have hle : aget s.S m ≤ aget s.S a := Nat.le_of_not_lt hlt
        refine ⟨?_, ?_, ?_⟩
        · rcases List.mem_cons.mp hmem with h | h
          · rw [h]; simp
          · simp [h]
        · intro x hx
          rcases List.mem_cons.mp hx with rfl | hx'
          · exact hmin x (by simp)
          · rcases List.mem_cons.mp hx' with rfl | hx''
            · exact le_trans (hmin m (by simp)) hle
            · exact hmin x (by simp [hx''])
        · intro x hx hSx
          rcases List.mem_cons.mp hx with rfl | hx'
          · exact htie x (by simp) hSx
          · rcases List.mem_cons.mp hx' with rfl | hx''
            · have hSm : aget s.S m = aget s.S (T.foldl (pickMin s) m) := by
                have h1 := hmin m (by simp)
                omega
              have hrm := htie m (by simp) hSm
              have : T.foldl (pickMin s) m = m := by
                rcases List.mem_cons.mp hmem with h | h
                · exact h
                · exact absurd hrm (by have := hmT _ h; omega)
              rw [this]
              exact le_of_lt hma
            · exact htie x (by simp [hx'']) hSx

/-- C6: whenever the active-column ring walked right from the root is a list `A`
(ascending, as the ring preserves the original orientation), the column chosen
by the selection loop of `find_solution` is a member of `A` with the smallest
`S` value, and among equal smallest `S` values it is the first one encountered,
which is the one with the smallest index. -/
theorem c6_branch_column_min_S (s : DlxData) (header fuelW fuel : Nat) (A : List Nat)
    (hA : walkTo s.R header (aget s.R header) fuelW = some A)
    (hne : A ≠ [])
    (hAsc : A.Pairwise (· < ·))
    (hfuel : A.length ≤ fuel) :
    ∃ m, chooseLoop fuel s header (aget s.R (aget s.R header)) (aget s.R header) = some m ∧
      m ∈ A ∧ (∀ a ∈ A, aget s.S m ≤ aget s.S a) ∧
      ∀ a ∈ A, aget s.S a = aget s.S m → m ≤ a := by
  match A, hne with
  | a1 :: A2, _ =>
      match fuelW, hA with
      | w + 1, hA =>
          simp only [walkTo] at hA
          split at hA
          · simp_all
          · next hne1 =>
              match hrec : walkTo s.R header (aget s.R (aget s.R header)) w, hA with
              | some l, hA =>
                  have hA2 : some (aget s.R header :: l) = some (a1 :: A2) := hA
                  simp only [Option.some.injEq, List.cons.injEq] at hA2
                  obtain ⟨ha1, rfl⟩ := hA2
                  rw [← ha1] at hAsc hfuel ⊢
                  have hchoose := chooseLoop_eq_foldl s header l w
                    (aget s.R (aget s.R header)) (aget s.R header) fuel hrec
                    (by simp only [List.length_cons] at hfuel; omega)
                  obtain ⟨hmem, hmin, htie⟩ := foldl_pickMin_spec s l (aget s.R header) hAsc
                  exact ⟨_, hchoose, hmem, hmin, htie⟩

/-- Witness for the C6 theorem on the built arena of `psSmall6`: the ring walk
is `[0, 1, 2, 3, 4, 5]` and the loop selects column 2 (the first of the two
columns with the minimal size 1). -/
theorem c6_branch_column_min_S_witness :
    ∃ m, chooseLoop 20 (dlxInit 6 4 psSmall6) 6
        (aget (dlxInit 6 4 psSmall6).R (aget (dlxInit 6 4 psSmall6).R 6))
        (aget (dlxInit 6 4 psSmall6).R 6) = some m ∧
      m ∈ [0, 1, 2, 3, 4, 5] ∧
      (∀ a ∈ [0, 1, 2, 3, 4, 5], aget (dlxInit 6 4 psSmall6).S m ≤ aget (dlxInit 6 4 psSmall6).S a) ∧
      ∀ a ∈ [0, 1, 2, 3, 4, 5],
        aget (dlxInit 6 4 psSmall6).S a = aget (dlxInit 6 4 psSmall6).S m → m ≤ a :=
  c6_branch_column_min_S (dlxInit 6 4 psSmall6) 6 10 20 [0, 1, 2, 3, 4, 5]
    (by decide) (by decide) (by decide) (by decide)

/-- C8: on the concrete 6-column, 4-row instance of `TestSmallCover.cpp` (row 0
covers `{0, 2, 4}`, row 1 covers `{0, 1, 3, 5}`, row 2 covers `{1, 3}`, row 3
covers `{5}`), `run` returns the solution vector `[true, false, true, true]`. -/
theorem c8_small_cover_run :
    dlxRun 60 6 4 psSmall6 = some (some [true, false, true, true]) := by decide

/-- C5, counterexample: on the unsorted position list `[(1, 0), (0, 1)]` over 2
columns the builder does not fail with an invalid-input error; it silently
builds an arena and the search runs, returning the solution `[true, true]`. -/
theorem c5_counterexample_unsorted_silently_runs :
    dlxRun 20 2 2 psUnsorted2 = some (some [true, true]) := by decide

/-- C4: the forced-rows overload of `run` does not treat its entries as
row-identity tags.  On `psForced3` with forced list `[1]`, the code uses node
`1 + HeaderSize`, i.e. position 1, which belongs to row 0; the returned solution
is `[true, false, false]`, whose entry at the claimed forced row 1 is `false`. -/
theorem c4_forced_rows_not_row_tags :
    dlxRunForced 40 3 3 psForced3 [1] = some (some [true, false, false]) ∧
      (([true, false, false] : List Bool).getD 1 false = false) := by decide

/-- C2, counterexample: the pair `coverColumn c; uncoverColumn c` does not
restore every reachable state for every column `c`.  On `psSmall6` the search's
first branching column is 2 (so `coverColumn 2` of the built arena is the arena
state reached inside `find_solution` right after its first cover); running the
pair on that already-covered column re-inserts column 2 into the header ring and
its row's cells into their columns, yielding a different state. -/
theorem c2_counterexample_covered_column :
    chooseLoop 20 (dlxInit 6 4 psSmall6) 6
        (aget (dlxInit 6 4 psSmall6).R (aget (dlxInit 6 4 psSmall6).R 6))
        (aget (dlxInit 6 4 psSmall6).R 6) = some 2 ∧
      ((coverColumn 60 (dlxInit 6 4 psSmall6) 2).bind fun t =>
          (coverColumn 60 t 2).bind fun t2 => uncoverColumn 60 t2 2) ≠
        coverColumn 60 (dlxInit 6 4 psSmall6) 2 ∧
      ((coverColumn 60 (dlxInit 6 4 psSmall6) 2).bind fun t =>
          (coverColumn 60 t 2).bind fun t2 => uncoverColumn 60 t2 2).isSome = true := by
  refine ⟨by decide, by decide, by decide⟩

/-- C3, counterexample: a top-level `find_solution` call that returns a solution
does not leave the arena in its post-build state.  On the one-column instance
`psOne` the search returns the solution `[true]`, but the arena it leaves behind
differs from the built arena (column 0 is still covered). -/
theorem c3_counterexample_success_leaves_covers :
    (find_solution 30 1 (dlxInit 1 1 psOne) (init_solution 1)).map
        (fun r => r.1) = some (some [true]) ∧
      (find_solution 30 1 (dlxInit 1 1 psOne) (init_solution 1)).map
        (fun r => r.2.1) ≠ some (dlxInit 1 1 psOne) := by
  refine ⟨by decide, by decide⟩

set_option synthInstance.maxSize 4000

/-- C3, amended: whenever a `find_solution` call on a well-formed arena state
(`GS`: the global dancing-links invariant, which the post-build state and every
state the search covers its way into satisfy) returns the no-solution outcome,
the arena is restored exactly — every `L`, `R`, `U`, `D`, `C` and `S` field —
to the state it had when the call began.  The original claim also asserted
restoration after a successful return, which is false (see the
counterexample): on success every cover of the successful branch is left
applied. -/
theorem c3_amended_no_solution_restores (nc : Nat) (s : DlxData)
    (cols : List (Nat × List (Nat × List Nat))) (fuel : Nat)
    (sol sol' : List Bool) (s' : DlxData)
    (hGS : GS nc s cols)
    (hrun : find_solution fuel nc s sol = some (none, s', sol')) :
    s' = s :=
  (searchGo_none_restores nc fuel).1 s cols sol none s' sol' hGS hrun rfl

/-- Witness for the amended C3 theorem: the built arena of the unsolvable
3-column instance `psOdd` satisfies the invariant with column data `colsOdd`,
the search returns no solution, and the theorem applies, giving back exactly
the built arena. -/
theorem c3_amended_no_solution_restores_witness :
    GS 3 (dlxInit 3 3 psOdd) colsOdd ∧ dlxInit 3 3 psOdd = dlxInit 3 3 psOdd :=
  ⟨by decide,
    c3_amended_no_solution_restores 3 (dlxInit 3 3 psOdd) colsOdd 40
      (init_solution 3) (init_solution 3) (dlxInit 3 3 psOdd)
      (by decide) (by decide)⟩

/-- C7: on every well-formed arena state (`GS`, satisfied by the post-build
state), the recursive search terminates — some fuel makes `find_solution`
return — and its recursion depth is bounded by `NumCols`: the active-column
list has at most `NumCols` entries, and covering the chosen column of any
level removes exactly one entry, so each recursive level descends with a
strictly smaller active set. -/
theorem c7_search_terminates_depth_nc (nc : Nat) (s : DlxData)
    (cols : List (Nat × List (Nat × List Nat))) (sol : List Bool)
    (hGS : GS nc s cols) :
    (∃ fuel out, find_solution fuel nc s sol = some out) ∧
    cols.length ≤ nc ∧
    (∀ m plan0, (m, plan0) ∈ cols →
      (gsAfterCover cols m (planCells plan0)).length + 1 = cols.length) := by
  refine ⟨searchGo_ex nc cols.length s cols sol hGS (Nat.le_refl _),
    GS_cols_length_le nc s cols hGS, ?_⟩
  intro m plan0 hce
  have hndf : (cols.map Prod.fst).Nodup := by
    obtain ⟨_, _, _, _, _, _, _, _, _, hndH, _, _, _⟩ := hGS
    exact (List.nodup_cons.mp hndH).2
  exact gsAfterCover_length cols m (planCells plan0)
    (List.mem_map.mpr ⟨(m, plan0), hce, rfl⟩) hndf

/-- Witness for the C7 theorem: the built arena of the 3-column instance
`psOdd` satisfies the invariant with column data `colsOdd`, so its search
terminates, its active set has at most 3 columns, and each cover removes
exactly one of them. -/
theorem c7_search_terminates_depth_nc_witness :
    GS 3 (dlxInit 3 3 psOdd) colsOdd ∧
    ((∃ fuel out, find_solution fuel 3 (dlxInit 3 3 psOdd) (init_solution 3) =
        some out) ∧
      colsOdd.length ≤ 3 ∧
      (∀ m plan0, (m, plan0) ∈ colsOdd →
        (gsAfterCover colsOdd m (planCells plan0)).length + 1 =
          colsOdd.length)) :=
  ⟨by decide,
    c7_search_terminates_depth_nc 3 (dlxInit 3 3 psOdd) colsOdd
      (init_solution 3) (by decide)⟩

end DlxSpec
